import Mathlib

/-!
Verification of the tool-uri library (RFC 3986 URIs, RFC 3987 IRIs,
RFC 6570 URI templates) against its natural-language specification.

The embedding models JavaScript strings as lists of UTF-16 code units
(`Str := List Nat`).  The hand-written recursive-descent parser is
translated function by function; the mutable cursor of the source
becomes explicit `(offset, limit)` arguments, mutation of `buf.offset`
becomes returned offsets, and thrown `UriError`s become `Except.error`
values carrying the message and the offset at the throw site.  Scanning
loops are translated as fuel-indexed structural recursions; every fuel
argument is chosen so that the fuel cannot run out before the loop guard
fails, and the fuel-zero case returns the same value the guard-failure
exit returns, so the fueled function agrees with the source loop while
remaining kernel-computable.
-/

namespace ToolUri

/-- UTF-16 code units of a JavaScript string. -/
abbrev Str := List Nat

/-- Sentinel for character reads past the end of the underlying string.
JavaScript returns NaN (from charCodeAt) or undefined (from codePointAt)
there; every predicate and comparison in the source treats those values
as no-match, which also holds for this out-of-range code. -/
def NOCHAR : Nat := 0x110000

/-- charCodeAt: the code unit at index i, or the sentinel when out of range. -/
def chAt (cs : Str) (i : Nat) : Nat := cs.getD i NOCHAR

/-- codePointAt: the code unit at index i, combining a surrogate pair. -/
def cpAt (cs : Str) (i : Nat) : Nat :=
  let c := chAt cs i
  if 0xd800 ≤ c ∧ c ≤ 0xdbff then
    let c2 := chAt cs (i + 1)
    if 0xdc00 ≤ c2 ∧ c2 ≤ 0xdfff then 0x10000 + (c - 0xd800) * 0x400 + (c2 - 0xdc00)
    else c
  else c

/-- JavaScript String.prototype.slice(a, b) for clamped 0 ≤ a, b. -/
def extract (cs : Str) (a b : Nat) : Str := (cs.drop a).take (b - a)

/-- Encode a Lean string as UTF-16 code units (the JavaScript string model).
Code points above 0xFFFF split into a surrogate pair. -/
def u16 (s : String) : Str :=
  s.data.foldr
    (fun c r =>
      if c.toNat ≤ 0xffff then c.toNat :: r
      else (0xd800 + (c.toNat - 0x10000) / 0x400) ::
           (0xdc00 + (c.toNat - 0x10000) % 0x400) :: r)
    []

/-- Index of the first occurrence of code unit c, if any. -/
def idxOf (c : Nat) : Str → Option Nat
  | [] => none
  | x :: xs => if x = c then some 0 else (idxOf c xs).map (· + 1)

/-- String.prototype.indexOf(c, i): first occurrence at or after i. -/
def idxOfFrom (cs : Str) (c : Nat) (i : Nat) : Option Nat :=
  (idxOf c (cs.drop i)).map (· + i)

/-- String.prototype.includes(c, i). -/
def containsFrom (cs : Str) (c : Nat) (i : Nat) : Bool := (cs.drop i).contains c

/-- String.prototype.lastIndexOf(c). -/
def lastIdxOf (c : Nat) : Str → Option Nat
  | [] => none
  | x :: xs =>
    match lastIdxOf c xs with
    | some j => some (j + 1)
    | none => if x = c then some 0 else none

/-- String.prototype.startsWith(p). -/
def lstartsWith (p s : Str) : Bool := s.take p.length = p

/-! ## Lex: character classes (src/uri/lex.ts) -/

/-- ALPHA. -/
def isAlpha (c : Nat) : Bool := (0x41 ≤ c ∧ c ≤ 0x5a) ∨ (0x61 ≤ c ∧ c ≤ 0x7a)

/-- DIGIT. -/
def isDigit (c : Nat) : Bool := 0x30 ≤ c ∧ c ≤ 0x39

/-- ucschar of RFC 3987. -/
def isUcsChar (c : Nat) : Bool :=
  (0xa0 ≤ c ∧ c ≤ 0xd7ff) ∨
  (0xf900 ≤ c ∧ c ≤ 0xfdcf) ∨
  (0xfdf0 ≤ c ∧ c ≤ 0xffef) ∨
  (0x10000 ≤ c ∧ c ≤ 0x1fffd) ∨
  (0x20000 ≤ c ∧ c ≤ 0x2fffd) ∨
  (0x30000 ≤ c ∧ c ≤ 0x3fffd) ∨
  (0x40000 ≤ c ∧ c ≤ 0x4fffd) ∨
  (0x50000 ≤ c ∧ c ≤ 0x5fffd) ∨
  (0x60000 ≤ c ∧ c ≤ 0x6fffd) ∨
  (0x70000 ≤ c ∧ c ≤ 0x7fffd) ∨
  (0x80000 ≤ c ∧ c ≤ 0x8fffd) ∨
  (0x90000 ≤ c ∧ c ≤ 0x9fffd) ∨
  (0xa0000 ≤ c ∧ c ≤ 0xafffd) ∨
  (0xb0000 ≤ c ∧ c ≤ 0xbfffd) ∨
  (0xc0000 ≤ c ∧ c ≤ 0xcfffd) ∨
  (0xd0000 ≤ c ∧ c ≤ 0xdfffd) ∨
  (0xe1000 ≤ c ∧ c ≤ 0xefffd)

/-- iprivate of RFC 3987. -/
def isIPrivateChar (c : Nat) : Bool :=
  (0xe000 ≤ c ∧ c ≤ 0xf8ff) ∨
  (0xf0000 ≤ c ∧ c ≤ 0xffffd) ∨
  (0x100000 ≤ c ∧ c ≤ 0x10fffd)

/-- unreserved (iunreserved when the ucs flag is set). -/
def isUnreservedChar (c : Nat) (ucs : Bool := false) : Bool :=
  isAlpha c ∨ isDigit c ∨ c = 0x2d ∨ c = 0x2e ∨ c = 0x5f ∨ c = 0x7e ∨
  (ucs ∧ isUcsChar c)

/-- gen-delims. -/
def isGenDelimChar (c : Nat) : Bool :=
  c = 0x3a ∨ c = 0x2f ∨ c = 0x3f ∨ c = 0x23 ∨ c = 0x5b ∨ c = 0x5d ∨ c = 0x40

/-- sub-delims. -/
def isSubDelimChar (c : Nat) : Bool :=
  c = 0x21 ∨ c = 0x24 ∨ c = 0x26 ∨ c = 0x27 ∨ c = 0x28 ∨ c = 0x29 ∨
  c = 0x2a ∨ c = 0x2b ∨ c = 0x2c ∨ c = 0x3b ∨ c = 0x3d

/-- reserved = gen-delims / sub-delims. -/
def isReservedChar (c : Nat) : Bool := isGenDelimChar c ∨ isSubDelimChar c

/-- scheme continuation characters. -/
def isSchemeChar (c : Nat) : Bool :=
  isAlpha c ∨ isDigit c ∨ c = 0x2b ∨ c = 0x2d ∨ c = 0x2e

/-- userinfo characters (without pct-encoded). -/
def isUserinfoChar (c : Nat) (ucs : Bool := false) : Bool :=
  isUnreservedChar c ucs ∨ isSubDelimChar c ∨ c = 0x3a

/-- reg-name characters (without pct-encoded). -/
def isHostChar (c : Nat) (ucs : Bool := false) : Bool :=
  isUnreservedChar c ucs ∨ isSubDelimChar c

/-- pchar (without pct-encoded). -/
def isPathChar (c : Nat) (ucs : Bool := false) : Bool :=
  isUnreservedChar c ucs ∨ isSubDelimChar c ∨ c = 0x3a ∨ c = 0x40

/-- query characters (without pct-encoded). -/
def isQueryChar (c : Nat) (ucs : Bool := false) : Bool :=
  isPathChar c ucs ∨ (ucs ∧ isIPrivateChar c) ∨ c = 0x2f ∨ c = 0x3f

/-- fragment characters (without pct-encoded). -/
def isFragmentChar (c : Nat) (ucs : Bool := false) : Bool :=
  isPathChar c ucs ∨ c = 0x2f ∨ c = 0x3f

/-- characters safe in form-urlencoded data. -/
def isFormChar (c : Nat) (ucs : Bool := false) : Bool :=
  isUnreservedChar c ucs ∨ c = 0x2f ∨ c = 0x2b

/-- A named URI character set. -/
inductive UriCharset where
  | unreserved
  | reserved
  | userinfo
  | host
  | path
  | query
  | fragment
  | form
deriving DecidableEq, Repr

/-- Membership in a named URI character set. -/
def isUriChar (c : Nat) (charset : UriCharset) (ucs : Bool := false) : Bool :=
  match charset with
  | .unreserved => isUnreservedChar c ucs
  | .reserved => isUnreservedChar c ucs ∨ isReservedChar c
  | .userinfo => isUserinfoChar c ucs
  | .host => isHostChar c ucs
  | .path => isPathChar c ucs
  | .query => isQueryChar c ucs
  | .fragment => isFragmentChar c ucs
  | .form => isFormChar c ucs

/-- HEXDIG. -/
def isHexChar (c : Nat) : Bool :=
  isDigit c ∨ (0x41 ≤ c ∧ c ≤ 0x46) ∨ (0x61 ≤ c ∧ c ≤ 0x66)

/-- Uppercase hex digit for a value below 16 (indexing "0123456789ABCDEF"). -/
def hexEncode (v : Nat) : Nat := if v < 10 then 0x30 + v else 0x41 + (v - 10)

/-- pct-encoded = percent sign followed by two HEXDIG, within the limit. -/
def isPctEncodedAt (cs : Str) (l o : Nat) : Bool :=
  o + 2 < l ∧ chAt cs o = 0x25 ∧ isHexChar (chAt cs (o + 1)) ∧ isHexChar (chAt cs (o + 2))

/-- One percent-encoded byte. -/
def pctByte (b : Nat) : Str := [0x25, hexEncode ((b >>> 4) &&& 0xf), hexEncode (b &&& 0xf)]

/-- Percent-encodes the UTF-8 bytes of a code point (pctEncodeUtf8). -/
def pctEncodeUtf8 (cp : Nat) : Str :=
  if cp ≤ 0x7f then
    pctByte (cp &&& 0xff)
  else if cp ≤ 0x7ff then
    pctByte (((cp >>> 6) &&& 0x1f) ||| 0xc0) ++ pctByte ((cp &&& 0x3f) ||| 0x80)
  else if cp ≤ 0xffff then
    pctByte (((cp >>> 12) &&& 0x0f) ||| 0xe0) ++ pctByte (((cp >>> 6) &&& 0x3f) ||| 0x80) ++
    pctByte ((cp &&& 0x3f) ||| 0x80)
  else if cp ≤ 0x10ffff then
    pctByte (((cp >>> 18) &&& 0x07) ||| 0xf0) ++ pctByte (((cp >>> 12) &&& 0x3f) ||| 0x80) ++
    pctByte (((cp >>> 6) &&& 0x3f) ||| 0x80) ++ pctByte ((cp &&& 0x3f) ||| 0x80)
  else []

/-- Loop body of pctEncode, by fuel; the fuel never runs out for the fuel
passed by `pctEncode` (the loop advances the offset every step). -/
def pctEncodeGo (charset : UriCharset) (s : Str) : Nat → Str → Nat → Nat → Str
  | 0, result, start, _ =>
    if start < s.length then result ++ s.drop start else result
  | fuel + 1, result, start, offset =>
    if offset < s.length then
      let c := cpAt s offset
      if isUriChar c charset then
        pctEncodeGo charset s fuel result start (offset + 1)
      else
        let offset2 := offset + (if 0xffff < c then 2 else 1)
        pctEncodeGo charset s fuel (result ++ extract s start offset ++ pctEncodeUtf8 c)
          offset2 offset2
    else if start < s.length then result ++ s.drop start else result

/-- pctEncode: percent-encodes a string, letting the given character set
pass through verbatim (the source default is the unreserved set). -/
def pctEncode (s : Str) (charset : UriCharset := .unreserved) : Str :=
  pctEncodeGo charset s (s.length + 1) [] 0 0

/-! ## URI parser (src/uri/parse.ts)

Each function takes the input, the scan limit, and the current offset,
and returns the parsed value together with the offset after it, or an
error carrying the message and the offset at the throw site. -/

/-- A parse error: the message together with the cursor offset at the
throw site (UriError drops the interpolated input from the message). -/
structure Err where
  msg : String
  offset : Nat
deriving DecidableEq, Repr

/-- Parser result monad. -/
abbrev P (α : Type) := Except Err α

/-- Scheme continuation loop of parseScheme. -/
def schemeLoopGo (cs : Str) (l : Nat) : Nat → Nat → Nat
  | 0, o => o
  | fuel + 1, o =>
    if o < l ∧ isSchemeChar (chAt cs o) then schemeLoopGo cs l fuel (o + 1) else o

/-- parseScheme: ALPHA followed by scheme characters. -/
def parseScheme (cs : Str) (l o : Nat) : P (Str × Nat) :=
  if o < l ∧ isAlpha (chAt cs o) then
    let o2 := schemeLoopGo cs l (l - (o + 1)) (o + 1)
    .ok (extract cs o o2, o2)
  else .error ⟨"Scheme must start with a letter", o⟩

/-- Shared loop shape of parseUserinfo, parseRegName, parseQuery and
parseFragment: consume class characters and percent-triplets, erroring
on a bare percent sign. -/
def scanPctGo (p : Nat → Bool) (cs : Str) (l : Nat) : Nat → Nat → P Nat
  | 0, o => .ok o
  | fuel + 1, o =>
    if o < l then
      if p (chAt cs o) then scanPctGo p cs l fuel (o + 1)
      else if isPctEncodedAt cs l o then scanPctGo p cs l fuel (o + 3)
      else if chAt cs o = 0x25 then .error ⟨"Invalid percent-encoding", o⟩
      else .ok o
    else .ok o

/-- Entry point of the shared scanning loop. -/
def scanPct (p : Nat → Bool) (cs : Str) (l o : Nat) : P Nat :=
  scanPctGo p cs l (l - o) o

/-- Plain predicate scan (the 1*HEXDIG and address loops of parseIpvFuture). -/
def scanWhileGo (p : Nat → Bool) (cs : Str) (l : Nat) : Nat → Nat → Nat
  | 0, o => o
  | fuel + 1, o =>
    if o < l ∧ p (chAt cs o) then scanWhileGo p cs l fuel (o + 1) else o

/-- Entry point of the plain scanning loop. -/
def scanWhile (p : Nat → Bool) (cs : Str) (l o : Nat) : Nat :=
  scanWhileGo p cs l (l - o) o

/-- parseUserinfo (the slice is recorded by the caller). -/
def parseUserinfoScan (ucs : Bool) (cs : Str) (l o : Nat) : P Nat :=
  scanPct (fun c => isUserinfoChar c ucs) cs l o

/-- parsePath: the nested segment and slash loops of the source are fused
into a single scan; the slash is not a pchar, so the order of branches
makes the fused loop equivalent to the original pair of loops. -/
def pathLoopGo (ucs : Bool) (cs : Str) (l : Nat) : Nat → Nat → P Nat
  | 0, o => .ok o
  | fuel + 1, o =>
    if o < l then
      if isPathChar (chAt cs o) ucs then pathLoopGo ucs cs l fuel (o + 1)
      else if isPctEncodedAt cs l o then pathLoopGo ucs cs l fuel (o + 3)
      else if chAt cs o = 0x25 then .error ⟨"Invalid percent-encoding", o⟩
      else if chAt cs o = 0x2f then pathLoopGo ucs cs l fuel (o + 1)
      else .ok o
    else .ok o

/-- parsePath. -/
def parsePath (ucs : Bool) (cs : Str) (l o : Nat) : P (Str × Nat) := do
  let o2 ← pathLoopGo ucs cs l (l - o) o
  .ok (extract cs o o2, o2)

/-- parseQuery. -/
def parseQuery (ucs : Bool) (cs : Str) (l o : Nat) : P (Str × Nat) := do
  let o2 ← scanPct (fun c => isQueryChar c ucs) cs l o
  .ok (extract cs o o2, o2)

/-- parseFragment. -/
def parseFragment (ucs : Bool) (cs : Str) (l o : Nat) : P (Str × Nat) := do
  let o2 ← scanPct (fun c => isFragmentChar c ucs) cs l o
  .ok (extract cs o o2, o2)

/-- parseDecimalOctet loop: at most three digits, rejecting a leading zero
before a further digit; the fuel counts the remaining allowed digits. -/
def decOctetGo (cs : Str) (l : Nat) : Nat → Nat → Nat → Nat → P (Nat × Nat)
  | 0, digits, value, o =>
    if digits = 0 ∨ 255 < value then .error ⟨"Invalid IPv4 octet", o⟩ else .ok (value, o)
  | fuel + 1, digits, value, o =>
    if o < l ∧ isDigit (chAt cs o) then
      if digits ≠ 0 ∧ value = 0 then .error ⟨"Invalid IPv4 octet", o⟩
      else decOctetGo cs l fuel (digits + 1) (value * 10 + (chAt cs o - 0x30)) (o + 1)
    else if digits = 0 ∨ 255 < value then .error ⟨"Invalid IPv4 octet", o⟩
    else .ok (value, o)

/-- parseDecimalOctet. -/
def parseDecimalOctet (cs : Str) (l o : Nat) : P (Nat × Nat) :=
  decOctetGo cs l 3 0 0 o

/-- The dot between octets of parseIpv4. -/
def expectDot (cs : Str) (l o : Nat) : P Nat :=
  if o < l ∧ chAt cs o = 0x2e then .ok (o + 1) else .error ⟨"Expected dot", o⟩

/-- parseIpv4 on a cursor: four decimal octets separated by dots. -/
def parseIpv4Core (cs : Str) (l o : Nat) : P (Str × Nat) := do
  let (_, o1) ← parseDecimalOctet cs l o
  let o1 ← expectDot cs l o1
  let (_, o2) ← parseDecimalOctet cs l o1
  let o2 ← expectDot cs l o2
  let (_, o3) ← parseDecimalOctet cs l o2
  let o3 ← expectDot cs l o3
  let (_, o4) ← parseDecimalOctet cs l o3
  .ok (extract cs o o4, o4)

/-- parseIpv4 on a string: additionally requires full consumption. -/
def parseIpv4Str (s : Str) : P Str := do
  let (r, o) ← parseIpv4Core s s.length 0
  if o ≠ s.length then .error ⟨"Invalid IPv4 address", o⟩ else .ok r

/-- The 1-4 HEXDIG hextet scan of parseIpv6. -/
def hexScanGo (cs : Str) (l start : Nat) : Nat → Nat → Nat
  | 0, o => o
  | fuel + 1, o =>
    if o - start < 4 ∧ o < l ∧ isHexChar (chAt cs o) then hexScanGo cs l start fuel (o + 1)
    else o

/-- Hextet scan entry point (start = current offset). -/
def hexScan (cs : Str) (l o : Nat) : Nat := hexScanGo cs l o 4 o

/-- The hextet scan at the bottom of the pre-compression loop body of
parseIpv6: mark the possible IPv4 start at six hextets, scan 1-4 hex
digits; an empty scan backtracks to a marked IPv4 start or errors. -/
def ipv6Hextet (cs : Str) (l o1 hextets ipv4Start : Nat) :
    P ((Nat × Nat × Nat × Bool) ⊕ (Nat × Nat)) :=
  let i4 := if hextets = 6 then o1 else ipv4Start
  let o2 := hexScan cs l o1
  if o2 = o1 then
    if i4 ≠ 0 then .ok (.inl (i4, 6, i4, false))
    else .error ⟨"Expected hex digit", o1⟩
  else .ok (.inr (o2, i4))

/-- One iteration of the pre-compression loop of parseIpv6.  The left
result breaks the loop with (offset, hextets, ipv4Start, compression);
the right result continues with hextets + 1 at (offset, ipv4Start). -/
def ipv6Body (cs : Str) (l o hextets ipv4Start : Nat) :
    P ((Nat × Nat × Nat × Bool) ⊕ (Nat × Nat)) :=
  if o < l ∧ chAt cs o = 0x3a then
    if o + 1 < l ∧ chAt cs (o + 1) = 0x3a then
      .ok (.inl (o + 2, hextets, 0, true))
    else if hextets = 0 then .error ⟨"Expected colon", o + 1⟩
    else ipv6Hextet cs l (o + 1) hextets ipv4Start
  else if ipv4Start ≠ 0 then .ok (.inl (ipv4Start, 6, ipv4Start, false))
  else if hextets ≠ 0 then .error ⟨"Expected colon", o⟩
  else ipv6Hextet cs l o hextets ipv4Start

/-- Pre-compression hextet loop of parseIpv6 (fuel 8 = the loop bound on
hextets). -/
def ipv6Phase1Go (cs : Str) (l : Nat) : Nat → Nat → Nat → Nat → P (Nat × Nat × Nat × Bool)
  | 0, o, hextets, ipv4Start => .ok (o, hextets, ipv4Start, false)
  | fuel + 1, o, hextets, ipv4Start =>
    if hextets < 8 then
      match ipv6Body cs l o hextets ipv4Start with
      | .error e => .error e
      | .ok (.inl r) => .ok r
      | .ok (.inr (o2, i4)) => ipv6Phase1Go cs l fuel o2 (hextets + 1) i4
    else .ok (o, hextets, ipv4Start, false)

/-- Post-compression hextet loop of parseIpv6 (fuel 7 = the loop bound).
Returns the offset and the possible trailing IPv4 start. -/
def ipv6Phase2Go (cs : Str) (l : Nat) : Nat → Nat → Nat → Nat → P (Nat × Nat)
  | 0, o, _, ipv4Start => .ok (o, ipv4Start)
  | fuel + 1, o, hextets, ipv4Start =>
    if hextets < 7 then
      let o2 := hexScan cs l o
      if o2 = o then .error ⟨"Expected hex digit", o⟩
      else if o2 = l then .ok (o2, ipv4Start)
      else if o2 < l ∧ chAt cs o2 = 0x3a then ipv6Phase2Go cs l fuel (o2 + 1) (hextets + 1) ipv4Start
      else .ok (o, o)
    else .ok (o, ipv4Start)

/-- parseIpv6 on a cursor: hextets with at most one compression marker and
an optional trailing IPv4 address, exhausting the scan limit. -/
def parseIpv6Core (cs : Str) (l o : Nat) : P (Str × Nat) := do
  let start := o
  let (o, hextets, ipv4Start, compression) ← ipv6Phase1Go cs l 8 o 0 0
  let (o, ipv4Start) ←
    if compression ∧ o < l then ipv6Phase2Go cs l 7 o hextets ipv4Start
    else .ok (o, ipv4Start)
  let o ←
    if o = ipv4Start then do
      let (_, o2) ← parseIpv4Core cs l o
      pure o2
    else pure o
  if o ≠ l then .error ⟨"Invalid IPv6 address", o⟩
  else .ok (extract cs start o, o)

/-- parseIpv6 on a string. -/
def parseIpv6Str (s : Str) : P Str := (parseIpv6Core s s.length 0).map (·.1)

/-- parseIpvFuture. -/
def parseIpvFutureCore (ucs : Bool) (cs : Str) (l o : Nat) : P (Str × Nat) := do
  let start := o
  let o ← if o < l ∧ chAt cs o = 0x76 then pure (o + 1)
          else .error ⟨"IPvFuture must start with v", o⟩
  let o ← if o < l ∧ isHexChar (chAt cs o) then pure (o + 1)
          else .error ⟨"Expected hex digit", o⟩
  let o := scanWhile isHexChar cs l o
  let o ← if o < l ∧ chAt cs o = 0x2e then pure (o + 1)
          else .error ⟨"Expected dot after version", o⟩
  let o ← if o < l ∧ isUserinfoChar (chAt cs o) ucs then pure (o + 1)
          else .error ⟨"Expected address", o⟩
  let o := scanWhile (fun c => isUserinfoChar c ucs) cs l o
  .ok (extract cs start o, o)

/-- Port digit loop of parsePort (the guard stops once the accumulator
reaches 0xffff). -/
def portLoopGo (cs : Str) (l : Nat) : Nat → Nat → Nat → Nat × Nat
  | 0, value, o => (value, o)
  | fuel + 1, value, o =>
    if value < 0xffff ∧ o < l ∧ isDigit (chAt cs o) then
      portLoopGo cs l fuel (value * 10 + (chAt cs o - 0x30)) (o + 1)
    else (value, o)

/-- parsePort: the optional colon-prefixed port. -/
def parsePort (cs : Str) (l o : Nat) : P (Option Str × Nat) :=
  if o < l ∧ chAt cs o = 0x3a then
    let o1 := o + 1
    let (v, o2) := portLoopGo cs l (l - o1) 0 o1
    if 0xffff < v then .error ⟨"Invalid port number", o2⟩
    else .ok (some (extract cs o1 o2), o2)
  else .ok (none, o)

/-- Host classification produced by parseHost. -/
structure HostInfo where
  hostname : Str
  ipv4 : Option Str := none
  ipv6 : Option Str := none
  ipvFuture : Option Str := none
deriving DecidableEq, Repr

/-- parseHost: IP-literal in brackets, IPv4, or reg-name.  JavaScript
indexOf returns -1 when the closing bracket is missing; the narrowed
limit is modelled as 0 then, which fails every bounds check exactly as
-1 does (the offset is at least 1 inside the bracket branch).  When the
IPv4 attempt throws, the source catches the error and continues the
reg-name scan at the offset the failed attempt had advanced to. -/
def parseHost (ucs : Bool) (cs : Str) (l o : Nat) : P (HostInfo × Nat) :=
  let hostStart := o
  if o < l ∧ chAt cs o = 0x5b then
    let o1 := o + 1
    let hostLimit := (idxOfFrom cs 0x5d o1).getD 0
    do
      let (isFuture, s, o2) ←
        if o1 < hostLimit ∧ chAt cs o1 = 0x76 then
          (parseIpvFutureCore ucs cs hostLimit o1).map (fun (s, o2) => (true, s, o2))
        else
          (parseIpv6Core cs hostLimit o1).map (fun (s, o2) => (false, s, o2))
      if o2 < l ∧ chAt cs o2 = 0x5d then
        .ok ({ hostname := extract cs hostStart (o2 + 1),
               ipv6 := if isFuture then none else some s,
               ipvFuture := if isFuture then some s else none }, o2 + 1)
      else .error ⟨"Invalid IP literal", o2⟩
  else
    match parseIpv4Core cs l o with
    | .ok (s, o2) => .ok ({ hostname := s, ipv4 := some s }, o2)
    | .error e =>
      match scanPct (fun c => isHostChar c ucs) cs l e.offset with
      | .error e2 => .error e2
      | .ok o2 => .ok ({ hostname := extract cs e.offset o2 }, o2)

/-- Authority components produced by parseAuthority. -/
structure AuthInfo where
  authority : Str
  userinfo : Option Str := none
  host : Str
  hostname : Str
  ipv4 : Option Str := none
  ipv6 : Option Str := none
  ipvFuture : Option Str := none
  port : Option Str := none
deriving DecidableEq, Repr

/-- parseAuthority: optional userinfo (decided by an at-sign lookahead over
the rest of the whole input), host, optional port. -/
def parseAuthority (ucs : Bool) (cs : Str) (l o : Nat) : P (AuthInfo × Nat) := do
  let authorityStart := o
  let (userinfo, o) ←
    if containsFrom cs 0x40 o then do
      let o2 ← parseUserinfoScan ucs cs l o
      if o2 < l ∧ chAt cs o2 = 0x40 then pure (some (extract cs o o2), o2 + 1)
      else .error ⟨"Invalid userinfo", o2⟩
    else pure ((none : Option Str), o)
  let hostStart := o
  let (hi, o) ← parseHost ucs cs l o
  let (port, o) ← parsePort cs l o
  .ok ({ authority := extract cs authorityStart o, userinfo,
         host := extract cs hostStart o, hostname := hi.hostname,
         ipv4 := hi.ipv4, ipv6 := hi.ipv6, ipvFuture := hi.ipvFuture, port }, o)

/-- The parsed component record (src/uri/uri.ts). -/
structure Uri where
  href : Str := []
  scheme : Option Str := none
  relative : Option Str := none
  authority : Option Str := none
  userinfo : Option Str := none
  host : Option Str := none
  hostname : Option Str := none
  ipv4 : Option Str := none
  ipv6 : Option Str := none
  ipvFuture : Option Str := none
  port : Option Str := none
  path : Str := []
  query : Option Str := none
  fragment : Option Str := none
deriving DecidableEq, Repr

/-- parseRelativePart: a double-slash authority with a path that must be
empty or start with a slash, or a bare path. -/
def parseRelativePart (ucs : Bool) (cs : Str) (l o : Nat) : P (Uri × Nat) := do
  let relativeStart := o
  if o + 1 < l ∧ chAt cs o = 0x2f ∧ chAt cs (o + 1) = 0x2f then
    let (ai, o1) ← parseAuthority ucs cs l (o + 2)
    if o1 < l ∧ chAt cs o1 ≠ 0x2f ∧ chAt cs o1 ≠ 0x3f ∧ chAt cs o1 ≠ 0x23 then
      .error ⟨"Path after authority must be empty or start with slash", o1⟩
    else do
      let (path, o2) ← parsePath ucs cs l o1
      .ok ({ relative := some (extract cs relativeStart o2),
             authority := some ai.authority, userinfo := ai.userinfo,
             host := some ai.host, hostname := some ai.hostname,
             ipv4 := ai.ipv4, ipv6 := ai.ipv6, ipvFuture := ai.ipvFuture,
             port := ai.port, path := path }, o2)
  else do
    let (path, o2) ← parsePath ucs cs l o
    .ok ({ relative := some (extract cs relativeStart o2), path := path }, o2)

/-- parseRelativeRef: relative part, optional query, optional fragment. -/
def parseRelativeRef (ucs : Bool) (cs : Str) (l o : Nat) : P (Uri × Nat) := do
  let (u, o1) ← parseRelativePart ucs cs l o
  let (query, o2) ←
    if o1 < l ∧ chAt cs o1 = 0x3f then
      (parseQuery ucs cs l (o1 + 1)).map (fun (q, o2) => ((some q : Option Str), o2))
    else pure ((none : Option Str), o1)
  let (fragment, o3) ←
    if o2 < l ∧ chAt cs o2 = 0x23 then
      (parseFragment ucs cs l (o2 + 1)).map (fun (f, o3) => ((some f : Option Str), o3))
    else pure ((none : Option Str), o2)
  .ok ({ u with query := query, fragment := fragment }, o3)

/-- parseUri on a cursor: scheme, colon, relative reference. -/
def parseUriCore (ucs : Bool) (cs : Str) (l o : Nat) : P (Uri × Nat) := do
  let uriStart := o
  let (scheme, o1) ← parseScheme cs l o
  let o2 ← if o1 < l ∧ chAt cs o1 = 0x3a then pure (o1 + 1) else .error ⟨"Invalid scheme", o1⟩
  let (u, o3) ← parseRelativeRef ucs cs l o2
  .ok ({ u with scheme := some scheme, href := extract cs uriStart o3 }, o3)

/-- parseUri on a string: additionally requires full consumption. -/
def parseUriStr (cs : Str) : P Uri := do
  let (u, o) ← parseUriCore false cs cs.length 0
  if o ≠ cs.length then .error ⟨"Invalid URI", o⟩ else .ok u

/-- parseIri on a string: parseUri with the ucs flag set, then the residual
check of the parseIri wrapper. -/
def parseIriStr (cs : Str) : P Uri := do
  let (u, o) ← parseUriCore true cs cs.length 0
  if o ≠ cs.length then .error ⟨"Invalid IRI", o⟩ else .ok u

/-- parseUriReference on a cursor: speculatively parse a scheme and rewind
when no colon follows, then parse a relative reference. -/
def parseUriReferenceCore (ucs : Bool) (cs : Str) (l o : Nat) : P (Uri × Nat) := do
  let uriStart := o
  let (scheme, o1) ←
    if o < l ∧ isAlpha (chAt cs o) then
      match parseScheme cs l o with
      | .error e => .error e
      | .ok (sch, o2) =>
        if o2 < l ∧ chAt cs o2 = 0x3a then .ok ((some sch : Option Str), o2 + 1)
        else .ok ((none : Option Str), uriStart)
    else .ok ((none : Option Str), o)
  let (u, o3) ← parseRelativeRef ucs cs l o1
  .ok ({ u with scheme := scheme, href := extract cs uriStart o3 }, o3)

/-- parseUriReference on a string. -/
def parseUriReferenceStr (cs : Str) : P Uri := do
  let (u, o) ← parseUriReferenceCore false cs cs.length 0
  if o ≠ cs.length then .error ⟨"Invalid URI reference", o⟩ else .ok u

/-! ## Uri model: format and predicates (src/uri/uri.ts) -/

/-- The component fields formatUri reads (TypeScript passes the whole
record structurally; only these five fields are used). -/
structure FmtParts where
  scheme : Option Str := none
  authority : Option Str := none
  path : Option Str := none
  query : Option Str := none
  fragment : Option Str := none
deriving DecidableEq, Repr

/-- formatUri: compose the five components with their fixed delimiters. -/
def formatUri (c : FmtParts) : Str :=
  (match c.scheme with | some s => s ++ [0x3a] | none => []) ++
  (match c.authority with | some a => [0x2f, 0x2f] ++ a | none => []) ++
  (match c.path with | some p => p | none => []) ++
  (match c.query with | some q => [0x3f] ++ q | none => []) ++
  (match c.fragment with | some f => [0x23] ++ f | none => [])

/-- The format view of a parsed record. -/
def Uri.fmtParts (u : Uri) : FmtParts :=
  { scheme := u.scheme, authority := u.authority, path := some u.path,
    query := u.query, fragment := u.fragment }

/-- isAbsoluteUri: a scheme is present and the fragment is absent or empty. -/
def isAbsoluteUri (u : Uri) : Bool :=
  u.scheme ≠ none ∧ (u.fragment = none ∨ u.fragment = some [])

/-- isRelativeUri: no scheme. -/
def isRelativeUri (u : Uri) : Bool := u.scheme = none

/-! ## Resolver (src/uri/resolve.ts) -/

/-- Remove the last segment and its preceding slash from the output buffer
(the lastIndexOf step of case C of removeDotSegments). -/
def popSegment (output : Str) : Str :=
  match lastIdxOf 0x2f output with
  | none => []
  | some i => output.take i

/-- The remove_dot_segments loop; every iteration shortens the input, so
the fuel passed by removeDotSegments never runs out. -/
def removeDotSegmentsGo : Nat → Str → Str → Str
  | 0, _, output => output
  | fuel + 1, input, output =>
    if input = [] then output
    else if lstartsWith [0x2e, 0x2e, 0x2f] input then
      removeDotSegmentsGo fuel (input.drop 3) output
    else if lstartsWith [0x2e, 0x2f] input then
      removeDotSegmentsGo fuel (input.drop 2) output
    else if lstartsWith [0x2f, 0x2e, 0x2f] input then
      removeDotSegmentsGo fuel (0x2f :: input.drop 3) output
    else if input = [0x2f, 0x2e] then
      removeDotSegmentsGo fuel [0x2f] output
    else if lstartsWith [0x2f, 0x2e, 0x2e, 0x2f] input then
      removeDotSegmentsGo fuel (0x2f :: input.drop 4) (popSegment output)
    else if input = [0x2f, 0x2e, 0x2e] then
      removeDotSegmentsGo fuel [0x2f] (popSegment output)
    else if input = [0x2e] ∨ input = [0x2e, 0x2e] then
      removeDotSegmentsGo fuel [] output
    else
      let slashIndex :=
        if lstartsWith [0x2f] input then idxOfFrom input 0x2f 1 else idxOfFrom input 0x2f 0
      match slashIndex with
      | none => output ++ input
      | some i => removeDotSegmentsGo fuel (input.drop i) (output ++ input.take i)

/-- removeDotSegments of RFC 3986 section 5.2.4. -/
def removeDotSegments (input : Str) : Str :=
  removeDotSegmentsGo (input.length + 1) input []

/-- mergePaths of RFC 3986 section 5.2.3. -/
def mergePaths (baseAuthority : Option Str) (basePath refPath : Str) : Str :=
  if baseAuthority ≠ none ∧ basePath = [] then 0x2f :: refPath
  else
    match lastIdxOf 0x2f basePath with
    | none => refPath
    | some i => basePath.take (i + 1) ++ refPath

/-- The transform-references procedure of resolveUri, on two parsed
records, after the source has already defaulted an absent base to the
reference itself.  The target record of the source sets only the listed
fields, so relative and the three IP classification fields come out
absent. -/
def resolveUriCore (base reference : Uri) : Uri :=
  let t : Uri :=
    if reference.scheme ≠ none then
      { scheme := reference.scheme, authority := reference.authority,
        userinfo := reference.userinfo, host := reference.host,
        hostname := reference.hostname, port := reference.port,
        path := removeDotSegments reference.path, query := reference.query }
    else if reference.authority ≠ none then
      { scheme := base.scheme, authority := reference.authority,
        userinfo := reference.userinfo, host := reference.host,
        hostname := reference.hostname, port := reference.port,
        path := removeDotSegments reference.path, query := reference.query }
    else
      let t0 : Uri :=
        { scheme := base.scheme, authority := base.authority,
          userinfo := base.userinfo, host := base.host,
          hostname := base.hostname, port := base.port }
      if reference.path = [] then
        { t0 with path := base.path,
                  query := match reference.query with | some q => some q | none => base.query }
      else if lstartsWith [0x2f] reference.path then
        { t0 with path := removeDotSegments reference.path, query := reference.query }
      else
        { t0 with path := removeDotSegments (mergePaths base.authority base.path reference.path),
                  query := reference.query }
  let t := { t with fragment := reference.fragment }
  { t with href := formatUri t.fmtParts }

/-- resolveUri on parsed records with a possibly absent base (the source
defaults an absent base to the reference itself). -/
def resolveUri (base : Option Uri) (reference : Uri) : Uri :=
  resolveUriCore (base.getD reference) reference

/-- resolveUri with a parsed (or absent) base and a string reference: the
reference is parsed as a URI reference first. -/
def resolveUriStrRef (base : Option Uri) (reference : Str) : P Uri := do
  let r ← parseUriReferenceStr reference
  .ok (resolveUri base r)

/-! ## Template lex (src/template/lex.ts) -/

/-- ucsPrefix: the first maxLength Unicode scalar values of the input as a
UTF-16 slice (a surrogate pair counts as one).  Renamed from the source
ucsPrefix for this file. -/
def ucsPrefixGo (input : Str) (maxLength : Int) : Nat → Nat → Nat → Nat
  | 0, offset, _ => offset
  | fuel + 1, offset, count =>
    if offset < input.length ∧ (count : Int) < maxLength then
      ucsPrefixGo input maxLength fuel
        (offset + (if 0xffff < cpAt input offset then 2 else 1)) (count + 1)
    else offset

/-- ucsPrefix entry point. -/
def ucsPrefixTake (input : Str) (maxLength : Int) : Str :=
  input.take (ucsPrefixGo input maxLength (input.length + 1) 0 0)

/-- The RFC 6570 literals class (without pct-encoded). -/
def isLiteralChar (c : Nat) : Bool :=
  c = 0x21 ∨ (0x23 ≤ c ∧ c ≤ 0x24) ∨ c = 0x26 ∨ (0x28 ≤ c ∧ c ≤ 0x3b) ∨
  c = 0x3d ∨ (0x3f ≤ c ∧ c ≤ 0x5b) ∨ c = 0x5d ∨ c = 0x5f ∨
  (0x61 ≤ c ∧ c ≤ 0x7a) ∨ c = 0x7e ∨ isUcsChar c ∨ isIPrivateChar c

/-- varchar (without pct-encoded). -/
def isVarChar (c : Nat) : Bool := isAlpha c ∨ isDigit c ∨ c = 0x5f

/-! ## Template model (template/template.ts, provided as the second
concatenated doc of src/uri/error.ts) -/

/-- A template variable specifier.  The optional value-coercion hook of
the source is modelled as absent (every claim concerns the default
coercion). -/
structure UriVariable where
  name : Str
  separator : Str := [0x2c]
  compositeSeparator : Str := [0x2c]
  named : Bool := false
  empty : Str := []
  allow : UriCharset := .unreserved
  maxLength : Int := -1
  explode : Bool := false
  deepObject : Bool := false
deriving DecidableEq, Repr

/-- A template expression: operator, variables, first and separator.
The variable-list field is named vars here because its source name is a
reserved word in this setting. -/
structure UriExpression where
  operator : Str
  vars : List UriVariable
  first : Str
  separator : Str
deriving DecidableEq, Repr

/-- A template part: a literal string or an expression. -/
inductive UriTemplatePart where
  | lit (s : Str)
  | expr (e : UriExpression)
deriving DecidableEq, Repr

/-- A parsed template: the ordered list of parts. -/
structure UriTemplate where
  parts : List UriTemplatePart
deriving DecidableEq, Repr

/-- Options accepted by createUriVariable. -/
structure UriVariableOptions where
  separator : Option Str := none
  compositeSeparator : Option Str := none
  named : Option Bool := none
  empty : Option Str := none
  allow : Option UriCharset := none
  maxLength : Option Int := none
  explode : Option Bool := none
  deepObject : Option Bool := none
deriving DecidableEq, Repr

/-- createUriTemplate (template/template.ts line 60, in the second doc
of src/uri/error.ts): wraps the parts list in a template record. -/
def createUriTemplate (parts : List UriTemplatePart) : UriTemplate := ⟨parts⟩

/-- createUriExpression (template/template.ts line 141, in the second
doc of src/uri/error.ts): builds the expression record from the
operator, the variable list, and the first and separator options.  The
one caller (parseUriTemplateExpression) always passes both options, so
the fallbacks of the source (empty first, comma separator) never fire
and the options argument is modelled by the two resolved strings. -/
def createUriExpression (operator : Str) (vs : List UriVariable)
    (first separator : Str) : UriExpression :=
  ⟨operator, vs, first, separator⟩

/-- createUriVariable (template/template.ts line 281, in the second doc
of src/uri/error.ts): builds a variable record from its name and
options, with the source defaults: separator and compositeSeparator
default to a comma, named to false, empty to the empty string, allow to
the unreserved set, maxLength to -1 (unlimited), explode and deepObject
to false.  The optional coerceString hook is passed through undefined
by every claim, so the record models it as absent (the expansion
engine embeds the default coercion). -/
def createUriVariable (name : Str) (opts : UriVariableOptions) : UriVariable :=
  { name := name,
    separator := opts.separator.getD [0x2c],
    compositeSeparator := opts.compositeSeparator.getD [0x2c],
    named := opts.named.getD false,
    empty := opts.empty.getD [],
    allow := opts.allow.getD .unreserved,
    maxLength := opts.maxLength.getD (-1),
    explode := opts.explode.getD false,
    deepObject := opts.deepObject.getD false }

/-! ## Template parser (src/template/parse.ts).  UriTemplateError carries
the same data as UriError; both are modelled by `Err`. -/

/-- Variable name continuation loop of parseUriTemplateVariable.  The
source consumes an optional dot before each further varchar; when the
character after a consumed dot matches nothing the loop breaks without
rewinding the dot, so the dot stays inside the name slice. -/
def varNameLoopGo (cs : Str) (l : Nat) : Nat → Nat → Nat
  | 0, o => o
  | fuel + 1, o =>
    if o < l then
      let c0 := cpAt cs o
      let oD := if c0 = 0x2e then o + 1 else o
      let c := if c0 = 0x2e then (if oD < l then cpAt cs oD else NOCHAR) else c0
      if isVarChar c then varNameLoopGo cs l fuel (oD + (if 0xffff < c then 2 else 1))
      else if isPctEncodedAt cs l oD then varNameLoopGo cs l fuel (oD + 3)
      else oD
    else o

/-- Max-length digit loop of parseUriTemplateVariable: the first digit must
be 1-9, later digits 0-9, stopping once the accumulator reaches 1000. -/
def maxLenGo (cs : Str) (l : Nat) : Nat → Nat → Nat → Nat × Nat
  | 0, ml, o => (ml, o)
  | fuel + 1, ml, o =>
    if ml < 1000 ∧ o < l then
      let c := chAt cs o
      if (ml = 0 ∧ (c < 0x31 ∨ 0x39 < c)) ∨ (ml ≠ 0 ∧ (c < 0x30 ∨ 0x39 < c)) then (ml, o)
      else maxLenGo cs l fuel (ml * 10 + (c - 0x30)) (o + 1)
    else (ml, o)

/-- parseUriTemplateVariable: varname, then optionally an explode star or
a colon-prefixed max length. -/
def parseUriTemplateVariable (cs : Str) (l o : Nat) (opts : UriVariableOptions) :
    P (UriVariable × Nat) := do
  let start := o
  let c0 := cpAt cs o
  let o ←
    if isVarChar c0 then pure (o + (if 0xffff < c0 then 2 else 1))
    else if isPctEncodedAt cs l o then pure (o + 3)
    else .error ⟨"Expected URI template variable name", o⟩
  let o := varNameLoopGo cs l (l + 1) o
  let name := extract cs start o
  if o ≥ l then
    .ok (createUriVariable name { opts with maxLength := none, explode := some false }, o)
  else
    let c := chAt cs o
    if c = 0x2a then
      if o + 1 < l then .error ⟨"Invalid URI template variable", o + 1⟩
      else .ok (createUriVariable name { opts with maxLength := none, explode := some true }, o + 1)
    else if c = 0x3a then
      let (ml, o2) := maxLenGo cs l (l + 1) 0 (o + 1)
      if ml = 0 then .error ⟨"Invalid URI template variable max length modifier", o2⟩
      else if o2 < l then .error ⟨"Invalid URI template variable", o2⟩
      else .ok (createUriVariable name { opts with maxLength := some (ml : Int), explode := some false }, o2)
    else .error ⟨"Invalid URI template variable", o⟩

/-- The comma-separated variable list loop of parseUriTemplateExpression.
Each variable parses under a limit narrowed to the next comma (or the
expression limit); on the last variable the loop breaks with the offset
the variable parse reached. -/
def varListGo (cs : Str) (l : Nat) (opts : UriVariableOptions) :
    Nat → List UriVariable → Nat → P (List UriVariable × Nat)
  | 0, acc, o => .ok (acc, o)
  | fuel + 1, acc, o =>
    let stop := match idxOfFrom cs 0x2c o with
      | some i => min i l
      | none => l
    match parseUriTemplateVariable cs stop o opts with
    | .error e => .error e
    | .ok (v, o2) =>
      if stop < l then varListGo cs l opts fuel (acc ++ [v]) (stop + 1)
      else .ok (acc ++ [v], o2)

/-- parseUriTemplateExpression: the operator (with its five defaults) and
the variable list. -/
def parseUriTemplateExpression (cs : Str) (l o : Nat) : P (UriExpression × Nat) :=
  if o ≥ l then .error ⟨"Empty URI template expression", o⟩
  else
    let c := chAt cs o
    let reservedOp : Bool := c = 0x3d ∨ c = 0x2c ∨ c = 0x21 ∨ c = 0x40 ∨ c = 0x7c
    if reservedOp then .error ⟨"Reserved URI template operator", o⟩
    else
      let (o1, operator, first, separator, named, empty, allow) :
          Nat × Str × Str × Str × Bool × Str × UriCharset :=
        if c = 0x2b then (o + 1, [0x2b], [], [0x2c], false, [], .reserved)
        else if c = 0x23 then (o + 1, [0x23], [0x23], [0x2c], false, [], .reserved)
        else if c = 0x2e then (o + 1, [0x2e], [0x2e], [0x2e], false, [], .unreserved)
        else if c = 0x2f then (o + 1, [0x2f], [0x2f], [0x2f], false, [], .unreserved)
        else if c = 0x3b then (o + 1, [0x3b], [0x3b], [0x3b], true, [], .unreserved)
        else if c = 0x3f then (o + 1, [0x3f], [0x3f], [0x26], true, [0x3d], .unreserved)
        else if c = 0x26 then (o + 1, [0x26], [0x26], [0x26], true, [0x3d], .unreserved)
        else (o, [], [], [0x2c], false, [], .unreserved)
      match varListGo cs l { separator := some separator, named := some named,
                             empty := some empty, allow := some allow } (l + 1) [] o1 with
      | .error e => .error e
      | .ok (vs, o2) => .ok (createUriExpression operator vs first separator, o2)

/-- The top-level literal and expression scan of parseUriTemplateParts.
In the non-URI literal branch the source appends the pending run to the
literal accumulator and then, when the run is nonempty, pushes the
accumulator together with the run again, so the run is emitted twice;
the trailing flush after the loop only fires when a pending run exists,
so a trailing accumulator without a pending run is dropped. -/
def partsGo (cs : Str) (l : Nat) :
    Nat → List UriTemplatePart → Str → Nat → Nat → P (List UriTemplatePart × Nat)
  | 0, parts, literal, start, o =>
    if start < l then .ok (parts ++ [.lit (literal ++ cs.drop start)], o) else .ok (parts, o)
  | fuel + 1, parts, literal, start, o =>
    if o < l then
      let c := cpAt cs o
      if c = 0x7b then
        let literal2 := literal ++ extract cs start o
        let parts2 := if literal2 ≠ [] then parts ++ [.lit literal2] else parts
        let o1 := o + 1
        match idxOfFrom cs 0x7d o1 with
        | none => .error ⟨"Unclosed URI template expression", o1⟩
        | some idx =>
          let stop := min idx l
          match parseUriTemplateExpression cs stop o1 with
          | .error e => .error e
          | .ok (e, _) => partsGo cs l fuel (parts2 ++ [.expr e]) [] (stop + 1) (stop + 1)
      else if isUnreservedChar c ∨ isReservedChar c then
        partsGo cs l fuel parts literal start (o + 1)
      else if isPctEncodedAt cs l o then
        partsGo cs l fuel parts literal start (o + 3)
      else if isLiteralChar c then
        let literal2 := literal ++ extract cs start o
        let parts2 := if start ≠ o then parts ++ [.lit (literal2 ++ extract cs start o)] else parts
        let literal3 := if start ≠ o then ([] : Str) else literal2
        let o2 := o + (if 0xffff < c then 2 else 1)
        partsGo cs l fuel parts2 (literal3 ++ pctEncodeUtf8 c) o2 o2
      else .error ⟨"Invalid URI template literal character", o⟩
    else if start < l then .ok (parts ++ [.lit (literal ++ cs.drop start)], o)
    else .ok (parts, o)

/-- parseUriTemplate on a string. -/
def parseUriTemplateStr (cs : Str) : P UriTemplate := do
  let (parts, o) ← partsGo cs cs.length (cs.length + 1) [] [] 0 0
  if o ≠ cs.length then .error ⟨"Invalid URI template", o⟩
  else .ok (createUriTemplate parts)

/-! ## Template expansion (src/template/expand.ts)

Binding values are modelled as a JavaScript object graph: scalars are
immediate, containers live on a heap of nodes addressed by reference
index, so shared containers and reference cycles are representable, and
the identity checks of the source (the Set of flattenDeepObject and the
cycle detection of JSON.stringify) become membership tests on reference
indices.  JavaScript numbers are modelled by their integer fragment,
which every claim stays inside. -/

/-- A JavaScript value: a scalar or a reference into the heap. -/
inductive JVal where
  | undef
  | jnull
  | jstr (s : Str)
  | jint (n : Int)
  | jbool (b : Bool)
  | ref (i : Nat)
deriving DecidableEq, Repr

/-- A heap node: an array or a plain object with insertion-ordered keys. -/
inductive JNode where
  | arr (items : List JVal)
  | obj (fields : List (Str × JVal))
deriving DecidableEq, Repr

/-- The container heap. -/
abbrev Heap := List JNode

/-- Errors of the expansion engine: the TypeError JSON.stringify throws on
a cyclic structure, and fuel exhaustion (shown unreachable for the fuel
the entry points pass). -/
inductive ExpErr where
  | circular
  | fuelOut
deriving DecidableEq, Repr

/-- Expansion result monad. -/
abbrev E (α : Type) := Except ExpErr α

/-- Lowercase hex digit (for JSON control-character escapes). -/
def hexDigitLower (v : Nat) : Nat := if v < 10 then 0x30 + v else 0x61 + (v - 10)

/-- JSON escaping of one code unit. -/
def jsonEscapeUnit (c : Nat) : Str :=
  if c = 0x22 then [0x5c, 0x22]
  else if c = 0x5c then [0x5c, 0x5c]
  else if c = 0x08 then [0x5c, 0x62]
  else if c = 0x09 then [0x5c, 0x74]
  else if c = 0x0a then [0x5c, 0x6e]
  else if c = 0x0c then [0x5c, 0x66]
  else if c = 0x0d then [0x5c, 0x72]
  else if c < 0x20 then [0x5c, 0x75, 0x30, 0x30, hexDigitLower (c >>> 4), hexDigitLower (c &&& 0xf)]
  else [c]

/-- JSON quoting of a string. -/
def jsonQuote (s : Str) : Str :=
  [0x22] ++ s.foldr (fun c r => jsonEscapeUnit c ++ r) [] ++ [0x22]

/-- Join strings with a separator. -/
def joinStr (sep : Str) : List Str → Str
  | [] => []
  | [x] => x
  | x :: y :: xs => x ++ sep ++ joinStr sep (y :: xs)

/-- JSON.stringify of the items of an array, given the serializer for one
level deeper; an absent item serializes as null. -/
def stringifyArrItems (sv : JVal → E (Option Str)) : List JVal → E (List Str)
  | [] => .ok []
  | v :: vs => do
    let s ← sv v
    let rest ← stringifyArrItems sv vs
    .ok (s.getD (u16 "null") :: rest)

/-- JSON.stringify of the fields of an object, given the serializer for
one level deeper; fields whose value serializes to nothing are skipped. -/
def stringifyObjFields (sv : JVal → E (Option Str)) : List (Str × JVal) → E (List Str)
  | [] => .ok []
  | (k, v) :: fs => do
    let s ← sv v
    let rest ← stringifyObjFields sv fs
    match s with
    | none => .ok rest
    | some str => .ok ((jsonQuote k ++ [0x3a] ++ str) :: rest)

/-- One level of JSON.stringify: scalars directly; a reference already on
the serialization stack raises the circularity TypeError, otherwise the
node serializes with the reference pushed onto the stack. -/
def stringifyStep (h : Heap) (recur : List Nat → JVal → E (Option Str))
    (stack : List Nat) : JVal → E (Option Str)
  | .undef => .ok none
  | .jnull => .ok (some (u16 "null"))
  | .jstr s => .ok (some (jsonQuote s))
  | .jint n => .ok (some (u16 (toString n)))
  | .jbool b => .ok (some (u16 (if b then "true" else "false")))
  | .ref i =>
    if i ∈ stack then .error .circular
    else
      match h.getD i (.obj []) with
      | .arr items => do
        let parts ← stringifyArrItems (recur (i :: stack)) items
        .ok (some ([0x5b] ++ joinStr [0x2c] parts ++ [0x5d]))
      | .obj fields => do
        let parts ← stringifyObjFields (recur (i :: stack)) fields
        .ok (some ([0x7b] ++ joinStr [0x2c] parts ++ [0x7d]))

/-- JSON.stringify by nesting depth; the entry points pass fuel one more
than the heap size, which the stack-based cycle detection makes
sufficient. -/
def stringifyVal (h : Heap) : Nat → List Nat → JVal → E (Option Str)
  | 0 => fun _ _ => .error .fuelOut
  | fuel + 1 => stringifyStep h (stringifyVal h fuel)

/-- The default value coercion coerceUriVariableString: absent values stay
absent, strings pass through, anything else JSON-serializes. -/
def coerceUriVariableString (h : Heap) (v : JVal) : E (Option Str) :=
  match v with
  | .undef => .ok none
  | .jnull => .ok none
  | .jstr s => .ok (some s)
  | v => stringifyVal h (h.length + 1) [] v

/-- Decimal digits of an array index (the for-in key of an array item). -/
def natToStr (n : Nat) : Str := u16 (toString n)

/-- flattenDeepObject over the items of an array (for-in yields the index
strings as keys); the visited set threads left to right. -/
def flattenItems (recur : List Nat → Str → JVal → E (List (Str × JVal) × List Nat)) :
    List JVal → List Nat → Str → Nat → E (List (Str × JVal) × List Nat)
  | [], seen, _, _ => .ok ([], seen)
  | v :: vs, seen, path, idx => do
    let (ps, seen2) ← recur seen (path ++ [0x5b] ++ pctEncode (natToStr idx) ++ [0x5d]) v
    let (qs, seen3) ← flattenItems recur vs seen2 path (idx + 1)
    .ok (ps ++ qs, seen3)

/-- flattenDeepObject over the fields of an object; the visited set
threads left to right. -/
def flattenFields (recur : List Nat → Str → JVal → E (List (Str × JVal) × List Nat)) :
    List (Str × JVal) → List Nat → Str → E (List (Str × JVal) × List Nat)
  | [], seen, _ => .ok ([], seen)
  | (k, v) :: fs, seen, path => do
    let (ps, seen2) ← recur seen (path ++ [0x5b] ++ pctEncode k ++ [0x5d]) v
    let (qs, seen3) ← flattenFields recur fs seen2 path
    .ok (ps ++ qs, seen3)

/-- One level of flattenDeepObject: scalars yield a single path-value
pair; an already-visited container is skipped silently, a new one is
marked visited and its children flatten one level deeper. -/
def flattenStep (h : Heap) (recur : List Nat → Str → JVal → E (List (Str × JVal) × List Nat))
    (seen : List Nat) (path : Str) : JVal → E (List (Str × JVal) × List Nat)
  | .ref i =>
    if i ∈ seen then .ok ([], seen)
    else
      match h.getD i (.obj []) with
      | .arr items => flattenItems recur items (i :: seen) path 0
      | .obj fields => flattenFields recur fields (i :: seen) path
  | v => .ok ([(path, v)], seen)

/-- flattenDeepObject by nesting depth; the entry point passes fuel one
more than the heap size, which the visited set makes sufficient. -/
def flattenVal (h : Heap) : Nat → List Nat → Str → JVal → E (List (Str × JVal) × List Nat)
  | 0 => fun _ _ _ => .error .fuelOut
  | fuel + 1 => flattenStep h (flattenVal h fuel)

/-- expandUriVariableString: coerce, then the named and max-length rules,
then percent-encode with the allow set of the variable. -/
def expandUriVariableString (h : Heap) (v : UriVariable) (value : JVal) : E (Option Str) := do
  let vs ← coerceUriVariableString h value
  match vs with
  | none => .ok none
  | some s =>
    if v.named then
      if s = [] then .ok (some (v.name ++ v.empty))
      else
        let s2 := if 0 < v.maxLength then ucsPrefixTake s v.maxLength else s
        .ok (some (v.name ++ [0x3d] ++ pctEncode s2 v.allow))
    else
      let s2 := if 0 < v.maxLength then ucsPrefixTake s v.maxLength else s
      .ok (some (pctEncode s2 v.allow))

/-- Loop of expandUriVariableCompositeArray: coerced items, encoded with
the allow set, joined by the composite separator. -/
def expandUriVariableCompositeArrayGo (h : Heap) (v : UriVariable) :
    List JVal → Str → Bool → E (Str × Bool)
  | [], result, first => .ok (result, first)
  | item :: rest, result, first => do
    let is_ ← coerceUriVariableString h item
    match is_ with
    | none => expandUriVariableCompositeArrayGo h v rest result first
    | some s =>
      let result := if first then result else result ++ v.compositeSeparator
      expandUriVariableCompositeArrayGo h v rest (result ++ pctEncode s v.allow) false

/-- expandUriVariableCompositeArray. -/
def expandUriVariableCompositeArray (h : Heap) (v : UriVariable) (items : List JVal) :
    E (Option Str) := do
  let (result, first) ← expandUriVariableCompositeArrayGo h v items [] true
  .ok (if !first then some result else none)

/-- Loop of expandUriVariableCompositeObject: keys are encoded with the
default unreserved set, values with the allow set of the variable. -/
def expandUriVariableCompositeObjectGo (h : Heap) (v : UriVariable) :
    List (Str × JVal) → Str → Bool → E (Str × Bool)
  | [], result, first => .ok (result, first)
  | (key, value) :: rest, result, first => do
    let vs ← coerceUriVariableString h value
    match vs with
    | none => expandUriVariableCompositeObjectGo h v rest result first
    | some s =>
      let result := if first then result else result ++ v.compositeSeparator
      expandUriVariableCompositeObjectGo h v rest
        (result ++ pctEncode key ++ v.compositeSeparator ++ pctEncode s v.allow) false

/-- expandUriVariableCompositeObject. -/
def expandUriVariableCompositeObject (h : Heap) (v : UriVariable) (fields : List (Str × JVal)) :
    E (Option Str) := do
  let (result, first) ← expandUriVariableCompositeObjectGo h v fields [] true
  .ok (if !first then some result else none)

/-- expandUriVariableComposite: dispatch on array versus object, then the
named prefix. -/
def expandUriVariableComposite (h : Heap) (v : UriVariable) (i : Nat) : E (Option Str) := do
  let ex ←
    match h.getD i (.obj []) with
    | .arr items => expandUriVariableCompositeArray h v items
    | .obj fields => expandUriVariableCompositeObject h v fields
  match ex with
  | none => .ok none
  | some e => .ok (some ((if v.named then v.name ++ [0x3d] else []) ++ e))

/-- Loop of explodeUriVariableNamedArray.  Note the source tests the
emptiness of the accumulated result buffer (not of the coerced item)
right after appending the name, so the empty substitution only replaces
the equals sign when the buffer is still empty at that point. -/
def explodeUriVariableNamedArrayGo (h : Heap) (v : UriVariable) :
    List JVal → Str → Bool → E (Str × Bool)
  | [], result, first => .ok (result, first)
  | item :: rest, result, first => do
    let is_ ← coerceUriVariableString h item
    match is_ with
    | none => explodeUriVariableNamedArrayGo h v rest result first
    | some s =>
      let result := if first then result else result ++ v.separator
      let result := result ++ v.name
      let result :=
        if result = [] then result ++ v.empty
        else result ++ [0x3d] ++ pctEncode s v.allow
      explodeUriVariableNamedArrayGo h v rest result false

/-- explodeUriVariableNamedArray. -/
def explodeUriVariableNamedArray (h : Heap) (v : UriVariable) (items : List JVal) :
    E (Option Str) := do
  let (result, first) ← explodeUriVariableNamedArrayGo h v items [] true
  .ok (if !first then some result else none)

/-- Loop of explodeUriVariableNamedObject (the same result-buffer
emptiness test as the named array case, after appending the encoded
key). -/
def explodeUriVariableNamedObjectGo (h : Heap) (v : UriVariable) :
    List (Str × JVal) → Str → Bool → E (Str × Bool)
  | [], result, first => .ok (result, first)
  | (key, value) :: rest, result, first => do
    let vs ← coerceUriVariableString h value
    match vs with
    | none => explodeUriVariableNamedObjectGo h v rest result first
    | some s =>
      let result := if first then result else result ++ v.separator
      let result := result ++ pctEncode key
      let result :=
        if result = [] then result ++ v.empty
        else result ++ [0x3d] ++ pctEncode s v.allow
      explodeUriVariableNamedObjectGo h v rest result false

/-- explodeUriVariableNamedObject. -/
def explodeUriVariableNamedObject (h : Heap) (v : UriVariable) (fields : List (Str × JVal)) :
    E (Option Str) := do
  let (result, first) ← explodeUriVariableNamedObjectGo h v fields [] true
  .ok (if !first then some result else none)

/-- Loop of explodeUriVariableUnnamedArray. -/
def explodeUriVariableUnnamedArrayGo (h : Heap) (v : UriVariable) :
    List JVal → Str → Bool → E (Str × Bool)
  | [], result, first => .ok (result, first)
  | item :: rest, result, first => do
    let is_ ← coerceUriVariableString h item
    match is_ with
    | none => explodeUriVariableUnnamedArrayGo h v rest result first
    | some s =>
      let result := if first then result else result ++ v.separator
      explodeUriVariableUnnamedArrayGo h v rest (result ++ pctEncode s v.allow) false

/-- explodeUriVariableUnnamedArray. -/
def explodeUriVariableUnnamedArray (h : Heap) (v : UriVariable) (items : List JVal) :
    E (Option Str) := do
  let (result, first) ← explodeUriVariableUnnamedArrayGo h v items [] true
  .ok (if !first then some result else none)

/-- Loop of explodeUriVariableUnnamedObject: encoded key, equals sign,
encoded value. -/
def explodeUriVariableUnnamedObjectGo (h : Heap) (v : UriVariable) :
    List (Str × JVal) → Str → Bool → E (Str × Bool)
  | [], result, first => .ok (result, first)
  | (key, value) :: rest, result, first => do
    let vs ← coerceUriVariableString h value
    match vs with
    | none => explodeUriVariableUnnamedObjectGo h v rest result first
    | some s =>
      let result := if first then result else result ++ v.separator
      explodeUriVariableUnnamedObjectGo h v rest
        (result ++ pctEncode key ++ [0x3d] ++ pctEncode s v.allow) false

/-- explodeUriVariableUnnamedObject. -/
def explodeUriVariableUnnamedObject (h : Heap) (v : UriVariable) (fields : List (Str × JVal)) :
    E (Option Str) := do
  let (result, first) ← explodeUriVariableUnnamedObjectGo h v fields [] true
  .ok (if !first then some result else none)

/-- Loop of explodeUriVariableDeepObject over the flattened pairs: the
path is encoded with the allow set, and the result-buffer emptiness
test mirrors the named cases. -/
def explodeUriVariableDeepObjectGo (h : Heap) (v : UriVariable) :
    List (Str × JVal) → Str → Bool → E (Str × Bool)
  | [], result, first => .ok (result, first)
  | (path, value) :: rest, result, first => do
    let vs ← coerceUriVariableString h value
    match vs with
    | none => explodeUriVariableDeepObjectGo h v rest result first
    | some s =>
      let result := if first then result else result ++ v.separator
      let result := result ++ pctEncode path v.allow
      let result :=
        if result = [] then result ++ v.empty
        else result ++ [0x3d] ++ pctEncode s v.allow
      explodeUriVariableDeepObjectGo h v rest result false

/-- explodeUriVariableDeepObject: flatten the container reachable from
the value under the variable name, then emit path-value pairs. -/
def explodeUriVariableDeepObject (h : Heap) (v : UriVariable) (value : JVal) :
    E (Option Str) := do
  let (pairs, _) ← flattenVal h (h.length + 1) [] v.name value
  let (result, first) ← explodeUriVariableDeepObjectGo h v pairs [] true
  .ok (if !first then some result else none)

/-- explodeUriVariableComposite: deep-object extension, else the named or
unnamed array and object cases. -/
def explodeUriVariableComposite (h : Heap) (v : UriVariable) (i : Nat) : E (Option Str) :=
  if v.deepObject then explodeUriVariableDeepObject h v (.ref i)
  else if v.named then
    match h.getD i (.obj []) with
    | .arr items => explodeUriVariableNamedArray h v items
    | .obj fields => explodeUriVariableNamedObject h v fields
  else
    match h.getD i (.obj []) with
    | .arr items => explodeUriVariableUnnamedArray h v items
    | .obj fields => explodeUriVariableUnnamedObject h v fields

/-- expandUriVariable: scalars expand as strings; containers expand as
composites, joined or exploded by the explode flag. -/
def expandUriVariable (h : Heap) (v : UriVariable) (value : JVal) : E (Option Str) :=
  match value with
  | .ref i => if !v.explode then expandUriVariableComposite h v i else explodeUriVariableComposite h v i
  | value => expandUriVariableString h v value

/-- Loop of expandUriExpression over the variable list: absent values are
skipped, the first emission is prefixed by first, later ones by the
separator. -/
def expandUriExpressionGo (h : Heap) (bindings : Str → JVal) (e : UriExpression) :
    List UriVariable → Str → Bool → E Str
  | [], result, _ => .ok result
  | v :: rest, result, first =>
    let value := bindings v.name
    if value = .undef ∨ value = .jnull then
      expandUriExpressionGo h bindings e rest result first
    else do
      match ← expandUriVariable h v value with
      | none => expandUriExpressionGo h bindings e rest result first
      | some ex =>
        expandUriExpressionGo h bindings e rest
          (result ++ (if first then e.first else e.separator) ++ ex) false

/-- expandUriExpression. -/
def expandUriExpression (h : Heap) (bindings : Str → JVal) (e : UriExpression) : E Str :=
  expandUriExpressionGo h bindings e e.vars [] true

/-- expandUriTemplate over the parts of a pre-parsed template. -/
def expandUriTemplateParts (h : Heap) (bindings : Str → JVal) : List UriTemplatePart → E Str
  | [] => .ok []
  | .lit s :: rest => (expandUriTemplateParts h bindings rest).map (s ++ ·)
  | .expr e :: rest => do
    let x ← expandUriExpression h bindings e
    let r ← expandUriTemplateParts h bindings rest
    .ok (x ++ r)

/-- expandUriTemplate on a pre-parsed template. -/
def expandUriTemplate (t : UriTemplate) (bindings : Str → JVal) (h : Heap) : E Str :=
  expandUriTemplateParts h bindings t.parts

/-- expandUriTemplate on a template string: parse, then expand. -/
def expandUriTemplateStr (cs : Str) (bindings : Str → JVal) (h : Heap) : P (E Str) :=
  (parseUriTemplateStr cs).map (fun t => expandUriTemplate t bindings h)

/-! ## Basic facts about the string model -/


theorem chAt_of_lt {cs : Str} {i : Nat} (h : i < cs.length) : chAt cs i = cs[i] := by
  simp [chAt, List.getD_eq_getElem?_getD, List.getElem?_eq_getElem h]

theorem chAt_mem {cs : Str} {i : Nat} (h : i < cs.length) : chAt cs i ∈ cs := by
  rw [chAt_of_lt h]; exact List.getElem_mem h

theorem chAt_of_ge {cs : Str} {i : Nat} (h : cs.length ≤ i) : chAt cs i = NOCHAR := by
  simp [chAt, List.getD_eq_getElem?_getD, List.getElem?_eq_none (by omega : cs.length ≤ i)]

theorem extract_self (cs : Str) (a : Nat) : extract cs a a = [] := by
  simp [extract]

theorem extract_append_mid (cs : Str) {a m b : Nat} (h1 : a ≤ m) (h2 : m ≤ b) :
    extract cs a b = extract cs a m ++ extract cs m b := by
  simp only [extract]
  have hb : b - a = (m - a) + (b - m) := by omega
  have hm : a + (m - a) = m := by omega
  rw [hb, List.take_add, List.drop_drop, hm]

theorem extract_all (cs : Str) : extract cs 0 cs.length = cs := by
  show (cs.drop 0).take (cs.length - 0) = cs
  rw [List.drop_zero, Nat.sub_zero, List.take_length]

theorem extract_singleton {cs : Str} {i : Nat} (h : i < cs.length) :
    extract cs i (i + 1) = [chAt cs i] := by
  rw [chAt_of_lt h]
  show (cs.drop i).take (i + 1 - i) = [cs[i]]
  have h1 : i + 1 - i = 1 := by omega
  rw [h1, List.drop_eq_getElem_cons h]
  rfl

theorem extract_pair {cs : Str} {i : Nat} (h : i + 1 < cs.length) :
    extract cs i (i + 2) = [chAt cs i, chAt cs (i + 1)] := by
  rw [extract_append_mid cs (by omega : i ≤ i + 1) (by omega : i + 1 ≤ i + 2),
      extract_singleton (by omega), extract_singleton h]
  rfl

theorem extract_append_pre (pre d : Str) :
    extract (pre ++ d) pre.length (pre.length + d.length) = d := by
  show ((pre ++ d).drop pre.length).take (pre.length + d.length - pre.length) = d
  rw [List.drop_left, Nat.add_sub_cancel_left, List.take_length]

theorem chAt_append_left {pre d : Str} {i : Nat} (h : i < pre.length) :
    chAt (pre ++ d) i = chAt pre i := by
  rw [chAt_of_lt (by simp; omega), chAt_of_lt h]
  exact List.getElem_append_left h

theorem chAt_append_right (pre d : Str) {j : Nat} (h : j < d.length) :
    chAt (pre ++ d) (pre.length + j) = chAt d j := by
  rw [chAt_of_lt (by simp; omega), chAt_of_lt h]
  rw [List.getElem_append_right (by omega)]
  congr 1
  omega


/-! ## Offset monotonicity of the scanning loops -/

theorem schemeLoopGo_ge (cs : Str) (l fuel : Nat) : ∀ o, o ≤ schemeLoopGo cs l fuel o := by
  induction fuel with
  | zero => intro o; simp [schemeLoopGo]
  | succ fuel ih =>
    intro o
    simp only [schemeLoopGo]
    split
    · exact le_trans (by omega) (ih (o + 1))
    · exact le_refl o

theorem schemeLoopGo_le (cs : Str) (l fuel : Nat) :
    ∀ o, o ≤ l → schemeLoopGo cs l fuel o ≤ l := by
  induction fuel with
  | zero => intro o h; simpa [schemeLoopGo] using h
  | succ fuel ih =>
    intro o h
    simp only [schemeLoopGo]
    split
    case isTrue hc => exact ih (o + 1) (by omega)
    case isFalse => exact h

theorem scanPctGo_mono (p : Nat → Bool) (cs : Str) (l fuel : Nat) :
    ∀ o o2, scanPctGo p cs l fuel o = .ok o2 → o ≤ o2 ∧ (o ≤ l → o2 ≤ l) := by
  induction fuel with
  | zero =>
    intro o o2 h
    simp [scanPctGo] at h
    omega
  | succ fuel ih =>
    intro o o2 h
    simp only [scanPctGo] at h
    split at h
    case isTrue hlt =>
      split at h
      case isTrue hp =>
        have := ih (o + 1) o2 h
        exact ⟨by omega, fun _ => this.2 (by omega)⟩
      case isFalse hp =>
        split at h
        case isTrue hpct =>
          simp [isPctEncodedAt] at hpct
          have := ih (o + 3) o2 h
          exact ⟨by omega, fun _ => this.2 (by omega)⟩
        case isFalse hpct =>
          split at h
          · simp at h
          · simp at h
            omega
    case isFalse hge =>
      simp at h
      omega

theorem pathLoopGo_mono (ucs : Bool) (cs : Str) (l fuel : Nat) :
    ∀ o o2, pathLoopGo ucs cs l fuel o = .ok o2 → o ≤ o2 ∧ (o ≤ l → o2 ≤ l) := by
  induction fuel with
  | zero =>
    intro o o2 h
    simp [pathLoopGo] at h
    omega
  | succ fuel ih =>
    intro o o2 h
    simp only [pathLoopGo] at h
    split at h
    case isTrue hlt =>
      split at h
      case isTrue hp =>
        have := ih (o + 1) o2 h
        exact ⟨by omega, fun _ => this.2 (by omega)⟩
      case isFalse hp =>
        split at h
        case isTrue hpct =>
          simp [isPctEncodedAt] at hpct
          have := ih (o + 3) o2 h
          exact ⟨by omega, fun _ => this.2 (by omega)⟩
        case isFalse hpct =>
          split at h
          · simp at h
          · split at h
            case isTrue hs =>
              have := ih (o + 1) o2 h
              exact ⟨by omega, fun _ => this.2 (by omega)⟩
            case isFalse hs =>
              simp at h
              omega
    case isFalse hge =>
      simp at h
      omega

theorem hexScanGo_ge (cs : Str) (l start fuel : Nat) : ∀ o, o ≤ hexScanGo cs l start fuel o := by
  induction fuel with
  | zero => intro o; simp [hexScanGo]
  | succ fuel ih =>
    intro o
    simp only [hexScanGo]
    split
    · exact le_trans (by omega) (ih (o + 1))
    · exact le_refl o

theorem hexScanGo_le (cs : Str) (l start fuel : Nat) :
    ∀ o, o ≤ l → hexScanGo cs l start fuel o ≤ l := by
  induction fuel with
  | zero => intro o h; simpa [hexScanGo] using h
  | succ fuel ih =>
    intro o h
    simp only [hexScanGo]
    split
    case isTrue hc => exact ih (o + 1) (by omega)
    case isFalse => exact h

theorem hexScan_ge (cs : Str) (l o : Nat) : o ≤ hexScan cs l o := hexScanGo_ge cs l o 4 o

theorem hexScan_le (cs : Str) (l : Nat) {o : Nat} (h : o ≤ l) : hexScan cs l o ≤ l :=
  hexScanGo_le cs l o 4 o h

theorem scanWhileGo_ge (p : Nat → Bool) (cs : Str) (l fuel : Nat) :
    ∀ o, o ≤ scanWhileGo p cs l fuel o := by
  induction fuel with
  | zero => intro o; simp [scanWhileGo]
  | succ fuel ih =>
    intro o
    simp only [scanWhileGo]
    split
    · exact le_trans (by omega) (ih (o + 1))
    · exact le_refl o

theorem scanWhileGo_le (p : Nat → Bool) (cs : Str) (l fuel : Nat) :
    ∀ o, o ≤ l → scanWhileGo p cs l fuel o ≤ l := by
  induction fuel with
  | zero => intro o h; simpa [scanWhileGo] using h
  | succ fuel ih =>
    intro o h
    simp only [scanWhileGo]
    split
    case isTrue hc => exact ih (o + 1) (by omega)
    case isFalse => exact h

theorem portLoopGo_mono (cs : Str) (l fuel : Nat) :
    ∀ v o, o ≤ (portLoopGo cs l fuel v o).2 ∧ (o ≤ l → (portLoopGo cs l fuel v o).2 ≤ l) := by
  induction fuel with
  | zero => intro v o; simp [portLoopGo]
  | succ fuel ih =>
    intro v o
    simp only [portLoopGo]
    split
    case isTrue hc =>
      have := ih (v * 10 + (chAt cs o - 0x30)) (o + 1)
      exact ⟨by omega, fun _ => this.2 (by omega)⟩
    case isFalse => simp

theorem decOctetGo_mono_ok (cs : Str) (l fuel : Nat) :
    ∀ digits v o v2 o2, decOctetGo cs l fuel digits v o = .ok (v2, o2) →
      o ≤ o2 ∧ (o ≤ l → o2 ≤ l) := by
  induction fuel with
  | zero =>
    intro digits v o v2 o2 h
    simp only [decOctetGo] at h
    split at h
    · simp at h
    · simp at h
      omega
  | succ fuel ih =>
    intro digits v o v2 o2 h
    simp only [decOctetGo] at h
    split at h
    case isTrue hc =>
      split at h
      · simp at h
      · have := ih (digits + 1) (v * 10 + (chAt cs o - 0x30)) (o + 1) v2 o2 h
        exact ⟨by omega, fun _ => this.2 (by omega)⟩
    case isFalse hc =>
      split at h
      · simp at h
      · simp at h
        omega

theorem decOctetGo_mono_err (cs : Str) (l fuel : Nat) :
    ∀ digits v o e, decOctetGo cs l fuel digits v o = .error e →
      o ≤ e.offset ∧ (o ≤ l → e.offset ≤ l) := by
  induction fuel with
  | zero =>
    intro digits v o e h
    simp only [decOctetGo] at h
    split at h
    · simp only [Except.error.injEq] at h
      subst h
      exact ⟨Nat.le.refl, id⟩
    · simp at h
  | succ fuel ih =>
    intro digits v o e h
    simp only [decOctetGo] at h
    split at h
    case isTrue hc =>
      split at h
      · simp only [Except.error.injEq] at h
        subst h
        exact ⟨Nat.le.refl, id⟩
      · have := ih (digits + 1) (v * 10 + (chAt cs o - 0x30)) (o + 1) e h
        exact ⟨by omega, fun _ => this.2 (by omega)⟩
    case isFalse hc =>
      split at h
      · simp only [Except.error.injEq] at h
        subst h
        exact ⟨Nat.le.refl, id⟩
      · simp at h

theorem expectDot_mono_ok {cs : Str} {l o o2 : Nat} (h : expectDot cs l o = .ok o2) :
    o2 = o + 1 ∧ o < l := by
  simp only [expectDot] at h
  split at h
  case isTrue hc => simp at h; omega
  case isFalse => simp at h

theorem expectDot_mono_err {cs : Str} {l o : Nat} {e : Err} (h : expectDot cs l o = .error e) :
    e.offset = o := by
  simp only [expectDot] at h
  split at h
  · simp at h
  · simp only [Except.error.injEq] at h
    subst h
    rfl

/-! ## Inversion of Except binds and monotonicity of the parsers -/

theorem except_bind_ok {α β : Type} {x : P α} {f : α → P β} {y : β}
    (h : (x >>= f) = .ok y) : ∃ a, x = .ok a ∧ f a = .ok y := by
  cases hx : x with
  | ok a =>
    refine ⟨a, rfl, ?_⟩
    rw [hx] at h
    simpa [Bind.bind, Except.bind] using h
  | error e => rw [hx] at h; simp [Bind.bind, Except.bind] at h

theorem except_bind_err {α β : Type} {x : P α} {f : α → P β} {e : Err}
    (h : (x >>= f) = .error e) : x = .error e ∨ ∃ a, x = .ok a ∧ f a = .error e := by
  cases hx : x with
  | ok a =>
    refine .inr ⟨a, rfl, ?_⟩
    rw [hx] at h
    simpa [Bind.bind, Except.bind] using h
  | error e2 =>
    rw [hx] at h
    simp only [Bind.bind, Except.bind, Except.error.injEq] at h
    exact .inl (by rw [h])

theorem parseIpv4Core_mono_ok {cs : Str} {l o : Nat} {s : Str} {o4 : Nat}
    (h : parseIpv4Core cs l o = .ok (s, o4)) : o ≤ o4 ∧ (o ≤ l → o4 ≤ l) := by
  simp only [parseIpv4Core] at h
  obtain ⟨⟨v1, a1⟩, h1, h⟩ := except_bind_ok h
  obtain ⟨b1, hb1, h⟩ := except_bind_ok h
  obtain ⟨⟨v2, a2⟩, h2, h⟩ := except_bind_ok h
  obtain ⟨b2, hb2, h⟩ := except_bind_ok h
  obtain ⟨⟨v3, a3⟩, h3, h⟩ := except_bind_ok h
  obtain ⟨b3, hb3, h⟩ := except_bind_ok h
  obtain ⟨⟨v4, a4⟩, h4, h⟩ := except_bind_ok h
  simp only [Except.ok.injEq, Prod.mk.injEq] at h
  obtain ⟨-, rfl⟩ := h
  have m1 := decOctetGo_mono_ok cs l 3 0 0 o v1 a1 h1
  have d1 := expectDot_mono_ok hb1
  have m2 := decOctetGo_mono_ok cs l 3 0 0 b1 v2 a2 h2
  have d2 := expectDot_mono_ok hb2
  have m3 := decOctetGo_mono_ok cs l 3 0 0 b2 v3 a3 h3
  have d3 := expectDot_mono_ok hb3
  have m4 := decOctetGo_mono_ok cs l 3 0 0 b3 v4 a4 h4
  constructor
  · omega
  · intro hol
    have := m4.2 (by omega)
    omega

theorem parseIpv4Core_mono_err {cs : Str} {l o : Nat} {e : Err}
    (h : parseIpv4Core cs l o = .error e) : o ≤ e.offset ∧ (o ≤ l → e.offset ≤ l) := by
  simp only [parseIpv4Core] at h
  rcases except_bind_err h with h | ⟨⟨v1, a1⟩, h1, h⟩
  · exact decOctetGo_mono_err cs l 3 0 0 o e h
  have m1 := decOctetGo_mono_ok cs l 3 0 0 o v1 a1 h1
  rcases except_bind_err h with h | ⟨b1, hb1, h⟩
  · have := expectDot_mono_err h
    exact ⟨by omega, fun hol => by have := m1.2 hol; omega⟩
  have d1 := expectDot_mono_ok hb1
  rcases except_bind_err h with h | ⟨⟨v2, a2⟩, h2, h⟩
  · have := decOctetGo_mono_err cs l 3 0 0 b1 e h
    exact ⟨by omega, fun hol => this.2 (by have := m1.2 hol; omega)⟩
  have m2 := decOctetGo_mono_ok cs l 3 0 0 b1 v2 a2 h2
  have hb1l : o ≤ l → b1 ≤ l := fun hol => by have := m1.2 hol; omega
  rcases except_bind_err h with h | ⟨b2, hb2, h⟩
  · have := expectDot_mono_err h
    exact ⟨by omega, fun hol => by have := m2.2 (hb1l hol); omega⟩
  have d2 := expectDot_mono_ok hb2
  have hb2l : o ≤ l → b2 ≤ l := fun hol => by have := m2.2 (hb1l hol); omega
  rcases except_bind_err h with h | ⟨⟨v3, a3⟩, h3, h⟩
  · have := decOctetGo_mono_err cs l 3 0 0 b2 e h
    exact ⟨by omega, fun hol => this.2 (hb2l hol)⟩
  have m3 := decOctetGo_mono_ok cs l 3 0 0 b2 v3 a3 h3
  have ha3l : o ≤ l → a3 ≤ l := fun hol => m3.2 (hb2l hol)
  rcases except_bind_err h with h | ⟨b3, hb3, h⟩
  · have := expectDot_mono_err h
    exact ⟨by omega, fun hol => by have := ha3l hol; omega⟩
  have d3 := expectDot_mono_ok hb3
  have hb3l : o ≤ l → b3 ≤ l := fun hol => by have := ha3l hol; omega
  rcases except_bind_err h with h | ⟨⟨v4, a4⟩, h4, h⟩
  · have := decOctetGo_mono_err cs l 3 0 0 b3 e h
    exact ⟨by omega, fun hol => this.2 (hb3l hol)⟩
  · simp at h

theorem ipv6Hextet_mono {cs : Str} {l o0 o1 hextets ipv4Start : Nat}
    (ho : o0 ≤ o1) (hi : ipv4Start = 0 ∨ o0 ≤ ipv4Start) :
    (∀ r, ipv6Hextet cs l o1 hextets ipv4Start = .ok (.inl r) →
      o0 ≤ r.1 ∧ (r.2.2.1 = 0 ∨ o0 ≤ r.2.2.1)) ∧
    (∀ o2 i4, ipv6Hextet cs l o1 hextets ipv4Start = .ok (.inr (o2, i4)) →
      o0 ≤ o2 ∧ (i4 = 0 ∨ o0 ≤ i4)) := by
  have hscan := hexScan_ge cs l o1
  simp only [ipv6Hextet]
  generalize hI : (if hextets = 6 then o1 else ipv4Start) = i4v
  have hi4 : i4v = 0 ∨ o0 ≤ i4v := by
    rw [← hI]
    split
    · exact .inr ho
    · exact hi
  constructor
  · intro r h
    split at h
    · split at h
      case isTrue hne =>
        simp only [Except.ok.injEq, Sum.inl.injEq] at h
        subst h
        rcases hi4 with h4 | h4
        · exact absurd h4 hne
        · exact ⟨h4, .inr h4⟩
      case isFalse => simp at h
    · simp at h
  · intro o2 i4 h
    split at h
    · split at h
      · simp at h
      · simp at h
    · simp only [Except.ok.injEq, Sum.inr.injEq, Prod.mk.injEq] at h
      obtain ⟨rfl, rfl⟩ := h
      exact ⟨le_trans ho hscan, hi4⟩

theorem ipv6Body_mono {cs : Str} {l o0 o hextets ipv4Start : Nat}
    (ho : o0 ≤ o) (hi : ipv4Start = 0 ∨ o0 ≤ ipv4Start) :
    (∀ r, ipv6Body cs l o hextets ipv4Start = .ok (.inl r) →
      o0 ≤ r.1 ∧ (r.2.2.1 = 0 ∨ o0 ≤ r.2.2.1)) ∧
    (∀ o2 i4, ipv6Body cs l o hextets ipv4Start = .ok (.inr (o2, i4)) →
      o0 ≤ o2 ∧ (i4 = 0 ∨ o0 ≤ i4)) := by
  constructor
  · intro r h
    simp only [ipv6Body] at h
    split at h
    · split at h
      · simp only [Except.ok.injEq, Sum.inl.injEq] at h
        subst h
        exact ⟨by omega, .inl rfl⟩
      · split at h
        · simp at h
        · exact (ipv6Hextet_mono (by omega) hi).1 r h
    · split at h
      case isTrue hne =>
        simp only [Except.ok.injEq, Sum.inl.injEq] at h
        subst h
        rcases hi with h4 | h4
        · exact absurd h4 hne
        · exact ⟨h4, .inr h4⟩
      case isFalse =>
        split at h
        · simp at h
        · exact (ipv6Hextet_mono ho hi).1 r h
  · intro o2 i4 h
    simp only [ipv6Body] at h
    split at h
    · split at h
      · simp at h
      · split at h
        · simp at h
        · exact (ipv6Hextet_mono (by omega) hi).2 o2 i4 h
    · split at h
      · simp at h
      · split at h
        · simp at h
        · exact (ipv6Hextet_mono ho hi).2 o2 i4 h

theorem ipv6Phase1Go_mono (cs : Str) (l o0 : Nat) (fuel : Nat) :
    ∀ o hextets ipv4Start o1 hx1 i41 c1,
      o0 ≤ o → (ipv4Start = 0 ∨ o0 ≤ ipv4Start) →
      ipv6Phase1Go cs l fuel o hextets ipv4Start = .ok (o1, hx1, i41, c1) →
      o0 ≤ o1 ∧ (i41 = 0 ∨ o0 ≤ i41) := by
  induction fuel with
  | zero =>
    intro o hextets ipv4Start o1 hx1 i41 c1 ho hi h
    simp only [ipv6Phase1Go] at h
    simp only [Except.ok.injEq, Prod.mk.injEq] at h
    obtain ⟨rfl, -, rfl, -⟩ := h
    exact ⟨ho, hi⟩
  | succ fuel ih =>
    intro o hextets ipv4Start o1 hx1 i41 c1 ho hi h
    simp only [ipv6Phase1Go] at h
    split at h
    · cases hb : ipv6Body cs l o hextets ipv4Start with
      | error e => rw [hb] at h; simp at h
      | ok r =>
        rw [hb] at h
        cases r with
        | inl r2 =>
          simp only [Except.ok.injEq] at h
          have := (ipv6Body_mono ho hi).1 r2 hb
          obtain ⟨rfl, -, rfl, -⟩ : r2.1 = o1 ∧ r2.2.1 = hx1 ∧ r2.2.2.1 = i41 ∧ r2.2.2.2 = c1 := by
            obtain ⟨a, b, c, d⟩ := r2
            simp at h
            simp [h]
          exact this
        | inr oi =>
          obtain ⟨o2, i4⟩ := oi
          have := (ipv6Body_mono ho hi).2 o2 i4 hb
          exact ih o2 (hextets + 1) i4 o1 hx1 i41 c1 this.1 this.2 h
    · simp only [Except.ok.injEq, Prod.mk.injEq] at h
      obtain ⟨rfl, -, rfl, -⟩ := h
      exact ⟨ho, hi⟩

theorem ipv6Phase2Go_mono (cs : Str) (l o0 : Nat) (fuel : Nat) :
    ∀ o hextets ipv4Start o1 i41,
      o0 ≤ o →
      ipv6Phase2Go cs l fuel o hextets ipv4Start = .ok (o1, i41) →
      o0 ≤ o1 := by
  induction fuel with
  | zero =>
    intro o hextets ipv4Start o1 i41 ho h
    simp only [ipv6Phase2Go, Except.ok.injEq, Prod.mk.injEq] at h
    omega
  | succ fuel ih =>
    intro o hextets ipv4Start o1 i41 ho h
    simp only [ipv6Phase2Go] at h
    split at h
    · split at h
      · simp at h
      · split at h
        · simp only [Except.ok.injEq, Prod.mk.injEq] at h
          have := hexScan_ge cs l o
          omega
        · split at h
          · exact ih (hexScan cs l o + 1) (hextets + 1) ipv4Start o1 i41
              (by have := hexScan_ge cs l o; omega) h
          · simp only [Except.ok.injEq, Prod.mk.injEq] at h
            omega
    · simp only [Except.ok.injEq, Prod.mk.injEq] at h
      omega

theorem parseIpv6Core_mono {cs : Str} {l o : Nat} {s : Str} {o2 : Nat}
    (h : parseIpv6Core cs l o = .ok (s, o2)) : o ≤ o2 ∧ o2 = l := by
  simp only [parseIpv6Core] at h
  obtain ⟨⟨oA, hxA, i4A, cA⟩, h1, h⟩ := except_bind_ok h
  have m1 := ipv6Phase1Go_mono cs l o 8 o 0 0 oA hxA i4A cA (le_refl o) (.inl rfl) h1
  have tail : ∀ y : Nat × Nat, o ≤ y.1 →
      ∀ (h : (if y.1 = y.2 then
            (do
              let d ← parseIpv4Core cs l y.1
              let o3 ← pure d.2
              if o3 ≠ l then Except.error ⟨"Invalid IPv6 address", o3⟩
              else Except.ok (extract cs o o3, o3) : P (Str × Nat))
          else do
            let o3 ← pure y.1
            if o3 ≠ l then Except.error ⟨"Invalid IPv6 address", o3⟩
            else Except.ok (extract cs o o3, o3)) = .ok (s, o2)),
        o ≤ o2 ∧ o2 = l := by
    intro y hy h
    split at h
    · obtain ⟨⟨s4, o4⟩, h4, h⟩ := except_bind_ok h
      have m4 := parseIpv4Core_mono_ok h4
      obtain ⟨o3, h3, h⟩ := except_bind_ok h
      simp only [pure, Except.pure, Except.ok.injEq] at h3
      split at h
      · simp at h
      case isFalse hne =>
        simp only [Except.ok.injEq, Prod.mk.injEq] at h
        omega
    · obtain ⟨o3, h3, h⟩ := except_bind_ok h
      simp only [pure, Except.pure, Except.ok.injEq] at h3
      split at h
      · simp at h
      case isFalse hne =>
        simp only [Except.ok.injEq, Prod.mk.injEq] at h
        omega
  split at h
  case isTrue hcomp =>
    obtain ⟨⟨oB, i4B⟩, h2, h⟩ := except_bind_ok h
    have m2 : o ≤ oB := ipv6Phase2Go_mono cs l o 7 oA hxA i4A oB i4B m1.1 h2
    exact tail (oB, i4B) m2 h
  case isFalse hcomp =>
    obtain ⟨⟨oB, i4B⟩, h2, h⟩ := except_bind_ok h
    simp only [Except.ok.injEq, Prod.mk.injEq] at h2
    exact tail (oB, i4B) (by omega) h

theorem except_map_ok {α β : Type} {x : P α} {f : α → β} {y : β}
    (h : x.map f = .ok y) : ∃ a, x = .ok a ∧ f a = y := by
  cases hx : x with
  | ok a =>
    rw [hx] at h
    simp only [Except.map, Except.ok.injEq] at h
    exact ⟨a, rfl, h⟩
  | error e => rw [hx] at h; simp [Except.map] at h

theorem parseIpvFutureCore_mono {ucs : Bool} {cs : Str} {l o : Nat} {s : Str} {o2 : Nat}
    (h : parseIpvFutureCore ucs cs l o = .ok (s, o2)) :
    o ≤ o2 ∧ (o ≤ l → o2 ≤ l) ∧ s = extract cs o o2 := by
  simp only [parseIpvFutureCore, bind, Except.bind, pure, Except.pure, scanWhile] at h
  split at h
  case isTrue hc1 =>
    split at h
    case isTrue hc2 =>
      split at h
      case isTrue hc3 =>
        split at h
        case isTrue hc4 =>
          simp only [Except.ok.injEq, Prod.mk.injEq] at h
          obtain ⟨rfl, rfl⟩ := h
          have g1 := scanWhileGo_ge isHexChar cs l (l - (o + 1 + 1)) (o + 1 + 1)
          set m := scanWhileGo isHexChar cs l (l - (o + 1 + 1)) (o + 1 + 1) with hm
          have g2 := scanWhileGo_ge (fun c => isUserinfoChar c ucs) cs l (l - (m + 1 + 1)) (m + 1 + 1)
          have gl2 := scanWhileGo_le (fun c => isUserinfoChar c ucs) cs l (l - (m + 1 + 1)) (m + 1 + 1)
          refine ⟨by omega, ?_, rfl⟩
          intro hol
          exact gl2 (by omega)
        case isFalse => simp at h
      case isFalse => simp at h
    case isFalse => simp at h
  case isFalse => simp at h

theorem parsePort_mono {cs : Str} {l o : Nat} {p : Option Str} {o2 : Nat}
    (h : parsePort cs l o = .ok (p, o2)) : o ≤ o2 ∧ (o ≤ l → o2 ≤ l) := by
  simp only [parsePort] at h
  split at h
  case isTrue hc =>
    split at h
    · simp at h
    · simp only [Except.ok.injEq, Prod.mk.injEq] at h
      have := portLoopGo_mono cs l (l - (o + 1)) 0 (o + 1)
      obtain ⟨-, rfl⟩ := h
      exact ⟨by omega, fun _ => this.2 (by omega)⟩
  case isFalse =>
    simp only [Except.ok.injEq, Prod.mk.injEq] at h
    omega

theorem parseHost_mono {ucs : Bool} {cs : Str} {l o : Nat} {hi : HostInfo} {o2 : Nat}
    (hol : o ≤ l) (h : parseHost ucs cs l o = .ok (hi, o2)) :
    o ≤ o2 ∧ o2 ≤ l := by
  simp only [parseHost] at h
  split at h
  case isTrue hc =>
    split at h
    case isTrue hv =>
      cases h4 : parseIpvFutureCore ucs cs ((idxOfFrom cs 0x5d (o + 1)).getD 0) (o + 1) with
      | error e => rw [h4] at h; simp [Except.map, Bind.bind, Except.bind] at h
      | ok so =>
        obtain ⟨s4, o4⟩ := so
        rw [h4] at h
        simp only [Except.map, Bind.bind, Except.bind] at h
        have hm := parseIpvFutureCore_mono h4
        split at h
        case isTrue hcl =>
          simp only [Except.ok.injEq, Prod.mk.injEq] at h
          obtain ⟨-, rfl⟩ := h
          exact ⟨by omega, by omega⟩
        case isFalse => simp at h
    case isFalse hv =>
      cases h4 : parseIpv6Core cs ((idxOfFrom cs 0x5d (o + 1)).getD 0) (o + 1) with
      | error e => rw [h4] at h; simp [Except.map, Bind.bind, Except.bind] at h
      | ok so =>
        obtain ⟨s4, o4⟩ := so
        rw [h4] at h
        simp only [Except.map, Bind.bind, Except.bind] at h
        have hm := parseIpv6Core_mono h4
        split at h
        case isTrue hcl =>
          simp only [Except.ok.injEq, Prod.mk.injEq] at h
          obtain ⟨-, rfl⟩ := h
          exact ⟨by omega, by omega⟩
        case isFalse => simp at h
  case isFalse hc =>
    split at h
    next s4 o4 heq =>
      simp only [Except.ok.injEq, Prod.mk.injEq] at h
      obtain ⟨-, rfl⟩ := h
      have := parseIpv4Core_mono_ok heq
      exact ⟨this.1, this.2 hol⟩
    next e heq =>
      have me := parseIpv4Core_mono_err heq
      split at h
      next e2 heq2 => simp at h
      next o3 heq2 =>
        simp only [Except.ok.injEq, Prod.mk.injEq] at h
        obtain ⟨-, rfl⟩ := h
        have ms := scanPctGo_mono (fun c => isHostChar c ucs) cs l (l - e.offset) e.offset o3 heq2
        exact ⟨by omega, ms.2 (me.2 hol)⟩


theorem parseAuthority_mono {ucs : Bool} {cs : Str} {l o : Nat} {ai : AuthInfo} {o2 : Nat}
    (hol : o ≤ l) (h : parseAuthority ucs cs l o = .ok (ai, o2)) :
    o ≤ o2 ∧ o2 ≤ l ∧ ai.authority = extract cs o o2 := by
  simp only [parseAuthority] at h
  split at h
  case isTrue hat =>
    obtain ⟨oU, hU, h⟩ := except_bind_ok h
    have mu := scanPctGo_mono (fun c => isUserinfoChar c ucs) cs l (l - o) o oU hU
    split at h
    case isTrue hcl =>
      obtain ⟨⟨ui, oV⟩, hV, h⟩ := except_bind_ok h
      simp only [pure, Except.pure, Except.ok.injEq, Prod.mk.injEq] at hV
      obtain ⟨-, rfl⟩ := hV
      obtain ⟨⟨hi2, oH⟩, hH, h⟩ := except_bind_ok h
      have mh := parseHost_mono (by omega) hH
      obtain ⟨⟨prt, oP⟩, hP, h⟩ := except_bind_ok h
      have mp := parsePort_mono hP
      simp only [Except.ok.injEq, Prod.mk.injEq] at h
      obtain ⟨hrec, rfl⟩ := h
      refine ⟨by omega, ?_, ?_⟩
      · have := mp.2 (by omega)
        omega
      · rw [← hrec]
    case isFalse => simp [Bind.bind, Except.bind] at h
  case isFalse hat =>
    obtain ⟨⟨ui, oV⟩, hV, h⟩ := except_bind_ok h
    simp only [pure, Except.pure, Except.ok.injEq, Prod.mk.injEq] at hV
    obtain ⟨-, rfl⟩ := hV
    obtain ⟨⟨hi2, oH⟩, hH, h⟩ := except_bind_ok h
    have mh := parseHost_mono hol hH
    obtain ⟨⟨prt, oP⟩, hP, h⟩ := except_bind_ok h
    have mp := parsePort_mono hP
    simp only [Except.ok.injEq, Prod.mk.injEq] at h
    obtain ⟨hrec, rfl⟩ := h
    refine ⟨by omega, ?_, ?_⟩
    · have := mp.2 (by omega)
      omega
    · rw [← hrec]

end ToolUri

namespace ToolUri

/-- Inversion of parsePath: the path is the scanned slice. -/
theorem parsePath_inv {ucs : Bool} {cs : Str} {l o : Nat} {p : Str} {o2 : Nat}
    (h : parsePath ucs cs l o = .ok (p, o2)) :
    p = extract cs o o2 ∧ o ≤ o2 ∧ (o ≤ l → o2 ≤ l) := by
  simp only [parsePath] at h
  obtain ⟨oP, hP, h⟩ := except_bind_ok h
  have m := pathLoopGo_mono ucs cs l (l - o) o oP hP
  simp only [Except.ok.injEq, Prod.mk.injEq] at h
  exact ⟨by rw [← h.1, ← h.2], by omega, fun hl => by have := m.2 hl; omega⟩

/-- Inversion of parseQuery. -/
theorem parseQuery_inv {ucs : Bool} {cs : Str} {l o : Nat} {q : Str} {o2 : Nat}
    (h : parseQuery ucs cs l o = .ok (q, o2)) :
    q = extract cs o o2 ∧ o ≤ o2 ∧ (o ≤ l → o2 ≤ l) := by
  simp only [parseQuery] at h
  obtain ⟨oQ, hQ, h⟩ := except_bind_ok h
  have m := scanPctGo_mono (fun c => isQueryChar c ucs) cs l (l - o) o oQ hQ
  simp only [Except.ok.injEq, Prod.mk.injEq] at h
  exact ⟨by rw [← h.1, ← h.2], by omega, fun hl => by have := m.2 hl; omega⟩

/-- Inversion of parseFragment. -/
theorem parseFragment_inv {ucs : Bool} {cs : Str} {l o : Nat} {f : Str} {o2 : Nat}
    (h : parseFragment ucs cs l o = .ok (f, o2)) :
    f = extract cs o o2 ∧ o ≤ o2 ∧ (o ≤ l → o2 ≤ l) := by
  simp only [parseFragment] at h
  obtain ⟨oF, hF, h⟩ := except_bind_ok h
  have m := scanPctGo_mono (fun c => isFragmentChar c ucs) cs l (l - o) o oF hF
  simp only [Except.ok.injEq, Prod.mk.injEq] at h
  exact ⟨by rw [← h.1, ← h.2], by omega, fun hl => by have := m.2 hl; omega⟩

/-- Authority-or-path decomposition of the relative-part region. -/
theorem parseRelativePart_decomp {ucs : Bool} {cs : Str} {l o : Nat} {u : Uri} {m : Nat}
    (hol : o ≤ l) (hll : l ≤ cs.length)
    (h : parseRelativePart ucs cs l o = .ok (u, m)) :
    o ≤ m ∧ m ≤ l ∧
    extract cs o m =
      (match u.authority with
        | some a => [0x2f, 0x2f] ++ a
        | none => []) ++ u.path := by
  simp only [parseRelativePart] at h
  split at h
  case isTrue hsl =>
    obtain ⟨⟨ai, oA⟩, hA, h⟩ := except_bind_ok h
    have mA := parseAuthority_mono (by omega) hA
    split at h
    · simp [Bind.bind, Except.bind] at h
    case isFalse hpc =>
      obtain ⟨⟨p, oP⟩, hP, h⟩ := except_bind_ok h
      obtain ⟨hp1, hp2, hp3⟩ := parsePath_inv hP
      simp only [Except.ok.injEq, Prod.mk.injEq] at h
      obtain ⟨hu, rfl⟩ := h
      subst hu
      refine ⟨by omega, hp3 (by omega), ?_⟩
      simp only
      rw [extract_append_mid cs (by omega : o ≤ o + 2) (by omega : o + 2 ≤ oP),
          extract_append_mid cs (by omega : o + 2 ≤ oA) (by omega : oA ≤ oP),
          extract_pair (by omega : o + 1 < cs.length)]
      rw [hsl.2.1, hsl.2.2, mA.2.2, hp1]
      simp
  case isFalse hsl =>
    obtain ⟨⟨p, oP⟩, hP, h⟩ := except_bind_ok h
    obtain ⟨hp1, hp2, hp3⟩ := parsePath_inv hP
    simp only [Except.ok.injEq, Prod.mk.injEq] at h
    obtain ⟨hu, rfl⟩ := h
    subst hu
    exact ⟨hp2, hp3 hol, by simp [hp1]⟩

/-- Full decomposition of the relative-reference region. -/
theorem parseRelativeRef_decomp {ucs : Bool} {cs : Str} {l o : Nat} {u : Uri} {n : Nat}
    (hol : o ≤ l) (hll : l ≤ cs.length)
    (h : parseRelativeRef ucs cs l o = .ok (u, n)) :
    o ≤ n ∧ n ≤ l ∧
    extract cs o n =
      (match u.authority with
        | some a => [0x2f, 0x2f] ++ a
        | none => []) ++ u.path ++
      (match u.query with
        | some q => 0x3f :: q
        | none => []) ++
      (match u.fragment with
        | some f => 0x23 :: f
        | none => []) := by
  simp only [parseRelativeRef] at h
  obtain ⟨⟨u0, o1⟩, h0, h⟩ := except_bind_ok h
  have d0 := parseRelativePart_decomp hol hll h0
  have core : ∀ (qopt : Option Str) (o2 : Nat),
      o1 ≤ o2 → o2 ≤ l →
      extract cs o1 o2 = (match qopt with | some q => 0x3f :: q | none => ([] : Str)) →
      ∀ (h : (if o2 < l ∧ chAt cs o2 = 0x23 then
            ((parseFragment ucs cs l (o2 + 1)).map (fun x => ((some x.1 : Option Str), x.2)) >>=
              (fun x => Except.ok ({ u0 with query := qopt, fragment := x.1 }, x.2)) : P (Uri × Nat))
          else (pure ((none : Option Str), o2) >>=
              (fun x => Except.ok ({ u0 with query := qopt, fragment := x.1 }, x.2)) : P (Uri × Nat)))
          = .ok (u, n)),
      o ≤ n ∧ n ≤ l ∧
      extract cs o n =
        (match u.authority with
          | some a => [0x2f, 0x2f] ++ a
          | none => []) ++ u.path ++
        (match u.query with
          | some q => 0x3f :: q
          | none => []) ++
        (match u.fragment with
          | some f => 0x23 :: f
          | none => []) := by
    intro qopt o2 ho12 ho2l hq h
    have dfin : ∀ (fopt : Option Str) (o3 : Nat),
        o2 ≤ o3 → o3 ≤ l →
        extract cs o2 o3 = (match fopt with | some f => 0x23 :: f | none => ([] : Str)) →
        ({ u0 with query := qopt, fragment := fopt } : Uri) = u → o3 = n →
        o ≤ n ∧ n ≤ l ∧
        extract cs o n =
          (match u.authority with
            | some a => [0x2f, 0x2f] ++ a
            | none => []) ++ u.path ++
          (match u.query with
            | some q => 0x3f :: q
            | none => []) ++
          (match u.fragment with
            | some f => 0x23 :: f
            | none => []) := by
      intro fopt o3 ho23 ho3l hf hu hn
      subst hn
      subst hu
      refine ⟨by omega, by omega, ?_⟩
      rw [extract_append_mid cs (by omega : o ≤ o1) (by omega : o1 ≤ o3),
          extract_append_mid cs (by omega : o1 ≤ o2) (by omega : o2 ≤ o3)]
      rw [d0.2.2, hq, hf]
      simp
    split at h
    case isTrue hfc =>
      obtain ⟨⟨fopt0, o3⟩, hF, h⟩ := except_bind_ok h
      obtain ⟨⟨f, oF⟩, hF2, hF3⟩ := except_map_ok hF
      obtain ⟨hf1, hf2, hf3⟩ := parseFragment_inv hF2
      simp only [Prod.mk.injEq] at hF3
      obtain ⟨rfl, rfl⟩ := hF3
      simp only [Except.ok.injEq, Prod.mk.injEq] at h
      refine dfin (some f) oF (by omega) (hf3 (by omega)) ?_ h.1 h.2
      rw [extract_append_mid cs (by omega : o2 ≤ o2 + 1) (by omega : o2 + 1 ≤ oF),
          extract_singleton (by omega : o2 < cs.length), hfc.2, hf1]
      simp
    case isFalse hfc =>
      obtain ⟨⟨fopt0, o3⟩, hF, h⟩ := except_bind_ok h
      simp only [pure, Except.pure, Except.ok.injEq, Prod.mk.injEq] at hF
      obtain ⟨rfl, rfl⟩ := hF
      simp only [Except.ok.injEq, Prod.mk.injEq] at h
      exact dfin none o2 (le_refl o2) ho2l (by simp [extract_self]) h.1 h.2
  split at h
  case isTrue hqc =>
    obtain ⟨⟨qopt0, o2⟩, hQ, h⟩ := except_bind_ok h
    obtain ⟨⟨q, oQ⟩, hQ2, hQ3⟩ := except_map_ok hQ
    obtain ⟨hq1, hq2, hq3⟩ := parseQuery_inv hQ2
    simp only [Prod.mk.injEq] at hQ3
    obtain ⟨rfl, rfl⟩ := hQ3
    refine core (some q) oQ (by omega) (hq3 (by omega)) ?_ h
    rw [extract_append_mid cs (by omega : o1 ≤ o1 + 1) (by omega : o1 + 1 ≤ oQ),
        extract_singleton (by omega : o1 < cs.length), hqc.2, hq1]
    simp
  case isFalse hqc =>
    obtain ⟨⟨qopt0, o2⟩, hQ, h⟩ := except_bind_ok h
    simp only [pure, Except.pure, Except.ok.injEq, Prod.mk.injEq] at hQ
    obtain ⟨rfl, rfl⟩ := hQ
    exact core none o1 (le_refl o1) (by omega) (by simp [extract_self]) h

end ToolUri

namespace ToolUri

/-- Inversion of parseScheme: the scheme is the scanned slice. -/
theorem parseScheme_inv {cs : Str} {l o : Nat} {s : Str} {o1 : Nat}
    (h : parseScheme cs l o = .ok (s, o1)) :
    s = extract cs o o1 ∧ o ≤ o1 ∧ (o ≤ l → o1 ≤ l) := by
  simp only [parseScheme] at h
  split at h
  case isTrue hc =>
    simp only [Except.ok.injEq, Prod.mk.injEq] at h
    obtain ⟨h1, h2⟩ := h
    subst h2
    exact ⟨h1.symm,
      le_trans (by omega) (schemeLoopGo_ge cs l (l - (o + 1)) (o + 1)),
      fun _ => schemeLoopGo_le cs l (l - (o + 1)) (o + 1) (by omega)⟩
  case isFalse => simp at h

/-- Full decomposition of a parsed URI: the href is the consumed slice and
reformatting the component view reproduces that same slice. -/
theorem parseUriCore_decomp {ucs : Bool} {cs : Str} {l o : Nat} {u : Uri} {n : Nat}
    (_hol : o ≤ l) (hll : l ≤ cs.length)
    (h : parseUriCore ucs cs l o = .ok (u, n)) :
    o ≤ n ∧ n ≤ l ∧ u.scheme ≠ none ∧
    u.href = extract cs o n ∧ formatUri u.fmtParts = extract cs o n := by
  simp only [parseUriCore] at h
  obtain ⟨⟨sch, o1⟩, hS, h⟩ := except_bind_ok h
  obtain ⟨hs1, hs2, hs3⟩ := parseScheme_inv hS
  split at h
  case isTrue hc =>
    obtain ⟨o2, hO2, h⟩ := except_bind_ok h
    simp only [pure, Except.pure, Except.ok.injEq] at hO2
    subst hO2
    obtain ⟨⟨u0, o3⟩, hR, h⟩ := except_bind_ok h
    have d := parseRelativeRef_decomp (by omega) hll hR
    simp only [Except.ok.injEq, Prod.mk.injEq] at h
    obtain ⟨hu, rfl⟩ := h
    subst hu
    refine ⟨by omega, by omega, by simp, by simp, ?_⟩
    rw [extract_append_mid cs (by omega : o ≤ o1) (by omega : o1 ≤ o3),
        extract_append_mid cs (by omega : o1 ≤ o1 + 1) (by omega : o1 + 1 ≤ o3),
        extract_singleton (by omega : o1 < cs.length), hc.2, ← hs1, d.2.2]
    simp only [formatUri, Uri.fmtParts]
    cases u0.authority <;> cases u0.query <;> cases u0.fragment <;> simp
  case isFalse => simp [Bind.bind, Except.bind] at h

/-- A string accepted by parseUri is stored verbatim as the href and is
reproduced verbatim by formatUri on the component view. -/
theorem parseUriStr_format {cs : Str} {u : Uri}
    (h : parseUriStr cs = .ok u) :
    u.href = cs ∧ formatUri u.fmtParts = cs ∧ u.scheme ≠ none := by
  simp only [parseUriStr] at h
  obtain ⟨⟨u0, o⟩, hC, h⟩ := except_bind_ok h
  have d := parseUriCore_decomp (Nat.zero_le _) (le_refl _) hC
  split at h
  · simp at h
  case isFalse hne =>
    simp only [Except.ok.injEq] at h
    subst h
    have ho : o = cs.length := by omega
    subst ho
    rw [extract_all] at d
    exact ⟨d.2.2.2.1, d.2.2.2.2, d.2.2.1⟩

end ToolUri

namespace ToolUri

/-- A concrete parse of "http://ex.com/a?q#f", the witness input for the
roundtrip law. -/
def uEx : Uri :=
  { href := u16 "http://ex.com/a?q#f",
    scheme := some (u16 "http"),
    relative := some (u16 "//ex.com/a"),
    authority := some (u16 "ex.com"),
    host := some (u16 "ex.com"),
    hostname := some (u16 "ex.com"),
    path := u16 "/a",
    query := some (u16 "q"),
    fragment := some (u16 "f") }

/-- C1: for every string s that parseUri accepts, formatUri of the parsed
record equals the record href, and the href equals s verbatim. -/
theorem claim1_parse_format_roundtrip (cs : Str) (u : Uri)
    (h : parseUriStr cs = .ok u) :
    formatUri u.fmtParts = u.href ∧ u.href = cs := by
  obtain ⟨h1, h2, -⟩ := parseUriStr_format h
  exact ⟨by rw [h1, h2], h1⟩

/-- C1 witness: the roundtrip law applied to a concrete accepted string. -/
theorem claim1_parse_format_roundtrip_witness :
    parseUriStr (u16 "http://ex.com/a?q#f") = .ok uEx ∧
    (formatUri uEx.fmtParts = uEx.href ∧ uEx.href = u16 "http://ex.com/a?q#f") :=
  ⟨by rfl, claim1_parse_format_roundtrip (u16 "http://ex.com/a?q#f") uEx (by rfl)⟩

end ToolUri

namespace ToolUri

/-- C2: the standalone IPv6 validator accepts the five listed addresses,
returning the original input, and rejects the three malformed ones. -/
theorem claim2_parseIpv6_examples :
    parseIpv6Str (u16 "::") = .ok (u16 "::") ∧
    parseIpv6Str (u16 "::1") = .ok (u16 "::1") ∧
    parseIpv6Str (u16 "2001:db8::1") = .ok (u16 "2001:db8::1") ∧
    parseIpv6Str (u16 "2001:db8::192.168.0.1") = .ok (u16 "2001:db8::192.168.0.1") ∧
    parseIpv6Str (u16 "::ffff:192.168.0.1") = .ok (u16 "::ffff:192.168.0.1") ∧
    parseIpv6Str (u16 "2001:db8:::1") = .error ⟨"Expected hex digit", 10⟩ ∧
    parseIpv6Str (u16 "2001:db8::1::") = .error ⟨"Expected hex digit", 12⟩ ∧
    parseIpv6Str (u16 "2001:db8::192.168") = .error ⟨"Expected dot", 17⟩ :=
  ⟨rfl, rfl, rfl, rfl, rfl, rfl, rfl, rfl⟩

/-- C3 counterexample: the base "a:#" is absolute in the sense of
isAbsoluteUri (scheme present, fragment empty), yet resolving the empty
reference against it drops the empty fragment, so the result href "a:"
differs from the base href "a:#". -/
theorem claim3_counterexample :
    (parseUriStr (u16 "a:#")).map
        (fun b => (isAbsoluteUri b, b.href, (resolveUriStrRef (some b) []).map Uri.href))
      = .ok (true, u16 "a:#", .ok (u16 "a:")) ∧
    u16 "a:#" ≠ u16 "a:" :=
  ⟨rfl, by decide⟩

/-- C3 amended: for every parsed URI whose fragment is absent (a strictly
stronger condition than isAbsoluteUri, which also admits an empty
fragment), the base is absolute and resolving the empty reference string
against it preserves the href. -/
theorem claim3_resolve_empty_preserves_href (cs : Str) (u : Uri)
    (h : parseUriStr cs = .ok u) (hf : u.fragment = none) :
    isAbsoluteUri u = true ∧
    (resolveUriStrRef (some u) []).map Uri.href = .ok u.href := by
  obtain ⟨h1, h2, h3⟩ := parseUriStr_format h
  constructor
  · simp only [isAbsoluteUri, hf]
    cases hs : u.scheme with
    | none => exact absurd hs h3
    | some s => simp
  · have hr : parseUriReferenceStr [] = .ok { relative := some [] } := rfl
    simp only [resolveUriStrRef, hr, Bind.bind, Except.bind, Except.map]
    simp only [resolveUri, Option.getD, resolveUriCore]
    norm_num
    simp only [Uri.fmtParts]
    have hfmt : formatUri ({ scheme := u.scheme, authority := u.authority, path := some u.path, query := u.query, fragment := none } : FmtParts) = formatUri u.fmtParts := by
      rw [Uri.fmtParts, hf]
    rw [hfmt, h2, h1]

end ToolUri

namespace ToolUri

/-- A concrete parse of "a:b", the witness base for the amended C3. -/
def uAB : Uri :=
  { href := u16 "a:b", scheme := some (u16 "a"),
    relative := some (u16 "b"), path := u16 "b" }

/-- C3 witness: the amended law applied to the concrete fragmentless base
"a:b". -/
theorem claim3_resolve_empty_preserves_href_witness :
    parseUriStr (u16 "a:b") = .ok uAB ∧ uAB.fragment = none ∧
    (isAbsoluteUri uAB = true ∧
      (resolveUriStrRef (some uAB) []).map Uri.href = .ok uAB.href) :=
  ⟨rfl, rfl, claim3_resolve_empty_preserves_href (u16 "a:b") uAB rfl rfl⟩

end ToolUri

namespace ToolUri

/-- C4 counterexample: with an absent base, the code aliases the base to
the reference itself, so the relative reference "a/b" (no scheme, no
authority, path not slash-initial) goes through the merge branch: its
path is merged with itself, giving "a/a/b" instead of
removeDotSegments "a/b" = "a/b". -/
theorem claim4_counterexample :
    (parseUriReferenceStr (u16 "a/b")).map
        (fun r => ((resolveUri none r).path, removeDotSegments r.path))
      = .ok (u16 "a/a/b", u16 "a/b") ∧
    u16 "a/a/b" ≠ u16 "a/b" :=
  ⟨rfl, by decide⟩

/-- C4 amended: with an absent base, resolveUri preserves scheme,
authority, userinfo, host, hostname, port, query and fragment; it clears
relative, ipv4, ipv6 and ipvFuture; it recomputes href from the resolved
components; and the path gets removeDotSegments applied directly only
when the reference has a scheme, an authority, an empty path or a
slash-initial path — otherwise the path is first merged with itself by
mergePaths. -/
theorem claim4_resolve_absent_base (R : Uri) :
    (resolveUri none R).scheme = R.scheme ∧
    (resolveUri none R).authority = R.authority ∧
    (resolveUri none R).userinfo = R.userinfo ∧
    (resolveUri none R).host = R.host ∧
    (resolveUri none R).hostname = R.hostname ∧
    (resolveUri none R).port = R.port ∧
    (resolveUri none R).query = R.query ∧
    (resolveUri none R).fragment = R.fragment ∧
    (resolveUri none R).relative = none ∧
    (resolveUri none R).ipv4 = none ∧
    (resolveUri none R).ipv6 = none ∧
    (resolveUri none R).ipvFuture = none ∧
    (resolveUri none R).href = formatUri (resolveUri none R).fmtParts ∧
    (resolveUri none R).path =
      (if R.scheme ≠ none ∨ R.authority ≠ none ∨ R.path = [] ∨ lstartsWith [0x2f] R.path
        then removeDotSegments R.path
        else removeDotSegments (mergePaths none R.path R.path)) := by
  simp only [resolveUri, Option.getD, resolveUriCore]
  by_cases h1 : R.scheme = none
  · by_cases h2 : R.authority = none
    · by_cases h3 : R.path = []
      · simp [h1, h2, h3, Uri.fmtParts, removeDotSegments, removeDotSegmentsGo]
        cases hq : R.query <;> simp
      · by_cases h4 : lstartsWith [0x2f] R.path
        · simp [h1, h2, h3, h4, Uri.fmtParts]
        · simp [h1, h2, h3, h4, Uri.fmtParts]
    · simp [h1, h2, Uri.fmtParts]
  · simp [h1, Uri.fmtParts]

end ToolUri

namespace ToolUri

/-- C5 (code bug): the template parser emits the pending literal run a
second time when it meets a non-URI literal scalar, so "§1" (no pending
run) expands to "%C2%A71" as the spec says, but "a§b" expands to
"aa%C2%A7b" — the literal "a" is duplicated — instead of the claimed
scalar-by-scalar rewriting "a%C2%A7b". -/
theorem claim5_literal_duplication :
    expandUriTemplateStr (u16 "§1") (fun _ => .undef) [] = .ok (.ok (u16 "%C2%A71")) ∧
    expandUriTemplateStr (u16 "a§b") (fun _ => .undef) [] = .ok (.ok (u16 "aa%C2%A7b")) ∧
    u16 "aa%C2%A7b" ≠ u16 "a%C2%A7b" :=
  ⟨rfl, rfl, by decide⟩

/-- C6 (code bug): for a named exploded array, the source tests the
emptiness of the whole accumulated result buffer instead of the coerced
item, so with a nonempty name the empty-substitution branch is
unreachable: {;count*} over ["", "two"] yields "count=;count=two",
not the claimed "count;count=two" with the first item emitted as
name + empty. -/
theorem claim6_named_explode_empty_item :
    expandUriVariable [JNode.arr [.jstr [], .jstr (u16 "two")]]
        { name := u16 "count", separator := [0x3b], named := true, explode := true }
        (.ref 0)
      = .ok (some (u16 "count=;count=two")) ∧
    u16 "count=;count=two" ≠ u16 "count" ++ [0x3b] ++ u16 "count=two" :=
  ⟨rfl, by decide⟩

end ToolUri

namespace ToolUri

/-- The decimal value the port loop accumulates over a digit string,
starting from v. -/
def digitsVal (v : Nat) (ds : Str) : Nat :=
  ds.foldl (fun a c => a * 10 + (c - 0x30)) v

theorem digitsVal_cons (v c : Nat) (rest : Str) :
    digitsVal v (c :: rest) = digitsVal (v * 10 + (c - 0x30)) rest := rfl

theorem digitsVal_ge (ds : Str) : ∀ v, v ≤ digitsVal v ds := by
  induction ds with
  | nil => intro v; simp [digitsVal]
  | cons c rest ih =>
    intro v
    rw [digitsVal_cons]
    exact le_trans (by omega) (ih (v * 10 + (c - 0x30)))

/-- The port loop consumes a full digit region whose accumulated value
stays at most 0xffff, returning that value at the region's end. -/
theorem portLoopGo_digits (cs : Str) (l : Nat) :
    ∀ (ds : Str) (fuel v o : Nat),
      o + ds.length = l → l ≤ cs.length → ds.length ≤ fuel →
      extract cs o l = ds → (∀ c ∈ ds, isDigit c = true) →
      digitsVal v ds ≤ 0xffff →
      portLoopGo cs l fuel v o = (digitsVal v ds, l) := by
  intro ds
  induction ds with
  | nil =>
    intro fuel v o h1 _ _ _ _ _
    have ho : o = l := by simpa using h1
    subst ho
    cases fuel <;> simp [portLoopGo, digitsVal]
  | cons c rest ih =>
    intro fuel v o h1 hll h3 h4 h5 h6
    obtain ⟨k, rfl⟩ : ∃ k, fuel = k + 1 := ⟨fuel - 1, by simp at h3 ⊢; omega⟩
    have hol : o < l := by simp at h1; omega
    have hsplit : extract cs o (o + 1) ++ extract cs (o + 1) l = c :: rest := by
      rw [← extract_append_mid cs (by omega : o ≤ o + 1) (by omega : o + 1 ≤ l)]
      exact h4
    rw [extract_singleton (by omega : o < cs.length)] at hsplit
    simp only [List.cons_append, List.nil_append, List.cons.injEq] at hsplit
    obtain ⟨hco, hrest⟩ := hsplit
    have hdc : isDigit c = true := h5 c (by simp)
    have hge : v * 10 + (c - 0x30) ≤ digitsVal v (c :: rest) := by
      rw [digitsVal_cons]; exact digitsVal_ge rest _
    have hv : v < 0xffff := by omega
    simp only [portLoopGo]
    rw [if_pos ⟨hv, hol, by rw [hco]; exact hdc⟩, hco, digitsVal_cons]
    exact ih k (v * 10 + (c - 0x30)) (o + 1) (by simp at h1 ⊢; omega) hll
      (by simp at h3 ⊢; omega) hrest (fun x hx => h5 x (by simp [hx]))
      (by rw [← digitsVal_cons]; exact h6)

/-- The shared scan loop stops at a character it cannot consume. -/
theorem scanPctGo_stop {p : Nat → Bool} {cs : Str} {l : Nat} (fuel : Nat) {o : Nat}
    (h1 : p (chAt cs o) = false) (h2 : isPctEncodedAt cs l o = false)
    (h3 : chAt cs o ≠ 0x25) :
    scanPctGo p cs l fuel o = .ok o := by
  cases fuel <;> simp [scanPctGo, h1, h2, h3]

/-- The shared scan loop consumes one class character. -/
theorem scanPctGo_step {p : Nat → Bool} {cs : Str} {l fuel o : Nat}
    (hf : 0 < fuel) (ho : o < l) (hp : p (chAt cs o) = true) :
    scanPctGo p cs l fuel o = scanPctGo p cs l (fuel - 1) (o + 1) := by
  obtain ⟨k, rfl⟩ : ∃ k, fuel = k + 1 := ⟨fuel - 1, by omega⟩
  simp [scanPctGo, ho, hp]

/-- The scheme loop stops at a non-scheme character. -/
theorem schemeLoopGo_stop {cs : Str} {l : Nat} (fuel : Nat) {o : Nat}
    (h : isSchemeChar (chAt cs o) = false) :
    schemeLoopGo cs l fuel o = o := by
  cases fuel <;> simp [schemeLoopGo, h]

end ToolUri

namespace ToolUri

theorem claim7_walk (d : Str) (hd : ∀ c ∈ d, isDigit c = true)
    (hv : digitsVal 0 d ≤ 0xffff) :
    ∃ u : Uri, parseUriStr (u16 "x://h:" ++ d) = .ok u ∧ u.port = some d := by
  have h6 : (u16 "x://h:").length = 6 := rfl
  have hlen : (u16 "x://h:" ++ d).length = 6 + d.length := by
    rw [List.length_append, h6]
  have hc0 : chAt (u16 "x://h:" ++ d) 0 = 0x78 := by
    rw [chAt_append_left (by decide)]
    decide
  have hc1 : chAt (u16 "x://h:" ++ d) 1 = 0x3a := by
    rw [chAt_append_left (by decide)]
    decide
  have hc2 : chAt (u16 "x://h:" ++ d) 2 = 0x2f := by
    rw [chAt_append_left (by decide)]
    decide
  have hc3 : chAt (u16 "x://h:" ++ d) 3 = 0x2f := by
    rw [chAt_append_left (by decide)]
    decide
  have hc4 : chAt (u16 "x://h:" ++ d) 4 = 0x68 := by
    rw [chAt_append_left (by decide)]
    decide
  have hc5 : chAt (u16 "x://h:" ++ d) 5 = 0x3a := by
    rw [chAt_append_left (by decide)]
    decide
  have hexd : extract (u16 "x://h:" ++ d) 6 (6 + d.length) = d :=
    extract_append_pre (u16 "x://h:") d
  have hcont : containsFrom (u16 "x://h:" ++ d) 0x40 4 = false := by
    have hmem : (0x40 : Nat) ∉ (u16 "x://h:" ++ d).drop 4 := by
      intro hm
      rw [List.drop_append_of_le_length (by omega)] at hm
      rw [List.mem_append] at hm
      rcases hm with hm | hm
      · simp [u16] at hm
      · have := hd _ hm
        simp [isDigit] at this
    simp only [containsFrom]
    simpa using hmem
  have hdec : parseDecimalOctet (u16 "x://h:" ++ d) (6 + d.length) 4 =
      .error ⟨"Invalid IPv4 octet", 4⟩ := by
    show decOctetGo _ _ (2 + 1) 0 0 4 = _
    simp only [decOctetGo]
    rw [if_neg (by simp [hc4, isDigit])]
    simp
  have hIpv4 : parseIpv4Core (u16 "x://h:" ++ d) (6 + d.length) 4 =
      .error ⟨"Invalid IPv4 octet", 4⟩ := by
    simp only [parseIpv4Core, parseDecimalOctet] at hdec ⊢
    rw [hdec]
    rfl
  have hpct5 : isPctEncodedAt (u16 "x://h:" ++ d) (6 + d.length) 5 = false := by
    simp [isPctEncodedAt, hc5]
  have hscan : scanPct (fun c => isHostChar c false) (u16 "x://h:" ++ d) (6 + d.length) 4 =
      .ok 5 := by
    simp only [scanPct]
    rw [scanPctGo_step (by omega) (by omega) (by rw [hc4]; decide)]
    exact scanPctGo_stop _ (by rw [hc5]; decide) hpct5 (by rw [hc5]; decide)
  have hHost : parseHost false (u16 "x://h:" ++ d) (6 + d.length) 4 =
      .ok ({ hostname := extract (u16 "x://h:" ++ d) 4 5 }, 5) := by
    simp only [parseHost]
    rw [if_neg (by simp [hc4])]
    simp only [hIpv4, hscan]
  have hplg : portLoopGo (u16 "x://h:" ++ d) (6 + d.length) (6 + d.length - 6) 0 6 =
      (digitsVal 0 d, 6 + d.length) :=
    portLoopGo_digits _ _ d _ 0 6 rfl (by omega) (by omega) hexd hd hv
  have hPort : parsePort (u16 "x://h:" ++ d) (6 + d.length) 5 =
      .ok (some d, 6 + d.length) := by
    simp only [parsePort]
    rw [if_pos ⟨by omega, hc5⟩]
    simp only [show (5 : Nat) + 1 = 6 from rfl]
    rw [hplg]
    rw [if_neg (by omega)]
    rw [hexd]
  have hAuth : parseAuthority false (u16 "x://h:" ++ d) (6 + d.length) 4 =
      .ok ({ authority := extract (u16 "x://h:" ++ d) 4 (6 + d.length),
             host := extract (u16 "x://h:" ++ d) 4 (6 + d.length),
             hostname := extract (u16 "x://h:" ++ d) 4 5,
             port := some d }, 6 + d.length) := by
    simp only [parseAuthority, hcont, Bool.false_eq_true, if_false, Bind.bind, Except.bind,
      pure, Except.pure, hHost, hPort]
  have hPath : parsePath false (u16 "x://h:" ++ d) (6 + d.length) (6 + d.length) =
      .ok ([], 6 + d.length) := by
    simp only [parsePath]
    have h0 : pathLoopGo false (u16 "x://h:" ++ d) (6 + d.length)
        (6 + d.length - (6 + d.length)) (6 + d.length) = .ok (6 + d.length) := by
      rw [Nat.sub_self]
      rfl
    rw [h0]
    simp [Bind.bind, Except.bind, extract_self]
  have hRel : parseRelativePart false (u16 "x://h:" ++ d) (6 + d.length) 2 =
      .ok ({ relative := some (extract (u16 "x://h:" ++ d) 2 (6 + d.length)),
             authority := some (extract (u16 "x://h:" ++ d) 4 (6 + d.length)),
             host := some (extract (u16 "x://h:" ++ d) 4 (6 + d.length)),
             hostname := some (extract (u16 "x://h:" ++ d) 4 5),
             port := some d, path := [] }, 6 + d.length) := by
    simp only [parseRelativePart]
    rw [if_pos ⟨by omega, hc2, hc3⟩]
    simp only [show (2 : Nat) + 2 = 4 from rfl, Bind.bind, Except.bind, hAuth]
    rw [if_neg (by omega)]
    simp only [Bind.bind, Except.bind, hPath]
  have hRef : parseRelativeRef false (u16 "x://h:" ++ d) (6 + d.length) 2 =
      .ok ({ relative := some (extract (u16 "x://h:" ++ d) 2 (6 + d.length)),
             authority := some (extract (u16 "x://h:" ++ d) 4 (6 + d.length)),
             host := some (extract (u16 "x://h:" ++ d) 4 (6 + d.length)),
             hostname := some (extract (u16 "x://h:" ++ d) 4 5),
             port := some d, path := [] }, 6 + d.length) := by
    simp only [parseRelativeRef, Bind.bind, Except.bind, hRel]
    rw [if_neg (by omega)]
    simp only [pure, Except.pure]
    rw [if_neg (by omega)]
  have hCore : parseUriCore false (u16 "x://h:" ++ d) (6 + d.length) 0 =
      .ok ({ href := extract (u16 "x://h:" ++ d) 0 (6 + d.length),
             scheme := some (extract (u16 "x://h:" ++ d) 0 1),
             relative := some (extract (u16 "x://h:" ++ d) 2 (6 + d.length)),
             authority := some (extract (u16 "x://h:" ++ d) 4 (6 + d.length)),
             host := some (extract (u16 "x://h:" ++ d) 4 (6 + d.length)),
             hostname := some (extract (u16 "x://h:" ++ d) 4 5),
             port := some d, path := [] }, 6 + d.length) := by
    have hSch : parseScheme (u16 "x://h:" ++ d) (6 + d.length) 0 =
        .ok (extract (u16 "x://h:" ++ d) 0 1, 1) := by
      simp only [parseScheme]
      rw [if_pos ⟨by omega, by rw [hc0]; decide⟩]
      rw [schemeLoopGo_stop _ (by rw [show (0 : Nat) + 1 = 1 from rfl, hc1]; decide)]
    simp only [parseUriCore, Bind.bind, Except.bind, hSch]
    rw [if_pos ⟨by omega, hc1⟩]
    simp only [pure, Except.pure, show (1 : Nat) + 1 = 2 from rfl, hRef]
  have hstr : parseUriStr (u16 "x://h:" ++ d) =
      .ok { href := extract (u16 "x://h:" ++ d) 0 (6 + d.length),
            scheme := some (extract (u16 "x://h:" ++ d) 0 1),
            relative := some (extract (u16 "x://h:" ++ d) 2 (6 + d.length)),
            authority := some (extract (u16 "x://h:" ++ d) 4 (6 + d.length)),
            host := some (extract (u16 "x://h:" ++ d) 4 (6 + d.length)),
            hostname := some (extract (u16 "x://h:" ++ d) 4 5),
            port := some d, path := [] } := by
    simp only [parseUriStr, hlen, Bind.bind, Except.bind, hCore]
    rw [if_neg (by omega)]
  exact ⟨_, hstr, rfl⟩

end ToolUri

namespace ToolUri

/-- C7 amended: every digit-string port whose accumulated value is at most
65535 is accepted with the digits recorded as the port component, and
"65536" is rejected with the invalid-port error; but (see the
counterexample) a longer over-limit digit string need not produce the
invalid-port error, because the accumulation loop stops as soon as the
value reaches 65535 and leaves the remaining digits unconsumed. -/
theorem claim7_port_amended (d : Str) (hd : ∀ c ∈ d, isDigit c = true)
    (hv : digitsVal 0 d ≤ 0xffff) :
    (∃ u : Uri, parseUriStr (u16 "x://h:" ++ d) = .ok u ∧ u.port = some d) ∧
    parseUriStr (u16 "x://h:65536") = .error ⟨"Invalid port number", 11⟩ :=
  ⟨claim7_walk d hd hv, rfl⟩

/-- C7 counterexample: the port digits "655350" have value 655350 > 65535,
yet parseUri does not fail with the invalid-port error: the loop stops
after "65535" with value 65535, and the leftover "0" triggers the
path-after-authority error instead. -/
theorem claim7_counterexample :
    parseUriStr (u16 "x://h:655350") =
      .error ⟨"Path after authority must be empty or start with slash", 11⟩ ∧
    digitsVal 0 (u16 "655350") = 655350 ∧
    ("Path after authority must be empty or start with slash" : String) ≠
      "Invalid port number" :=
  ⟨rfl, rfl, by decide⟩

/-- C7 witness: the amended law applied to the concrete port "8080". -/
theorem claim7_port_amended_witness :
    (∀ c ∈ u16 "8080", isDigit c = true) ∧ digitsVal 0 (u16 "8080") ≤ 0xffff ∧
    ((∃ u : Uri, parseUriStr (u16 "x://h:" ++ u16 "8080") = .ok u ∧
        u.port = some (u16 "8080")) ∧
      parseUriStr (u16 "x://h:65536") = .error ⟨"Invalid port number", 11⟩) :=
  ⟨by decide, by decide, claim7_port_amended (u16 "8080") (by decide) (by decide)⟩

end ToolUri

namespace ToolUri

/-- All characters of the half-open region a..b are ASCII. -/
def asciiAt (cs : Str) (a b : Nat) : Prop :=
  ∀ i, a ≤ i → i < b → chAt cs i < 0x80

theorem asciiAt_empty {cs : Str} {a b : Nat} (h : b ≤ a) : asciiAt cs a b :=
  fun _ h1 h2 => absurd (lt_of_le_of_lt h1 h2) (by omega)

theorem asciiAt_join {cs : Str} {a m b : Nat}
    (h1 : asciiAt cs a m) (h2 : asciiAt cs m b) : asciiAt cs a b := by
  intro i hi1 hi2
  by_cases h : i < m
  · exact h1 i hi1 h
  · exact h2 i (by omega) hi2

theorem asciiAt_single {cs : Str} {a : Nat} (h : chAt cs a < 0x80) :
    asciiAt cs a (a + 1) := by
  intro i h1 h2
  have he : i = a := by omega
  rw [he]
  exact h

theorem isDigit_ascii {c : Nat} (h : isDigit c = true) : c < 0x80 := by
  simp [isDigit] at h; omega

theorem isHexChar_ascii {c : Nat} (h : isHexChar c = true) : c < 0x80 := by
  simp [isHexChar, isDigit] at h; omega

theorem isSchemeChar_ascii {c : Nat} (h : isSchemeChar c = true) : c < 0x80 := by
  simp [isSchemeChar, isAlpha, isDigit] at h; omega

theorem isUserinfoChar_ascii {c : Nat} (h : isUserinfoChar c false = true) : c < 0x80 := by
  simp [isUserinfoChar, isUnreservedChar, isAlpha, isDigit, isSubDelimChar] at h; omega

theorem isHostChar_ascii {c : Nat} (h : isHostChar c false = true) : c < 0x80 := by
  simp [isHostChar, isUnreservedChar, isAlpha, isDigit, isSubDelimChar] at h; omega

theorem isPathChar_ascii {c : Nat} (h : isPathChar c false = true) : c < 0x80 := by
  simp [isPathChar, isUnreservedChar, isAlpha, isDigit, isSubDelimChar] at h; omega

theorem isQueryChar_ascii {c : Nat} (h : isQueryChar c false = true) : c < 0x80 := by
  simp [isQueryChar, isPathChar, isUnreservedChar, isAlpha, isDigit, isSubDelimChar] at h
  omega

theorem isFragmentChar_ascii {c : Nat} (h : isFragmentChar c false = true) : c < 0x80 := by
  simp [isFragmentChar, isPathChar, isUnreservedChar, isAlpha, isDigit, isSubDelimChar] at h
  omega

theorem isUcsChar_low {c : Nat} (h : c < 0xa0 ∨ c = NOCHAR) : isUcsChar c = false := by
  rcases h with h | h
  · simp [isUcsChar]; omega
  · rw [h]; rfl

theorem isIPrivateChar_low {c : Nat} (h : c < 0xa0 ∨ c = NOCHAR) :
    isIPrivateChar c = false := by
  rcases h with h | h
  · simp [isIPrivateChar]; omega
  · rw [h]; rfl

theorem isUnreservedChar_agree {c : Nat} (h : c < 0xa0 ∨ c = NOCHAR) :
    isUnreservedChar c true = isUnreservedChar c false := by
  simp [isUnreservedChar, isUcsChar_low h]

theorem isUserinfoChar_agree {c : Nat} (h : c < 0xa0 ∨ c = NOCHAR) :
    isUserinfoChar c true = isUserinfoChar c false := by
  simp [isUserinfoChar, isUnreservedChar_agree h]

theorem isHostChar_agree {c : Nat} (h : c < 0xa0 ∨ c = NOCHAR) :
    isHostChar c true = isHostChar c false := by
  simp [isHostChar, isUnreservedChar_agree h]

theorem isPathChar_agree {c : Nat} (h : c < 0xa0 ∨ c = NOCHAR) :
    isPathChar c true = isPathChar c false := by
  simp [isPathChar, isUnreservedChar_agree h]

theorem isQueryChar_agree {c : Nat} (h : c < 0xa0 ∨ c = NOCHAR) :
    isQueryChar c true = isQueryChar c false := by
  simp [isQueryChar, isPathChar_agree h, isIPrivateChar_low h]

theorem isFragmentChar_agree {c : Nat} (h : c < 0xa0 ∨ c = NOCHAR) :
    isFragmentChar c true = isFragmentChar c false := by
  simp [isFragmentChar, isPathChar_agree h]

/-- Every chAt value of a sub-0xa0 string is sub-0xa0 or the sentinel. -/
theorem chAt_low {cs : Str} (hA : ∀ c ∈ cs, c < 0xa0) (i : Nat) :
    chAt cs i < 0xa0 ∨ chAt cs i = NOCHAR := by
  by_cases h : i < cs.length
  · exact .inl (hA _ (chAt_mem h))
  · exact .inr (chAt_of_ge (by omega))

end ToolUri

namespace ToolUri

/-- The percent-aware scan only consumes ASCII characters when its class
predicate only accepts ASCII. -/
theorem scanPctGo_span {p : Nat → Bool} (hp : ∀ c, p c = true → c < 0x80)
    (cs : Str) (l : Nat) :
    ∀ fuel o o2, scanPctGo p cs l fuel o = .ok o2 → asciiAt cs o o2 := by
  intro fuel
  induction fuel with
  | zero =>
    intro o o2 h
    simp [scanPctGo] at h
    exact asciiAt_empty (by omega)
  | succ fuel ih =>
    intro o o2 h
    simp only [scanPctGo] at h
    split at h
    case isTrue hlt =>
      split at h
      case isTrue hpc =>
        exact asciiAt_join (asciiAt_single (hp _ hpc)) (ih (o + 1) o2 h)
      case isFalse hpc =>
        split at h
        case isTrue hpct =>
          simp only [isPctEncodedAt, decide_eq_true_eq] at hpct
          refine asciiAt_join ?_ (ih (o + 3) o2 h)
          intro i h1 h2
          have hi : i = o ∨ i = o + 1 ∨ i = o + 2 := by omega
          rcases hi with rfl | rfl | rfl
          · rw [hpct.2.1]; omega
          · exact isHexChar_ascii hpct.2.2.1
          · exact isHexChar_ascii hpct.2.2.2
        case isFalse hpct =>
          split at h
          · simp at h
          · simp at h
            exact asciiAt_empty (by omega)
    case isFalse hge =>
      simp at h
      exact asciiAt_empty (by omega)

/-- The path loop only consumes ASCII characters. -/
theorem pathLoopGo_span (cs : Str) (l : Nat) :
    ∀ fuel o o2, pathLoopGo false cs l fuel o = .ok o2 → asciiAt cs o o2 := by
  intro fuel
  induction fuel with
  | zero =>
    intro o o2 h
    simp [pathLoopGo] at h
    exact asciiAt_empty (by omega)
  | succ fuel ih =>
    intro o o2 h
    simp only [pathLoopGo] at h
    split at h
    case isTrue hlt =>
      split at h
      case isTrue hpc =>
        exact asciiAt_join (asciiAt_single (isPathChar_ascii hpc)) (ih (o + 1) o2 h)
      case isFalse hpc =>
        split at h
        case isTrue hpct =>
          simp only [isPctEncodedAt, decide_eq_true_eq] at hpct
          refine asciiAt_join ?_ (ih (o + 3) o2 h)
          intro i h1 h2
          have hi : i = o ∨ i = o + 1 ∨ i = o + 2 := by omega
          rcases hi with rfl | rfl | rfl
          · rw [hpct.2.1]; omega
          · exact isHexChar_ascii hpct.2.2.1
          · exact isHexChar_ascii hpct.2.2.2
        case isFalse hpct =>
          split at h
          · simp at h
          · split at h
            case isTrue hsl =>
              exact asciiAt_join (asciiAt_single (by rw [hsl]; omega)) (ih (o + 1) o2 h)
            case isFalse hsl =>
              simp at h
              exact asciiAt_empty (by omega)
    case isFalse hge =>
      simp at h
      exact asciiAt_empty (by omega)

/-- The scheme loop only consumes ASCII characters. -/
theorem schemeLoopGo_span (cs : Str) (l : Nat) :
    ∀ fuel o, asciiAt cs o (schemeLoopGo cs l fuel o) := by
  intro fuel
  induction fuel with
  | zero => intro o; simp [schemeLoopGo]; exact asciiAt_empty (le_refl o)
  | succ fuel ih =>
    intro o
    simp only [schemeLoopGo]
    split
    case isTrue hc =>
      exact asciiAt_join (asciiAt_single (isSchemeChar_ascii hc.2)) (ih (o + 1))
    case isFalse => exact asciiAt_empty (le_refl o)

/-- The plain while-scan only consumes ASCII characters when its
predicate only accepts ASCII. -/
theorem scanWhileGo_span {p : Nat → Bool} (hp : ∀ c, p c = true → c < 0x80)
    (cs : Str) (l : Nat) :
    ∀ fuel o, asciiAt cs o (scanWhileGo p cs l fuel o) := by
  intro fuel
  induction fuel with
  | zero => intro o; simp [scanWhileGo]; exact asciiAt_empty (le_refl o)
  | succ fuel ih =>
    intro o
    simp only [scanWhileGo]
    split
    case isTrue hc =>
      exact asciiAt_join (asciiAt_single (hp _ hc.2)) (ih (o + 1))
    case isFalse => exact asciiAt_empty (le_refl o)

/-- The port digit loop only consumes ASCII characters. -/
theorem portLoopGo_span (cs : Str) (l : Nat) :
    ∀ fuel v o, asciiAt cs o (portLoopGo cs l fuel v o).2 := by
  intro fuel
  induction fuel with
  | zero => intro v o; simp [portLoopGo]; exact asciiAt_empty (le_refl o)
  | succ fuel ih =>
    intro v o
    simp only [portLoopGo]
    split
    case isTrue hc =>
      exact asciiAt_join (asciiAt_single (isDigit_ascii hc.2.2)) (ih _ (o + 1))
    case isFalse => exact asciiAt_empty (le_refl o)

/-- The hextet scan only consumes ASCII characters. -/
theorem hexScanGo_span (cs : Str) (l start : Nat) :
    ∀ fuel o, asciiAt cs o (hexScanGo cs l start fuel o) := by
  intro fuel
  induction fuel with
  | zero => intro o; simp [hexScanGo]; exact asciiAt_empty (le_refl o)
  | succ fuel ih =>
    intro o
    simp only [hexScanGo]
    split
    case isTrue hc =>
      exact asciiAt_join (asciiAt_single (isHexChar_ascii hc.2.2)) (ih (o + 1))
    case isFalse => exact asciiAt_empty (le_refl o)

/-- The octet loop only consumes ASCII characters up to a success. -/
theorem decOctetGo_span_ok (cs : Str) (l : Nat) :
    ∀ fuel digits value o v o2,
      decOctetGo cs l fuel digits value o = .ok (v, o2) → asciiAt cs o o2 := by
  intro fuel
  induction fuel with
  | zero =>
    intro digits value o v o2 h
    simp only [decOctetGo] at h
    split at h
    · simp at h
    · simp only [Except.ok.injEq, Prod.mk.injEq] at h
      exact asciiAt_empty (by omega)
  | succ fuel ih =>
    intro digits value o v o2 h
    simp only [decOctetGo] at h
    split at h
    case isTrue hc =>
      split at h
      · simp at h
      · exact asciiAt_join (asciiAt_single (isDigit_ascii hc.2)) (ih _ _ (o + 1) v o2 h)
    case isFalse hc =>
      split at h
      · simp at h
      · simp only [Except.ok.injEq, Prod.mk.injEq] at h
        exact asciiAt_empty (by omega)

/-- The octet loop only consumes ASCII characters up to an error. -/
theorem decOctetGo_span_err (cs : Str) (l : Nat) :
    ∀ fuel digits value o e,
      decOctetGo cs l fuel digits value o = .error e → asciiAt cs o e.offset := by
  intro fuel
  induction fuel with
  | zero =>
    intro digits value o e h
    simp only [decOctetGo] at h
    split at h
    · simp only [Except.error.injEq] at h
      subst h
      exact asciiAt_empty (le_refl o)
    · simp at h
  | succ fuel ih =>
    intro digits value o e h
    simp only [decOctetGo] at h
    split at h
    case isTrue hc =>
      split at h
      · simp only [Except.error.injEq] at h
        subst h
        exact asciiAt_empty (le_refl o)
      · exact asciiAt_join (asciiAt_single (isDigit_ascii hc.2)) (ih _ _ (o + 1) e h)
    case isFalse hc =>
      split at h
      · simp only [Except.error.injEq] at h
        subst h
        exact asciiAt_empty (le_refl o)
      · simp at h

end ToolUri

namespace ToolUri

theorem asciiAt_restrict {cs : Str} {a b b2 : Nat}
    (h : asciiAt cs a b) (hb : b2 ≤ b) : asciiAt cs a b2 :=
  fun i h1 h2 => h i h1 (by omega)

theorem expectDot_span {cs : Str} {l o o2 : Nat}
    (h : expectDot cs l o = .ok o2) : asciiAt cs o o2 := by
  simp only [expectDot] at h
  split at h
  case isTrue hc =>
    simp only [Except.ok.injEq] at h
    subst h
    exact asciiAt_single (by rw [hc.2]; omega)
  case isFalse => simp at h

theorem parseIpv4Core_span_ok {cs : Str} {l o : Nat} {s : Str} {o4 : Nat}
    (h : parseIpv4Core cs l o = .ok (s, o4)) : asciiAt cs o o4 := by
  simp only [parseIpv4Core] at h
  obtain ⟨⟨v1, a1⟩, h1, h⟩ := except_bind_ok h
  obtain ⟨b1, hb1, h⟩ := except_bind_ok h
  obtain ⟨⟨v2, a2⟩, h2, h⟩ := except_bind_ok h
  obtain ⟨b2, hb2, h⟩ := except_bind_ok h
  obtain ⟨⟨v3, a3⟩, h3, h⟩ := except_bind_ok h
  obtain ⟨b3, hb3, h⟩ := except_bind_ok h
  obtain ⟨⟨v4, a4⟩, h4, h⟩ := except_bind_ok h
  simp only [Except.ok.injEq, Prod.mk.injEq] at h
  obtain ⟨-, rfl⟩ := h
  exact asciiAt_join (decOctetGo_span_ok cs l 3 0 0 o v1 a1 h1)
    (asciiAt_join (expectDot_span hb1)
      (asciiAt_join (decOctetGo_span_ok cs l 3 0 0 b1 v2 a2 h2)
        (asciiAt_join (expectDot_span hb2)
          (asciiAt_join (decOctetGo_span_ok cs l 3 0 0 b2 v3 a3 h3)
            (asciiAt_join (expectDot_span hb3)
              (decOctetGo_span_ok cs l 3 0 0 b3 v4 a4 h4))))))

theorem parseIpv4Core_span_err {cs : Str} {l o : Nat} {e : Err}
    (h : parseIpv4Core cs l o = .error e) : asciiAt cs o e.offset := by
  simp only [parseIpv4Core] at h
  rcases except_bind_err h with h | ⟨⟨v1, a1⟩, h1, h⟩
  · exact decOctetGo_span_err cs l 3 0 0 o e h
  have s1 := decOctetGo_span_ok cs l 3 0 0 o v1 a1 h1
  have m1 := decOctetGo_mono_ok cs l 3 0 0 o v1 a1 h1
  rcases except_bind_err h with h | ⟨b1, hb1, h⟩
  · simp only [expectDot] at h
    split at h
    · simp at h
    · simp only [Except.error.injEq] at h
      subst h
      exact s1
  have t1 := expectDot_span hb1
  rcases except_bind_err h with h | ⟨⟨v2, a2⟩, h2, h⟩
  · exact asciiAt_join s1 (asciiAt_join t1 (decOctetGo_span_err cs l 3 0 0 b1 e h))
  have s2 := decOctetGo_span_ok cs l 3 0 0 b1 v2 a2 h2
  rcases except_bind_err h with h | ⟨b2, hb2, h⟩
  · simp only [expectDot] at h
    split at h
    · simp at h
    · simp only [Except.error.injEq] at h
      subst h
      exact asciiAt_join s1 (asciiAt_join t1 s2)
  have t2 := expectDot_span hb2
  rcases except_bind_err h with h | ⟨⟨v3, a3⟩, h3, h⟩
  · exact asciiAt_join s1 (asciiAt_join t1 (asciiAt_join s2
      (asciiAt_join t2 (decOctetGo_span_err cs l 3 0 0 b2 e h))))
  have s3 := decOctetGo_span_ok cs l 3 0 0 b2 v3 a3 h3
  rcases except_bind_err h with h | ⟨b3, hb3, h⟩
  · simp only [expectDot] at h
    split at h
    · simp at h
    · simp only [Except.error.injEq] at h
      subst h
      exact asciiAt_join s1 (asciiAt_join t1 (asciiAt_join s2 (asciiAt_join t2 s3)))
  have t3 := expectDot_span hb3
  rcases except_bind_err h with h | ⟨⟨v4, a4⟩, h4, h⟩
  · exact asciiAt_join s1 (asciiAt_join t1 (asciiAt_join s2 (asciiAt_join t2
      (asciiAt_join s3 (asciiAt_join t3 (decOctetGo_span_err cs l 3 0 0 b3 e h))))))
  · simp at h

theorem hexScan_span (cs : Str) (l o : Nat) : asciiAt cs o (hexScan cs l o) :=
  hexScanGo_span cs l o 4 o

theorem ipv6Hextet_span {cs : Str} {l o0 o1 hextets ipv4Start : Nat}
    (hacc : asciiAt cs o0 o1) (hi : ipv4Start = 0 ∨ ipv4Start ≤ o1) :
    (∀ r, ipv6Hextet cs l o1 hextets ipv4Start = .ok (.inl r) →
      asciiAt cs o0 r.1 ∧ (r.2.2.1 = 0 ∨ r.2.2.1 ≤ r.1)) ∧
    (∀ o2 i4, ipv6Hextet cs l o1 hextets ipv4Start = .ok (.inr (o2, i4)) →
      asciiAt cs o0 o2 ∧ (i4 = 0 ∨ i4 ≤ o2)) := by
  have hsc := hexScan_span cs l o1
  have hge := hexScan_ge cs l o1
  simp only [ipv6Hextet]
  generalize hI : (if hextets = 6 then o1 else ipv4Start) = i4v
  have hi4 : i4v = 0 ∨ i4v ≤ o1 := by
    rw [← hI]
    split
    · exact .inr (le_refl o1)
    · exact hi
  constructor
  · intro r h
    split at h
    · split at h
      case isTrue hne =>
        simp only [Except.ok.injEq, Sum.inl.injEq] at h
        subst h
        rcases hi4 with h4 | h4
        · exact absurd h4 hne
        · exact ⟨asciiAt_restrict hacc h4, .inr (le_refl _)⟩
      case isFalse => simp at h
    · simp at h
  · intro o2 i4 h
    split at h
    · split at h
      · simp at h
      · simp at h
    · simp only [Except.ok.injEq, Sum.inr.injEq, Prod.mk.injEq] at h
      obtain ⟨rfl, rfl⟩ := h
      refine ⟨asciiAt_join hacc hsc, ?_⟩
      rcases hi4 with h4 | h4
      · exact .inl h4
      · exact .inr (by omega)

theorem ipv6Body_span {cs : Str} {l o0 o hextets ipv4Start : Nat}
    (hacc : asciiAt cs o0 o) (hi : ipv4Start = 0 ∨ ipv4Start ≤ o) :
    (∀ r, ipv6Body cs l o hextets ipv4Start = .ok (.inl r) →
      asciiAt cs o0 r.1 ∧ (r.2.2.1 = 0 ∨ r.2.2.1 ≤ r.1)) ∧
    (∀ o2 i4, ipv6Body cs l o hextets ipv4Start = .ok (.inr (o2, i4)) →
      asciiAt cs o0 o2 ∧ (i4 = 0 ∨ i4 ≤ o2)) := by
  constructor
  · intro r h
    simp only [ipv6Body] at h
    split at h
    case isTrue hc1 =>
      split at h
      case isTrue hc2 =>
        simp only [Except.ok.injEq, Sum.inl.injEq] at h
        subst h
        refine ⟨?_, .inl rfl⟩
        refine asciiAt_join hacc (asciiAt_join (asciiAt_single (by rw [hc1.2]; omega)) ?_)
        exact asciiAt_single (by rw [hc2.2]; omega)
      case isFalse hc2 =>
        split at h
        · simp at h
        · exact (ipv6Hextet_span
            (asciiAt_join hacc (asciiAt_single (by rw [hc1.2]; omega)))
            (by rcases hi with h4 | h4; exact .inl h4; exact .inr (by omega))).1 r h
    case isFalse hc1 =>
      split at h
      case isTrue hne =>
        simp only [Except.ok.injEq, Sum.inl.injEq] at h
        subst h
        rcases hi with h4 | h4
        · exact absurd h4 hne
        · exact ⟨asciiAt_restrict hacc h4, .inr (le_refl _)⟩
      case isFalse =>
        split at h
        · simp at h
        · exact (ipv6Hextet_span hacc hi).1 r h
  · intro o2 i4 h
    simp only [ipv6Body] at h
    split at h
    case isTrue hc1 =>
      split at h
      · simp at h
      · split at h
        · simp at h
        · exact (ipv6Hextet_span
            (asciiAt_join hacc (asciiAt_single (by rw [hc1.2]; omega)))
            (by rcases hi with h4 | h4; exact .inl h4; exact .inr (by omega))).2 o2 i4 h
    case isFalse hc1 =>
      split at h
      · simp at h
      · split at h
        · simp at h
        · exact (ipv6Hextet_span hacc hi).2 o2 i4 h

theorem ipv6Phase1Go_span (cs : Str) (l o0 : Nat) (fuel : Nat) :
    ∀ o hextets ipv4Start o1 hx1 i41 c1,
      asciiAt cs o0 o → (ipv4Start = 0 ∨ ipv4Start ≤ o) →
      ipv6Phase1Go cs l fuel o hextets ipv4Start = .ok (o1, hx1, i41, c1) →
      asciiAt cs o0 o1 := by
  induction fuel with
  | zero =>
    intro o hextets ipv4Start o1 hx1 i41 c1 hacc hi h
    simp only [ipv6Phase1Go, Except.ok.injEq, Prod.mk.injEq] at h
    obtain ⟨rfl, -, -, -⟩ := h
    exact hacc
  | succ fuel ih =>
    intro o hextets ipv4Start o1 hx1 i41 c1 hacc hi h
    simp only [ipv6Phase1Go] at h
    split at h
    · cases hb : ipv6Body cs l o hextets ipv4Start with
      | error e => rw [hb] at h; simp at h
      | ok r =>
        rw [hb] at h
        cases r with
        | inl r2 =>
          simp only [Except.ok.injEq] at h
          have hs := (ipv6Body_span hacc hi).1 r2 hb
          obtain ⟨rfl, -, -, -⟩ : r2.1 = o1 ∧ r2.2.1 = hx1 ∧ r2.2.2.1 = i41 ∧ r2.2.2.2 = c1 := by
            obtain ⟨a, b, c, d⟩ := r2
            simp at h
            simp [h]
          exact hs.1
        | inr oi =>
          obtain ⟨o2, i4⟩ := oi
          have hs := (ipv6Body_span hacc hi).2 o2 i4 hb
          exact ih o2 (hextets + 1) i4 o1 hx1 i41 c1 hs.1 hs.2 h
    · simp only [Except.ok.injEq, Prod.mk.injEq] at h
      obtain ⟨rfl, -, -, -⟩ := h
      exact hacc

theorem ipv6Phase2Go_span (cs : Str) (l o0 : Nat) (fuel : Nat) :
    ∀ o hextets ipv4Start o1 i41,
      asciiAt cs o0 o →
      ipv6Phase2Go cs l fuel o hextets ipv4Start = .ok (o1, i41) →
      asciiAt cs o0 o1 := by
  induction fuel with
  | zero =>
    intro o hextets ipv4Start o1 i41 hacc h
    simp only [ipv6Phase2Go, Except.ok.injEq, Prod.mk.injEq] at h
    obtain ⟨rfl, -⟩ := h
    exact hacc
  | succ fuel ih =>
    intro o hextets ipv4Start o1 i41 hacc h
    simp only [ipv6Phase2Go] at h
    split at h
    · split at h
      · simp at h
      · split at h
        · simp only [Except.ok.injEq, Prod.mk.injEq] at h
          obtain ⟨rfl, -⟩ := h
          exact asciiAt_join hacc (hexScan_span cs l o)
        · split at h
          case isTrue hc =>
            exact ih (hexScan cs l o + 1) (hextets + 1) ipv4Start o1 i41
              (asciiAt_join hacc (asciiAt_join (hexScan_span cs l o)
                (asciiAt_single (by rw [hc.2]; omega)))) h
          case isFalse =>
            simp only [Except.ok.injEq, Prod.mk.injEq] at h
            obtain ⟨rfl, -⟩ := h
            exact hacc
    · simp only [Except.ok.injEq, Prod.mk.injEq] at h
      obtain ⟨rfl, -⟩ := h
      exact hacc

theorem parseIpv6Core_span {cs : Str} {l o : Nat} {s : Str} {o2 : Nat}
    (h : parseIpv6Core cs l o = .ok (s, o2)) : asciiAt cs o o2 := by
  simp only [parseIpv6Core] at h
  obtain ⟨⟨oA, hxA, i4A, cA⟩, h1, h⟩ := except_bind_ok h
  have s1 := ipv6Phase1Go_span cs l o 8 o 0 0 oA hxA i4A cA
    (asciiAt_empty (le_refl o)) (.inl rfl) h1
  have tail : ∀ y : Nat × Nat, asciiAt cs o y.1 →
      ∀ (h : (if y.1 = y.2 then
            (do
              let d ← parseIpv4Core cs l y.1
              let o3 ← pure d.2
              if o3 ≠ l then Except.error ⟨"Invalid IPv6 address", o3⟩
              else Except.ok (extract cs o o3, o3) : P (Str × Nat))
          else do
            let o3 ← pure y.1
            if o3 ≠ l then Except.error ⟨"Invalid IPv6 address", o3⟩
            else Except.ok (extract cs o o3, o3)) = .ok (s, o2)),
        asciiAt cs o o2 := by
    intro y hy h
    split at h
    · obtain ⟨⟨s4, o4⟩, h4, h⟩ := except_bind_ok h
      have s4p := parseIpv4Core_span_ok h4
      obtain ⟨o3, h3, h⟩ := except_bind_ok h
      simp only [pure, Except.pure, Except.ok.injEq] at h3
      split at h
      · simp at h
      · simp only [Except.ok.injEq, Prod.mk.injEq] at h
        obtain ⟨-, rfl⟩ := h
        subst h3
        exact asciiAt_join hy s4p
    · obtain ⟨o3, h3, h⟩ := except_bind_ok h
      simp only [pure, Except.pure, Except.ok.injEq] at h3
      split at h
      · simp at h
      · simp only [Except.ok.injEq, Prod.mk.injEq] at h
        obtain ⟨-, rfl⟩ := h
        subst h3
        exact hy
  split at h
  case isTrue hcomp =>
    obtain ⟨⟨oB, i4B⟩, h2, h⟩ := except_bind_ok h
    exact tail (oB, i4B) (ipv6Phase2Go_span cs l o 7 oA hxA i4A oB i4B s1 h2) h
  case isFalse hcomp =>
    obtain ⟨⟨oB, i4B⟩, h2, h⟩ := except_bind_ok h
    simp only [Except.ok.injEq, Prod.mk.injEq] at h2
    obtain ⟨rfl, -⟩ := h2
    exact tail (oA, i4B) s1 h

end ToolUri

namespace ToolUri

theorem parseIpvFutureCore_span {cs : Str} {l o : Nat} {s : Str} {o2 : Nat}
    (h : parseIpvFutureCore false cs l o = .ok (s, o2)) : asciiAt cs o o2 := by
  simp only [parseIpvFutureCore, bind, Except.bind, pure, Except.pure, scanWhile] at h
  split at h
  case isTrue hc1 =>
    split at h
    case isTrue hc2 =>
      split at h
      case isTrue hc3 =>
        split at h
        case isTrue hc4 =>
          simp only [Except.ok.injEq, Prod.mk.injEq] at h
          obtain ⟨-, rfl⟩ := h
          set m := scanWhileGo isHexChar cs l (l - (o + 1 + 1)) (o + 1 + 1) with hm
          refine asciiAt_join (asciiAt_single (by rw [hc1.2]; omega))
            (asciiAt_join (asciiAt_single (isHexChar_ascii hc2.2)) ?_)
          refine asciiAt_join (scanWhileGo_span (fun c hc => isHexChar_ascii hc) cs l _ _)
            (asciiAt_join (asciiAt_single (by rw [hc3.2]; omega)) ?_)
          exact asciiAt_join (asciiAt_single (isUserinfoChar_ascii hc4.2))
            (scanWhileGo_span (fun c hc => isUserinfoChar_ascii hc) cs l _ _)
        case isFalse => simp at h
      case isFalse => simp at h
    case isFalse => simp at h
  case isFalse => simp at h

theorem parsePort_span {cs : Str} {l o : Nat} {p : Option Str} {o2 : Nat}
    (h : parsePort cs l o = .ok (p, o2)) : asciiAt cs o o2 := by
  simp only [parsePort] at h
  split at h
  case isTrue hc =>
    split at h
    · simp at h
    · simp only [Except.ok.injEq, Prod.mk.injEq] at h
      obtain ⟨-, rfl⟩ := h
      exact asciiAt_join (asciiAt_single (by rw [hc.2]; omega))
        (portLoopGo_span cs l (l - (o + 1)) 0 (o + 1))
  case isFalse =>
    simp only [Except.ok.injEq, Prod.mk.injEq] at h
    obtain ⟨-, rfl⟩ := h
    exact asciiAt_empty (le_refl o)

theorem parseHost_span {cs : Str} {l o : Nat} {hi : HostInfo} {o2 : Nat}
    (h : parseHost false cs l o = .ok (hi, o2)) : asciiAt cs o o2 := by
  simp only [parseHost] at h
  split at h
  case isTrue hc =>
    split at h
    case isTrue hv =>
      cases h4 : parseIpvFutureCore false cs ((idxOfFrom cs 0x5d (o + 1)).getD 0) (o + 1) with
      | error e => rw [h4] at h; simp [Except.map, Bind.bind, Except.bind] at h
      | ok so =>
        obtain ⟨s4, o4⟩ := so
        rw [h4] at h
        simp only [Except.map, Bind.bind, Except.bind] at h
        have hs := parseIpvFutureCore_span h4
        split at h
        case isTrue hcl =>
          simp only [Except.ok.injEq, Prod.mk.injEq] at h
          obtain ⟨-, rfl⟩ := h
          exact asciiAt_join (asciiAt_single (by rw [hc.2]; omega))
            (asciiAt_join hs (asciiAt_single (by rw [hcl.2]; omega)))
        case isFalse => simp at h
    case isFalse hv =>
      cases h4 : parseIpv6Core cs ((idxOfFrom cs 0x5d (o + 1)).getD 0) (o + 1) with
      | error e => rw [h4] at h; simp [Except.map, Bind.bind, Except.bind] at h
      | ok so =>
        obtain ⟨s4, o4⟩ := so
        rw [h4] at h
        simp only [Except.map, Bind.bind, Except.bind] at h
        have hs := parseIpv6Core_span h4
        split at h
        case isTrue hcl =>
          simp only [Except.ok.injEq, Prod.mk.injEq] at h
          obtain ⟨-, rfl⟩ := h
          exact asciiAt_join (asciiAt_single (by rw [hc.2]; omega))
            (asciiAt_join hs (asciiAt_single (by rw [hcl.2]; omega)))
        case isFalse => simp at h
  case isFalse hc =>
    split at h
    next s4 o4 heq =>
      simp only [Except.ok.injEq, Prod.mk.injEq] at h
      obtain ⟨-, rfl⟩ := h
      exact parseIpv4Core_span_ok heq
    next e heq =>
      have se := parseIpv4Core_span_err heq
      split at h
      next e2 heq2 => simp at h
      next o3 heq2 =>
        simp only [Except.ok.injEq, Prod.mk.injEq] at h
        obtain ⟨-, rfl⟩ := h
        exact asciiAt_join se
          (scanPctGo_span (fun c hc => isHostChar_ascii hc) cs l (l - e.offset) e.offset o3 heq2)

theorem parseAuthority_span {cs : Str} {l o : Nat} {ai : AuthInfo} {o2 : Nat}
    (h : parseAuthority false cs l o = .ok (ai, o2)) : asciiAt cs o o2 := by
  simp only [parseAuthority] at h
  split at h
  case isTrue hat =>
    obtain ⟨oU, hU, h⟩ := except_bind_ok h
    have su := scanPctGo_span (fun c hc => isUserinfoChar_ascii hc) cs l (l - o) o oU hU
    split at h
    case isTrue hcl =>
      obtain ⟨⟨ui, oV⟩, hV, h⟩ := except_bind_ok h
      simp only [pure, Except.pure, Except.ok.injEq, Prod.mk.injEq] at hV
      obtain ⟨-, rfl⟩ := hV
      obtain ⟨⟨hi2, oH⟩, hH, h⟩ := except_bind_ok h
      have sh := parseHost_span hH
      obtain ⟨⟨prt, oP⟩, hP, h⟩ := except_bind_ok h
      have sp := parsePort_span hP
      simp only [Except.ok.injEq, Prod.mk.injEq] at h
      obtain ⟨-, rfl⟩ := h
      exact asciiAt_join su
        (asciiAt_join (asciiAt_single (by rw [hcl.2]; omega)) (asciiAt_join sh sp))
    case isFalse => simp [Bind.bind, Except.bind] at h
  case isFalse hat =>
    obtain ⟨⟨ui, oV⟩, hV, h⟩ := except_bind_ok h
    simp only [pure, Except.pure, Except.ok.injEq, Prod.mk.injEq] at hV
    obtain ⟨-, rfl⟩ := hV
    obtain ⟨⟨hi2, oH⟩, hH, h⟩ := except_bind_ok h
    have sh := parseHost_span hH
    obtain ⟨⟨prt, oP⟩, hP, h⟩ := except_bind_ok h
    have sp := parsePort_span hP
    simp only [Except.ok.injEq, Prod.mk.injEq] at h
    obtain ⟨-, rfl⟩ := h
    exact asciiAt_join sh sp

end ToolUri

namespace ToolUri

theorem parsePath_span {cs : Str} {l o : Nat} {p : Str} {o2 : Nat}
    (h : parsePath false cs l o = .ok (p, o2)) : asciiAt cs o o2 := by
  simp only [parsePath] at h
  obtain ⟨oP, hP, h⟩ := except_bind_ok h
  simp only [Except.ok.injEq, Prod.mk.injEq] at h
  obtain ⟨-, rfl⟩ := h
  exact pathLoopGo_span cs l (l - o) o oP hP

theorem parseQuery_span {cs : Str} {l o : Nat} {q : Str} {o2 : Nat}
    (h : parseQuery false cs l o = .ok (q, o2)) : asciiAt cs o o2 := by
  simp only [parseQuery] at h
  obtain ⟨oQ, hQ, h⟩ := except_bind_ok h
  simp only [Except.ok.injEq, Prod.mk.injEq] at h
  obtain ⟨-, rfl⟩ := h
  exact scanPctGo_span (fun c hc => isQueryChar_ascii hc) cs l (l - o) o oQ hQ

theorem parseFragment_span {cs : Str} {l o : Nat} {f : Str} {o2 : Nat}
    (h : parseFragment false cs l o = .ok (f, o2)) : asciiAt cs o o2 := by
  simp only [parseFragment] at h
  obtain ⟨oF, hF, h⟩ := except_bind_ok h
  simp only [Except.ok.injEq, Prod.mk.injEq] at h
  obtain ⟨-, rfl⟩ := h
  exact scanPctGo_span (fun c hc => isFragmentChar_ascii hc) cs l (l - o) o oF hF

theorem parseRelativePart_span {cs : Str} {l o : Nat} {u : Uri} {m : Nat}
    (h : parseRelativePart false cs l o = .ok (u, m)) : asciiAt cs o m := by
  simp only [parseRelativePart] at h
  split at h
  case isTrue hsl =>
    obtain ⟨⟨ai, oA⟩, hA, h⟩ := except_bind_ok h
    have sA := parseAuthority_span hA
    split at h
    · simp [Bind.bind, Except.bind] at h
    case isFalse hpc =>
      obtain ⟨⟨p, oP⟩, hP, h⟩ := except_bind_ok h
      have sP := parsePath_span hP
      simp only [Except.ok.injEq, Prod.mk.injEq] at h
      obtain ⟨-, rfl⟩ := h
      refine asciiAt_join (asciiAt_single (by rw [hsl.2.1]; omega)) ?_
      exact asciiAt_join (asciiAt_single (by rw [hsl.2.2]; omega)) (asciiAt_join sA sP)
  case isFalse hsl =>
    obtain ⟨⟨p, oP⟩, hP, h⟩ := except_bind_ok h
    have sP := parsePath_span hP
    simp only [Except.ok.injEq, Prod.mk.injEq] at h
    obtain ⟨-, rfl⟩ := h
    exact sP

theorem parseRelativeRef_span {cs : Str} {l o : Nat} {u : Uri} {n : Nat}
    (h : parseRelativeRef false cs l o = .ok (u, n)) : asciiAt cs o n := by
  simp only [parseRelativeRef] at h
  obtain ⟨⟨u0, o1⟩, h0, h⟩ := except_bind_ok h
  have s0 := parseRelativePart_span h0
  have core : ∀ (qopt : Option Str) (o2 : Nat),
      asciiAt cs o o2 →
      ∀ (h : (if o2 < l ∧ chAt cs o2 = 0x23 then
            ((parseFragment false cs l (o2 + 1)).map (fun x => ((some x.1 : Option Str), x.2)) >>=
              (fun x => Except.ok ({ u0 with query := qopt, fragment := x.1 }, x.2)) : P (Uri × Nat))
          else (pure ((none : Option Str), o2) >>=
              (fun x => Except.ok ({ u0 with query := qopt, fragment := x.1 }, x.2)) : P (Uri × Nat)))
          = .ok (u, n)),
      asciiAt cs o n := by
    intro qopt o2 hacc h
    split at h
    case isTrue hfc =>
      obtain ⟨⟨fopt0, o3⟩, hF, h⟩ := except_bind_ok h
      obtain ⟨⟨f, oF⟩, hF2, hF3⟩ := except_map_ok hF
      have sf := parseFragment_span hF2
      simp only [Prod.mk.injEq] at hF3
      obtain ⟨rfl, rfl⟩ := hF3
      simp only [Except.ok.injEq, Prod.mk.injEq] at h
      obtain ⟨-, rfl⟩ := h
      exact asciiAt_join hacc
        (asciiAt_join (asciiAt_single (by rw [hfc.2]; omega)) sf)
    case isFalse hfc =>
      obtain ⟨⟨fopt0, o3⟩, hF, h⟩ := except_bind_ok h
      simp only [pure, Except.pure, Except.ok.injEq, Prod.mk.injEq] at hF
      obtain ⟨rfl, rfl⟩ := hF
      simp only [Except.ok.injEq, Prod.mk.injEq] at h
      obtain ⟨-, rfl⟩ := h
      exact hacc
  split at h
  case isTrue hqc =>
    obtain ⟨⟨qopt0, o2⟩, hQ, h⟩ := except_bind_ok h
    obtain ⟨⟨q, oQ⟩, hQ2, hQ3⟩ := except_map_ok hQ
    have sq := parseQuery_span hQ2
    simp only [Prod.mk.injEq] at hQ3
    obtain ⟨rfl, rfl⟩ := hQ3
    refine core (some q) oQ ?_ h
    exact asciiAt_join s0 (asciiAt_join (asciiAt_single (by rw [hqc.2]; omega)) sq)
  case isFalse hqc =>
    obtain ⟨⟨qopt0, o2⟩, hQ, h⟩ := except_bind_ok h
    simp only [pure, Except.pure, Except.ok.injEq, Prod.mk.injEq] at hQ
    obtain ⟨rfl, rfl⟩ := hQ
    exact core none o1 s0 h

theorem parseUriCore_span {cs : Str} {l o : Nat} {u : Uri} {n : Nat}
    (h : parseUriCore false cs l o = .ok (u, n)) : asciiAt cs o n := by
  simp only [parseUriCore] at h
  obtain ⟨⟨sch, o1⟩, hS, h⟩ := except_bind_ok h
  have sS : asciiAt cs o o1 := by
    simp only [parseScheme] at hS
    split at hS
    case isTrue hc =>
      simp only [Except.ok.injEq, Prod.mk.injEq] at hS
      obtain ⟨-, rfl⟩ := hS
      exact asciiAt_join (asciiAt_single (by
          have := hc.2
          simp [isAlpha] at this
          omega))
        (schemeLoopGo_span cs l (l - (o + 1)) (o + 1))
    case isFalse => simp at hS
  split at h
  case isTrue hc =>
    obtain ⟨o2, hO2, h⟩ := except_bind_ok h
    simp only [pure, Except.pure, Except.ok.injEq] at hO2
    subst hO2
    obtain ⟨⟨u0, o3⟩, hR, h⟩ := except_bind_ok h
    have sR := parseRelativeRef_span hR
    simp only [Except.ok.injEq, Prod.mk.injEq] at h
    obtain ⟨-, rfl⟩ := h
    exact asciiAt_join sS (asciiAt_join (asciiAt_single (by rw [hc.2]; omega)) sR)
  case isFalse => simp [Bind.bind, Except.bind] at h

/-- Every character of a string parseUri accepts is ASCII. -/
theorem parseUriStr_ascii {cs : Str} {u : Uri}
    (h : parseUriStr cs = .ok u) : ∀ c ∈ cs, c < 0x80 := by
  simp only [parseUriStr] at h
  obtain ⟨⟨u0, o⟩, hC, h⟩ := except_bind_ok h
  have s := parseUriCore_span hC
  split at h
  · simp at h
  case isFalse hne =>
    intro c hc
    obtain ⟨i, hi, rfl⟩ := List.getElem_of_mem hc
    have ho : o = cs.length := by omega
    have := s i (Nat.zero_le i) (by omega)
    rwa [chAt_of_lt hi] at this

end ToolUri

namespace ToolUri

theorem scanPctGo_congr (p q : Nat → Bool) {cs : Str} {l : Nat}
    (hpq : ∀ i, p (chAt cs i) = q (chAt cs i)) :
    ∀ fuel o, scanPctGo p cs l fuel o = scanPctGo q cs l fuel o := by
  intro fuel
  induction fuel with
  | zero => intro o; rfl
  | succ fuel ih =>
    intro o
    simp only [scanPctGo]
    rw [hpq o]
    split
    · split
      · exact ih (o + 1)
      · split
        · exact ih (o + 3)
        · rfl
    · rfl

theorem pathLoopGo_congr {cs : Str} {l : Nat}
    (hpq : ∀ i, isPathChar (chAt cs i) true = isPathChar (chAt cs i) false) :
    ∀ fuel o, pathLoopGo true cs l fuel o = pathLoopGo false cs l fuel o := by
  intro fuel
  induction fuel with
  | zero => intro o; rfl
  | succ fuel ih =>
    intro o
    simp only [pathLoopGo]
    rw [hpq o]
    split
    · split
      · exact ih (o + 1)
      · split
        · exact ih (o + 3)
        · split
          · rfl
          · split
            · exact ih (o + 1)
            · rfl
    · rfl

theorem scanWhileGo_congr (p q : Nat → Bool) {cs : Str} {l : Nat}
    (hpq : ∀ i, p (chAt cs i) = q (chAt cs i)) :
    ∀ fuel o, scanWhileGo p cs l fuel o = scanWhileGo q cs l fuel o := by
  intro fuel
  induction fuel with
  | zero => intro o; rfl
  | succ fuel ih =>
    intro o
    simp only [scanWhileGo]
    rw [hpq o]
    split
    · exact ih (o + 1)
    · rfl

theorem parsePath_congr {cs : Str} (hA : ∀ c ∈ cs, c < 0xa0) (l o : Nat) :
    parsePath true cs l o = parsePath false cs l o := by
  simp only [parsePath,
    pathLoopGo_congr (fun i => isPathChar_agree (chAt_low hA i))]

theorem parseQuery_congr {cs : Str} (hA : ∀ c ∈ cs, c < 0xa0) (l o : Nat) :
    parseQuery true cs l o = parseQuery false cs l o := by
  simp only [parseQuery, scanPct,
    scanPctGo_congr (fun c => isQueryChar c true) (fun c => isQueryChar c false)
      (fun i => isQueryChar_agree (chAt_low hA i))]

theorem parseFragment_congr {cs : Str} (hA : ∀ c ∈ cs, c < 0xa0) (l o : Nat) :
    parseFragment true cs l o = parseFragment false cs l o := by
  simp only [parseFragment, scanPct,
    scanPctGo_congr (fun c => isFragmentChar c true) (fun c => isFragmentChar c false)
      (fun i => isFragmentChar_agree (chAt_low hA i))]

theorem parseUserinfoScan_congr {cs : Str} (hA : ∀ c ∈ cs, c < 0xa0) (l o : Nat) :
    parseUserinfoScan true cs l o = parseUserinfoScan false cs l o := by
  simp only [parseUserinfoScan, scanPct,
    scanPctGo_congr (fun c => isUserinfoChar c true) (fun c => isUserinfoChar c false)
      (fun i => isUserinfoChar_agree (chAt_low hA i))]

theorem parseIpvFutureCore_congr {cs : Str} (hA : ∀ c ∈ cs, c < 0xa0) (l o : Nat) :
    parseIpvFutureCore true cs l o = parseIpvFutureCore false cs l o := by
  have hU : ∀ i, isUserinfoChar (chAt cs i) true = isUserinfoChar (chAt cs i) false :=
    fun i => isUserinfoChar_agree (chAt_low hA i)
  simp only [parseIpvFutureCore, scanWhile,
    scanWhileGo_congr (fun c => isUserinfoChar c true) (fun c => isUserinfoChar c false) hU, hU]

theorem parseHost_congr {cs : Str} (hA : ∀ c ∈ cs, c < 0xa0) (l o : Nat) :
    parseHost true cs l o = parseHost false cs l o := by
  simp only [parseHost, parseIpvFutureCore_congr hA, scanPct,
    scanPctGo_congr (fun c => isHostChar c true) (fun c => isHostChar c false)
      (fun i => isHostChar_agree (chAt_low hA i))]

theorem parseAuthority_congr {cs : Str} (hA : ∀ c ∈ cs, c < 0xa0) (l o : Nat) :
    parseAuthority true cs l o = parseAuthority false cs l o := by
  simp only [parseAuthority, parseUserinfoScan_congr hA, parseHost_congr hA]

theorem parseRelativePart_congr {cs : Str} (hA : ∀ c ∈ cs, c < 0xa0) (l o : Nat) :
    parseRelativePart true cs l o = parseRelativePart false cs l o := by
  simp only [parseRelativePart, parseAuthority_congr hA, parsePath_congr hA]

theorem parseRelativeRef_congr {cs : Str} (hA : ∀ c ∈ cs, c < 0xa0) (l o : Nat) :
    parseRelativeRef true cs l o = parseRelativeRef false cs l o := by
  simp only [parseRelativeRef, parseRelativePart_congr hA, parseQuery_congr hA,
    parseFragment_congr hA]

theorem parseUriCore_congr {cs : Str} (hA : ∀ c ∈ cs, c < 0xa0) (l o : Nat) :
    parseUriCore true cs l o = parseUriCore false cs l o := by
  simp only [parseUriCore, parseRelativeRef_congr hA]

end ToolUri

namespace ToolUri

/-- C8: every string parseUri accepts, parseIri accepts with the same
record; and for each designated component — userinfo, host, path, query
(both a ucschar and an iprivate example) and fragment — some string with
a non-ASCII code point there is accepted by parseIri and rejected by
parseUri. -/
theorem claim8_iri_extends_uri :
    (∀ (s : Str) (u : Uri), parseUriStr s = .ok u → parseIriStr s = .ok u) ∧
    ((parseIriStr (u16 "x://π@h")).isOk = true ∧ (parseUriStr (u16 "x://π@h")).isOk = false) ∧
    ((parseIriStr (u16 "x://π")).isOk = true ∧ (parseUriStr (u16 "x://π")).isOk = false) ∧
    ((parseIriStr (u16 "x://h/π")).isOk = true ∧ (parseUriStr (u16 "x://h/π")).isOk = false) ∧
    ((parseIriStr (u16 "x://h?π")).isOk = true ∧ (parseUriStr (u16 "x://h?π")).isOk = false) ∧
    ((parseIriStr (u16 "x://h?" ++ [0xe000])).isOk = true ∧
      (parseUriStr (u16 "x://h?" ++ [0xe000])).isOk = false) ∧
    ((parseIriStr (u16 "x://h#π")).isOk = true ∧ (parseUriStr (u16 "x://h#π")).isOk = false) := by
  refine ⟨?_, ⟨rfl, rfl⟩, ⟨rfl, rfl⟩, ⟨rfl, rfl⟩, ⟨rfl, rfl⟩, ⟨rfl, rfl⟩, ⟨rfl, rfl⟩⟩
  intro s u h
  have ha80 := parseUriStr_ascii h
  have hA : ∀ c ∈ s, c < 0xa0 := fun c hc => by have := ha80 c hc; omega
  simp only [parseUriStr] at h
  obtain ⟨⟨u0, o⟩, hC, h⟩ := except_bind_ok h
  split at h
  · simp at h
  case isFalse hne =>
    simp only [Except.ok.injEq] at h
    subst h
    simp only [parseIriStr, parseUriCore_congr hA, Bind.bind, Except.bind, hC]
    rw [if_neg hne]

/-- C8 witness: the inclusion applied to a concrete accepted string. -/
theorem claim8_iri_extends_uri_witness :
    parseUriStr (u16 "a:b") = .ok uAB ∧ parseIriStr (u16 "a:b") = .ok uAB :=
  ⟨rfl, claim8_iri_extends_uri.1 (u16 "a:b") uAB rfl⟩

end ToolUri

namespace ToolUri

/-- The reference indices stored directly in a node. -/
def nodeRefs : JNode → List Nat
  | .arr items => items.filterMap (fun w => match w with | .ref j => some j | _ => none)
  | .obj fields => fields.filterMap (fun kw => match kw.2 with | .ref j => some j | _ => none)

/-- A heap whose references all point strictly downward (so the object
graph is acyclic); the shape a well-formed JavaScript value graph
without reference cycles can always be laid out in. -/
def DownHeap (h : Heap) : Prop :=
  ∀ i, i < h.length → ∀ j ∈ nodeRefs (h.getD i (.obj [])), j < i

instance (h : Heap) : Decidable (DownHeap h) := by
  unfold DownHeap
  infer_instance

/-- The recursion measure of a value against a heap size. -/
def vbound (len : Nat) : JVal → Nat
  | .ref i => min (i + 1) len + 1
  | _ => 1

theorem vbound_le (len : Nat) (v : JVal) : vbound len v ≤ len + 1 := by
  cases v <;> simp [vbound]

theorem downHeap_child {h : Heap} {i j : Nat} (hD : DownHeap h)
    (hj : j ∈ nodeRefs (h.getD i (.obj []))) : j < i ∧ i < h.length := by
  by_cases hi : i < h.length
  · exact ⟨hD i hi j hj, hi⟩
  · rw [List.getD_eq_getElem?_getD, List.getElem?_eq_none (by omega)] at hj
    simp [nodeRefs] at hj

theorem nodeRefs_arr_mem {items : List JVal} {j : Nat}
    (hw : JVal.ref j ∈ items) : j ∈ nodeRefs (.arr items) := by
  simp only [nodeRefs, List.mem_filterMap]
  exact ⟨.ref j, hw, rfl⟩

theorem nodeRefs_obj_mem {fields : List (Str × JVal)} {k : Str} {j : Nat}
    (hw : (k, JVal.ref j) ∈ fields) : j ∈ nodeRefs (.obj fields) := by
  simp only [nodeRefs, List.mem_filterMap]
  exact ⟨(k, .ref j), hw, rfl⟩

theorem stringifyArrItems_total {sv : JVal → E (Option Str)} :
    ∀ {items : List JVal}, (∀ w ∈ items, ∃ r, sv w = .ok r) →
      ∃ rs, stringifyArrItems sv items = .ok rs := by
  intro items
  induction items with
  | nil => intro _; exact ⟨[], rfl⟩
  | cons w ws ih =>
    intro hall
    obtain ⟨r, hr⟩ := hall w (by simp)
    obtain ⟨rs, hrs⟩ := ih (fun x hx => hall x (by simp [hx]))
    refine ⟨r.getD (u16 "null") :: rs, ?_⟩
    simp only [stringifyArrItems, hr, hrs, Bind.bind, Except.bind]

theorem stringifyObjFields_total {sv : JVal → E (Option Str)} :
    ∀ {fields : List (Str × JVal)}, (∀ kw ∈ fields, ∃ r, sv kw.2 = .ok r) →
      ∃ rs, stringifyObjFields sv fields = .ok rs := by
  intro fields
  induction fields with
  | nil => intro _; exact ⟨[], rfl⟩
  | cons kw kws ih =>
    intro hall
    obtain ⟨k, w⟩ := kw
    obtain ⟨r, hr⟩ := hall (k, w) (by simp)
    obtain ⟨rs, hrs⟩ := ih (fun x hx => hall x (by simp [hx]))
    cases r with
    | none => exact ⟨rs, by simp only [stringifyObjFields, hr, hrs, Bind.bind, Except.bind]⟩
    | some str =>
      exact ⟨(jsonQuote k ++ [0x3a] ++ str) :: rs,
        by simp only [stringifyObjFields, hr, hrs, Bind.bind, Except.bind]⟩

theorem stringifyVal_total {h : Heap} (hD : DownHeap h) :
    ∀ fuel (v : JVal) (stack : List Nat),
      vbound h.length v ≤ fuel →
      (∀ j ∈ stack, ∀ i, v = .ref i → i < j) →
      ∃ r, stringifyVal h fuel stack v = .ok r := by
  intro fuel
  induction fuel with
  | zero =>
    intro v stack hb _
    cases v <;> simp [vbound] at hb
  | succ fuel ih =>
    intro v stack hb hstack
    cases v with
    | undef => exact ⟨none, rfl⟩
    | jnull => exact ⟨_, rfl⟩
    | jstr s => exact ⟨_, rfl⟩
    | jint n => exact ⟨_, rfl⟩
    | jbool b => exact ⟨_, rfl⟩
    | ref i =>
      have hnotin : i ∉ stack := fun hin => absurd (hstack i hin i rfl) (lt_irrefl i)
      simp only [stringifyVal, stringifyStep]
      rw [if_neg hnotin]
      have hchild : ∀ j, j ∈ nodeRefs (h.getD i (.obj [])) →
          vbound h.length (JVal.ref j) ≤ fuel ∧
          (∀ k ∈ i :: stack, j < k) := by
        intro j hj
        obtain ⟨hji, hil⟩ := downHeap_child hD hj
        constructor
        · simp only [vbound] at hb ⊢
          rw [Nat.min_eq_left (by omega : i + 1 ≤ h.length)] at hb
          rw [Nat.min_eq_left (by omega : j + 1 ≤ h.length)]
          omega
        · intro k hk
          rcases List.mem_cons.mp hk with rfl | hk
          · exact hji
          · exact lt_trans hji (hstack k hk i rfl)
      cases hnode : h.getD i (.obj []) with
      | arr items =>
        have hil : i < h.length := by
          by_contra hge
          rw [List.getD_eq_getElem?_getD, List.getElem?_eq_none (by omega)] at hnode
          simp at hnode
        have hfuel : 1 ≤ fuel := by
          simp only [vbound] at hb
          rw [Nat.min_eq_left (by omega : i + 1 ≤ h.length)] at hb
          omega
        have hall : ∀ w ∈ items, ∃ r, stringifyVal h fuel (i :: stack) w = .ok r := by
          intro w hw
          cases w with
          | ref j =>
            have hj : j ∈ nodeRefs (h.getD i (.obj [])) := by
              rw [hnode]; exact nodeRefs_arr_mem hw
            obtain ⟨hb2, hs2⟩ := hchild j hj
            exact ih (.ref j) (i :: stack) hb2 (fun k hk i2 he => by cases he; exact hs2 k hk)
          | undef => exact ih .undef (i :: stack) (by simp [vbound]; omega) (by simp)
          | jnull => exact ih .jnull (i :: stack) (by simp [vbound]; omega) (by simp)
          | jstr s => exact ih (.jstr s) (i :: stack) (by simp [vbound]; omega) (by simp)
          | jint n => exact ih (.jint n) (i :: stack) (by simp [vbound]; omega) (by simp)
          | jbool b => exact ih (.jbool b) (i :: stack) (by simp [vbound]; omega) (by simp)
        obtain ⟨rs, hrs⟩ := stringifyArrItems_total hall
        exact ⟨_, by simp only [hrs, Bind.bind, Except.bind]; rfl⟩
      | obj fields =>
        by_cases hil : i < h.length
        · have hfuel : 1 ≤ fuel := by
            simp only [vbound] at hb
            rw [Nat.min_eq_left (by omega : i + 1 ≤ h.length)] at hb
            omega
          have hall : ∀ kw ∈ fields, ∃ r, stringifyVal h fuel (i :: stack) kw.2 = .ok r := by
            intro kw hkw
            obtain ⟨k, w⟩ := kw
            cases w with
            | ref j =>
              have hj : j ∈ nodeRefs (h.getD i (.obj [])) := by
                rw [hnode]; exact nodeRefs_obj_mem hkw
              obtain ⟨hb2, hs2⟩ := hchild j hj
              exact ih (.ref j) (i :: stack) hb2 (fun k2 hk i2 he => by cases he; exact hs2 k2 hk)
            | undef => exact ih .undef (i :: stack) (by simp [vbound]; omega) (by simp)
            | jnull => exact ih .jnull (i :: stack) (by simp [vbound]; omega) (by simp)
            | jstr s => exact ih (.jstr s) (i :: stack) (by simp [vbound]; omega) (by simp)
            | jint n => exact ih (.jint n) (i :: stack) (by simp [vbound]; omega) (by simp)
            | jbool b => exact ih (.jbool b) (i :: stack) (by simp [vbound]; omega) (by simp)
          obtain ⟨rs, hrs⟩ := stringifyObjFields_total hall
          exact ⟨_, by simp only [hrs, Bind.bind, Except.bind]; rfl⟩
        · have hf : fields = [] := by
            rw [List.getD_eq_getElem?_getD, List.getElem?_eq_none (by omega)] at hnode
            simpa using hnode.symm
          subst hf
          exact ⟨_, by simp only [stringifyObjFields, Bind.bind, Except.bind]; rfl⟩

/-- coerceUriVariableString never fails against a downward heap. -/
theorem coerce_total {h : Heap} (hD : DownHeap h) (v : JVal) :
    ∃ r, coerceUriVariableString h v = .ok r := by
  cases v with
  | undef => exact ⟨none, rfl⟩
  | jnull => exact ⟨none, rfl⟩
  | jstr s => exact ⟨some s, rfl⟩
  | jint n =>
    exact stringifyVal_total hD (h.length + 1) (.jint n) [] (by simp [vbound]) (by simp)
  | jbool b =>
    exact stringifyVal_total hD (h.length + 1) (.jbool b) [] (by simp [vbound]) (by simp)
  | ref i =>
    exact stringifyVal_total hD (h.length + 1) (.ref i) []
      (vbound_le h.length (JVal.ref i)) (by simp)

end ToolUri

namespace ToolUri

theorem flattenItems_total {recur : List Nat → Str → JVal → E (List (Str × JVal) × List Nat)} :
    ∀ {items : List JVal}, (∀ w ∈ items, ∀ seen path, ∃ r, recur seen path w = .ok r) →
    ∀ (seen : List Nat) (path : Str) (idx : Nat),
      ∃ r, flattenItems recur items seen path idx = .ok r := by
  intro items
  induction items with
  | nil => intro _ seen path idx; exact ⟨([], seen), rfl⟩
  | cons w ws ih =>
    intro hall seen path idx
    obtain ⟨⟨ps, seen2⟩, hr⟩ :=
      hall w (by simp) seen (path ++ [0x5b] ++ pctEncode (natToStr idx) ++ [0x5d])
    obtain ⟨⟨qs, seen3⟩, hrs⟩ := ih (fun x hx => hall x (by simp [hx])) seen2 path (idx + 1)
    exact ⟨(ps ++ qs, seen3), by simp only [flattenItems, hr, hrs, Bind.bind, Except.bind]⟩

theorem flattenFields_total {recur : List Nat → Str → JVal → E (List (Str × JVal) × List Nat)} :
    ∀ {fields : List (Str × JVal)},
      (∀ kw ∈ fields, ∀ seen path, ∃ r, recur seen path kw.2 = .ok r) →
    ∀ (seen : List Nat) (path : Str),
      ∃ r, flattenFields recur fields seen path = .ok r := by
  intro fields
  induction fields with
  | nil => intro _ seen path; exact ⟨([], seen), rfl⟩
  | cons kw kws ih =>
    intro hall seen path
    obtain ⟨k, w⟩ := kw
    obtain ⟨⟨ps, seen2⟩, hr⟩ :=
      hall (k, w) (by simp) seen (path ++ [0x5b] ++ pctEncode k ++ [0x5d])
    obtain ⟨⟨qs, seen3⟩, hrs⟩ := ih (fun x hx => hall x (by simp [hx])) seen2 path
    exact ⟨(ps ++ qs, seen3), by simp only [flattenFields, hr, hrs, Bind.bind, Except.bind]⟩

theorem flattenVal_total {h : Heap} (hD : DownHeap h) :
    ∀ fuel (v : JVal), vbound h.length v ≤ fuel →
      ∀ (seen : List Nat) (path : Str), ∃ r, flattenVal h fuel seen path v = .ok r := by
  intro fuel
  induction fuel with
  | zero =>
    intro v hb
    cases v <;> simp [vbound] at hb
  | succ fuel ih =>
    intro v hb seen path
    cases v with
    | undef => exact ⟨_, rfl⟩
    | jnull => exact ⟨_, rfl⟩
    | jstr s => exact ⟨_, rfl⟩
    | jint n => exact ⟨_, rfl⟩
    | jbool b => exact ⟨_, rfl⟩
    | ref i =>
      simp only [flattenVal, flattenStep]
      by_cases hin : i ∈ seen
      · rw [if_pos hin]
        exact ⟨_, rfl⟩
      rw [if_neg hin]
      have hchild : ∀ j, j ∈ nodeRefs (h.getD i (.obj [])) →
          vbound h.length (JVal.ref j) ≤ fuel := by
        intro j hj
        obtain ⟨hji, hil⟩ := downHeap_child hD hj
        simp only [vbound] at hb ⊢
        rw [Nat.min_eq_left (by omega : i + 1 ≤ h.length)] at hb
        rw [Nat.min_eq_left (by omega : j + 1 ≤ h.length)]
        omega
      cases hnode : h.getD i (.obj []) with
      | arr items =>
        have hil : i < h.length := by
          by_contra hge
          rw [List.getD_eq_getElem?_getD, List.getElem?_eq_none (by omega)] at hnode
          simp at hnode
        have hfuel : 1 ≤ fuel := by
          simp only [vbound] at hb
          rw [Nat.min_eq_left (by omega : i + 1 ≤ h.length)] at hb
          omega
        refine flattenItems_total ?_ (i :: seen) path 0
        intro w hw seen2 path2
        cases w with
        | ref j =>
          refine ih (.ref j) (hchild j ?_) seen2 path2
          rw [hnode]
          exact nodeRefs_arr_mem hw
        | undef => exact ih .undef (by simp [vbound]; omega) seen2 path2
        | jnull => exact ih .jnull (by simp [vbound]; omega) seen2 path2
        | jstr s => exact ih (.jstr s) (by simp [vbound]; omega) seen2 path2
        | jint n => exact ih (.jint n) (by simp [vbound]; omega) seen2 path2
        | jbool b => exact ih (.jbool b) (by simp [vbound]; omega) seen2 path2
      | obj fields =>
        by_cases hil : i < h.length
        · have hfuel : 1 ≤ fuel := by
            simp only [vbound] at hb
            rw [Nat.min_eq_left (by omega : i + 1 ≤ h.length)] at hb
            omega
          refine flattenFields_total ?_ (i :: seen) path
          intro kw hkw seen2 path2
          obtain ⟨k, w⟩ := kw
          cases w with
          | ref j =>
            refine ih (.ref j) (hchild j ?_) seen2 path2
            rw [hnode]
            exact nodeRefs_obj_mem hkw
          | undef => exact ih .undef (by simp [vbound]; omega) seen2 path2
          | jnull => exact ih .jnull (by simp [vbound]; omega) seen2 path2
          | jstr s => exact ih (.jstr s) (by simp [vbound]; omega) seen2 path2
          | jint n => exact ih (.jint n) (by simp [vbound]; omega) seen2 path2
          | jbool b => exact ih (.jbool b) (by simp [vbound]; omega) seen2 path2
        · have hf : fields = [] := by
            rw [List.getD_eq_getElem?_getD, List.getElem?_eq_none (by omega)] at hnode
            simpa using hnode.symm
          subst hf
          exact flattenFields_total (fun kw hkw => by simp at hkw) (i :: seen) path

end ToolUri

namespace ToolUri

theorem expandUriVariableCompositeArrayGo_total {h : Heap} (hD : DownHeap h)
    (v : UriVariable) :
    ∀ (items : List JVal) (result : Str) (first : Bool),
      ∃ r, expandUriVariableCompositeArrayGo h v items result first = .ok r := by
  intro items
  induction items with
  | nil => intro result first; exact ⟨_, rfl⟩
  | cons w ws ih =>
    intro result first
    obtain ⟨c, hc⟩ := coerce_total hD w
    cases c with
    | none =>
      obtain ⟨r, hr⟩ := ih result first
      exact ⟨r, by simp only [expandUriVariableCompositeArrayGo, hc, Bind.bind, Except.bind, hr]⟩
    | some s =>
      obtain ⟨r, hr⟩ := ih ((if first then result else result ++ v.compositeSeparator) ++
        pctEncode s v.allow) false
      exact ⟨r, by simp only [expandUriVariableCompositeArrayGo, hc, Bind.bind, Except.bind, hr]⟩

theorem expandUriVariableCompositeObjectGo_total {h : Heap} (hD : DownHeap h)
    (v : UriVariable) :
    ∀ (fields : List (Str × JVal)) (result : Str) (first : Bool),
      ∃ r, expandUriVariableCompositeObjectGo h v fields result first = .ok r := by
  intro fields
  induction fields with
  | nil => intro result first; exact ⟨_, rfl⟩
  | cons kw kws ih =>
    intro result first
    obtain ⟨k, w⟩ := kw
    obtain ⟨c, hc⟩ := coerce_total hD w
    cases c with
    | none =>
      obtain ⟨r, hr⟩ := ih result first
      exact ⟨r, by simp only [expandUriVariableCompositeObjectGo, hc, Bind.bind, Except.bind, hr]⟩
    | some s =>
      obtain ⟨r, hr⟩ := ih ((if first then result else result ++ v.compositeSeparator) ++
        pctEncode k ++ v.compositeSeparator ++ pctEncode s v.allow) false
      exact ⟨r, by simp only [expandUriVariableCompositeObjectGo, hc, Bind.bind, Except.bind, hr]⟩

theorem explodeUriVariableNamedArrayGo_total {h : Heap} (hD : DownHeap h)
    (v : UriVariable) :
    ∀ (items : List JVal) (result : Str) (first : Bool),
      ∃ r, explodeUriVariableNamedArrayGo h v items result first = .ok r := by
  intro items
  induction items with
  | nil => intro result first; exact ⟨_, rfl⟩
  | cons w ws ih =>
    intro result first
    obtain ⟨c, hc⟩ := coerce_total hD w
    cases c with
    | none =>
      obtain ⟨r, hr⟩ := ih result first
      exact ⟨r, by simp only [explodeUriVariableNamedArrayGo, hc, Bind.bind, Except.bind, hr]⟩
    | some s =>
      obtain ⟨r, hr⟩ := ih
        (if (if first then result else result ++ v.separator) ++ v.name = [] then
          (if first then result else result ++ v.separator) ++ v.name ++ v.empty
        else (if first then result else result ++ v.separator) ++ v.name ++ [0x3d] ++
          pctEncode s v.allow) false
      exact ⟨r, by simp only [explodeUriVariableNamedArrayGo, hc, Bind.bind, Except.bind, hr]⟩

theorem explodeUriVariableNamedObjectGo_total {h : Heap} (hD : DownHeap h)
    (v : UriVariable) :
    ∀ (fields : List (Str × JVal)) (result : Str) (first : Bool),
      ∃ r, explodeUriVariableNamedObjectGo h v fields result first = .ok r := by
  intro fields
  induction fields with
  | nil => intro result first; exact ⟨_, rfl⟩
  | cons kw kws ih =>
    intro result first
    obtain ⟨k, w⟩ := kw
    obtain ⟨c, hc⟩ := coerce_total hD w
    cases c with
    | none =>
      obtain ⟨r, hr⟩ := ih result first
      exact ⟨r, by simp only [explodeUriVariableNamedObjectGo, hc, Bind.bind, Except.bind, hr]⟩
    | some s =>
      obtain ⟨r, hr⟩ := ih
        (if (if first then result else result ++ v.separator) ++ pctEncode k = [] then
          (if first then result else result ++ v.separator) ++ pctEncode k ++ v.empty
        else (if first then result else result ++ v.separator) ++ pctEncode k ++ [0x3d] ++
          pctEncode s v.allow) false
      exact ⟨r, by simp only [explodeUriVariableNamedObjectGo, hc, Bind.bind, Except.bind, hr]⟩

theorem explodeUriVariableUnnamedArrayGo_total {h : Heap} (hD : DownHeap h)
    (v : UriVariable) :
    ∀ (items : List JVal) (result : Str) (first : Bool),
      ∃ r, explodeUriVariableUnnamedArrayGo h v items result first = .ok r := by
  intro items
  induction items with
  | nil => intro result first; exact ⟨_, rfl⟩
  | cons w ws ih =>
    intro result first
    obtain ⟨c, hc⟩ := coerce_total hD w
    cases c with
    | none =>
      obtain ⟨r, hr⟩ := ih result first
      exact ⟨r, by simp only [explodeUriVariableUnnamedArrayGo, hc, Bind.bind, Except.bind, hr]⟩
    | some s =>
      obtain ⟨r, hr⟩ := ih ((if first then result else result ++ v.separator) ++
        pctEncode s v.allow) false
      exact ⟨r, by simp only [explodeUriVariableUnnamedArrayGo, hc, Bind.bind, Except.bind, hr]⟩

theorem explodeUriVariableUnnamedObjectGo_total {h : Heap} (hD : DownHeap h)
    (v : UriVariable) :
    ∀ (fields : List (Str × JVal)) (result : Str) (first : Bool),
      ∃ r, explodeUriVariableUnnamedObjectGo h v fields result first = .ok r := by
  intro fields
  induction fields with
  | nil => intro result first; exact ⟨_, rfl⟩
  | cons kw kws ih =>
    intro result first
    obtain ⟨k, w⟩ := kw
    obtain ⟨c, hc⟩ := coerce_total hD w
    cases c with
    | none =>
      obtain ⟨r, hr⟩ := ih result first
      exact ⟨r, by simp only [explodeUriVariableUnnamedObjectGo, hc, Bind.bind, Except.bind, hr]⟩
    | some s =>
      obtain ⟨r, hr⟩ := ih ((if first then result else result ++ v.separator) ++
        pctEncode k ++ [0x3d] ++ pctEncode s v.allow) false
      exact ⟨r, by simp only [explodeUriVariableUnnamedObjectGo, hc, Bind.bind, Except.bind, hr]⟩

theorem explodeUriVariableDeepObjectGo_total {h : Heap} (hD : DownHeap h)
    (v : UriVariable) :
    ∀ (pairs : List (Str × JVal)) (result : Str) (first : Bool),
      ∃ r, explodeUriVariableDeepObjectGo h v pairs result first = .ok r := by
  intro pairs
  induction pairs with
  | nil => intro result first; exact ⟨_, rfl⟩
  | cons kw kws ih =>
    intro result first
    obtain ⟨k, w⟩ := kw
    obtain ⟨c, hc⟩ := coerce_total hD w
    cases c with
    | none =>
      obtain ⟨r, hr⟩ := ih result first
      exact ⟨r, by simp only [explodeUriVariableDeepObjectGo, hc, Bind.bind, Except.bind, hr]⟩
    | some s =>
      obtain ⟨r, hr⟩ := ih
        (if (if first then result else result ++ v.separator) ++ pctEncode k v.allow = [] then
          (if first then result else result ++ v.separator) ++ pctEncode k v.allow ++ v.empty
        else (if first then result else result ++ v.separator) ++ pctEncode k v.allow ++
          [0x3d] ++ pctEncode s v.allow) false
      exact ⟨r, by simp only [explodeUriVariableDeepObjectGo, hc, Bind.bind, Except.bind, hr]⟩

theorem expandUriVariable_total {h : Heap} (hD : DownHeap h) (v : UriVariable)
    (value : JVal) : ∃ r, expandUriVariable h v value = .ok r := by
  have hstr : ∀ w : JVal, ∃ r, expandUriVariableString h v w = .ok r := by
    intro w
    obtain ⟨c, hc⟩ := coerce_total hD w
    cases c with
    | none => exact ⟨none, by simp only [expandUriVariableString, hc, Bind.bind, Except.bind]⟩
    | some s =>
      by_cases hn : v.named = true
      · by_cases hs : s = []
        · exact ⟨_, by
            simp only [expandUriVariableString, hc, Bind.bind, Except.bind, if_pos hn, if_pos hs]
            rfl⟩
        · exact ⟨_, by
            simp only [expandUriVariableString, hc, Bind.bind, Except.bind, if_pos hn, if_neg hs]
            rfl⟩
      · exact ⟨_, by
          simp only [expandUriVariableString, hc, Bind.bind, Except.bind, if_neg hn]
          rfl⟩
  cases value with
  | ref i =>
    simp only [expandUriVariable]
    split
    · simp only [expandUriVariableComposite]
      cases hnode : h.getD i (.obj []) with
      | arr items =>
        obtain ⟨⟨res, first⟩, hr⟩ := expandUriVariableCompositeArrayGo_total hD v items [] true
        simp only [expandUriVariableCompositeArray, Bind.bind, Except.bind, hr]
        split
        · exact ⟨_, rfl⟩
        · split
          · exact ⟨_, rfl⟩
          · exact ⟨_, rfl⟩
      | obj fields =>
        obtain ⟨⟨res, first⟩, hr⟩ := expandUriVariableCompositeObjectGo_total hD v fields [] true
        simp only [expandUriVariableCompositeObject, Bind.bind, Except.bind, hr]
        split
        · exact ⟨_, rfl⟩
        · split
          · exact ⟨_, rfl⟩
          · exact ⟨_, rfl⟩
    · simp only [explodeUriVariableComposite]
      split
      · simp only [explodeUriVariableDeepObject]
        obtain ⟨⟨pairs, seen⟩, hf⟩ := flattenVal_total hD (h.length + 1) (.ref i)
          (vbound_le h.length (JVal.ref i)) [] v.name
        obtain ⟨⟨res, first⟩, hr⟩ := explodeUriVariableDeepObjectGo_total hD v pairs [] true
        simp only [hf, hr, Bind.bind, Except.bind]
        exact ⟨_, rfl⟩
      · split
        · cases hnode : h.getD i (.obj []) with
          | arr items =>
            obtain ⟨⟨res, first⟩, hr⟩ := explodeUriVariableNamedArrayGo_total hD v items [] true
            simp only [explodeUriVariableNamedArray, Bind.bind, Except.bind, hr]
            exact ⟨_, rfl⟩
          | obj fields =>
            obtain ⟨⟨res, first⟩, hr⟩ := explodeUriVariableNamedObjectGo_total hD v fields [] true
            simp only [explodeUriVariableNamedObject, Bind.bind, Except.bind, hr]
            exact ⟨_, rfl⟩
        · cases hnode : h.getD i (.obj []) with
          | arr items =>
            obtain ⟨⟨res, first⟩, hr⟩ := explodeUriVariableUnnamedArrayGo_total hD v items [] true
            simp only [explodeUriVariableUnnamedArray, Bind.bind, Except.bind, hr]
            exact ⟨_, rfl⟩
          | obj fields =>
            obtain ⟨⟨res, first⟩, hr⟩ := explodeUriVariableUnnamedObjectGo_total hD v fields [] true
            simp only [explodeUriVariableUnnamedObject, Bind.bind, Except.bind, hr]
            exact ⟨_, rfl⟩
  | undef => exact hstr .undef
  | jnull => exact hstr .jnull
  | jstr s => exact hstr (.jstr s)
  | jint n => exact hstr (.jint n)
  | jbool b => exact hstr (.jbool b)

theorem expandUriExpressionGo_total {h : Heap} (hD : DownHeap h)
    (bindings : Str → JVal) (e : UriExpression) :
    ∀ (vars : List UriVariable) (result : Str) (first : Bool),
      ∃ r, expandUriExpressionGo h bindings e vars result first = .ok r := by
  intro vars
  induction vars with
  | nil => intro result first; exact ⟨result, rfl⟩
  | cons v vs ih =>
    intro result first
    simp only [expandUriExpressionGo]
    split
    · exact ih result first
    · obtain ⟨c, hc⟩ := expandUriVariable_total hD v (bindings v.name)
      cases c with
      | none =>
        obtain ⟨r, hr⟩ := ih result first
        exact ⟨r, by simp only [hc, Bind.bind, Except.bind, hr]⟩
      | some ex =>
        obtain ⟨r, hr⟩ := ih (result ++ (if first then e.first else e.separator) ++ ex) false
        exact ⟨r, by simp only [hc, Bind.bind, Except.bind, hr]⟩

theorem expandUriExpression_total {h : Heap} (hD : DownHeap h)
    (bindings : Str → JVal) (e : UriExpression) :
    ∃ r, expandUriExpression h bindings e = .ok r :=
  expandUriExpressionGo_total hD bindings e e.vars [] true

theorem expandUriTemplateParts_total {h : Heap} (hD : DownHeap h)
    (bindings : Str → JVal) :
    ∀ parts : List UriTemplatePart, ∃ r, expandUriTemplateParts h bindings parts = .ok r := by
  intro parts
  induction parts with
  | nil => exact ⟨[], rfl⟩
  | cons p rest ih =>
    obtain ⟨r, hr⟩ := ih
    cases p with
    | lit s =>
      exact ⟨s ++ r, by simp only [expandUriTemplateParts, hr, Except.map]⟩
    | expr e =>
      obtain ⟨x, hx⟩ := expandUriExpression_total hD bindings e
      exact ⟨x ++ r, by simp only [expandUriTemplateParts, hx, hr, Bind.bind, Except.bind]⟩

/-- When every variable of an expression is bound to an absent value, the
expansion is the empty string. -/
theorem expandUriExpressionGo_absent {h : Heap} {bindings : Str → JVal}
    {e : UriExpression} :
    ∀ (vars : List UriVariable) (result : Str) (first : Bool),
      (∀ v ∈ vars, bindings v.name = .undef ∨ bindings v.name = .jnull) →
      expandUriExpressionGo h bindings e vars result first = .ok result := by
  intro vars
  induction vars with
  | nil => intro result first _; rfl
  | cons v vs ih =>
    intro result first hall
    simp only [expandUriExpressionGo]
    rw [if_pos (hall v (by simp))]
    exact ih result first (fun x hx => hall x (by simp [hx]))

end ToolUri

namespace ToolUri

/-- C9 counterexample: with x bound to a self-referential object, the
pre-parsed template {x} takes the plain composite path, whose value
coercion is JSON.stringify, and the stringify cycle detection throws
instead of bailing out silently: expansion raises the circularity error
rather than returning a string. -/
theorem claim9_counterexample :
    expandUriTemplateStr (u16 "{x}") (fun _ => .ref 0) [JNode.obj [(u16 "self", .ref 0)]]
      = .ok (.error .circular) := rfl

/-- The witness heap: one scalar array and one object referring down to it. -/
def hW9 : Heap := [JNode.arr [.jstr (u16 "v")], JNode.obj [(u16 "k", .ref 0)]]

/-- The witness template: a literal followed by one one-variable expression. -/
def tW9 : UriTemplate :=
  ⟨[.lit (u16 "a"), .expr ⟨[], [{ name := u16 "x" }], [], [0x2c]⟩]⟩

/-- The witness bindings: every name maps to the downward object. -/
def bW9 : Str → JVal := fun _ => .ref 1

/-- C9 amended: on a heap whose references all point downward (every
acyclic value graph has such a layout), expansion of a pre-parsed
template is total — it returns a string for every template and bindings,
with absent-valued variables expanded to nothing; but cycle handling is
silent only on the deep-object path (the claim's contrary is the
counterexample, where a cycle reaching JSON.stringify raises). -/
theorem claim9_expansion_amended (h : Heap) (t : UriTemplate) (bindings : Str → JVal)
    (hD : DownHeap h) :
    (∃ s, expandUriTemplate t bindings h = .ok s) ∧
    (∀ e : UriExpression,
      (∀ v ∈ e.vars, bindings v.name = .undef ∨ bindings v.name = .jnull) →
      expandUriExpression h bindings e = .ok []) ∧
    expandUriVariable [JNode.obj [(u16 "self", .ref 0)]]
      { name := u16 "a", explode := true, deepObject := true } (.ref 0) = .ok none := by
  refine ⟨expandUriTemplateParts_total hD bindings t.parts, ?_, rfl⟩
  intro e hall
  exact expandUriExpressionGo_absent e.vars [] true hall

/-- C9 witness: the amended law applied to a concrete downward heap,
template and bindings. -/
theorem claim9_expansion_amended_witness :
    DownHeap hW9 ∧
    ((∃ s, expandUriTemplate tW9 bW9 hW9 = .ok s) ∧
      (∀ e : UriExpression,
        (∀ v ∈ e.vars, bW9 v.name = .undef ∨ bW9 v.name = .jnull) →
        expandUriExpression hW9 bW9 e = .ok []) ∧
      expandUriVariable [JNode.obj [(u16 "self", .ref 0)]]
        { name := u16 "a", explode := true, deepObject := true } (.ref 0) = .ok none) :=
  ⟨by decide, claim9_expansion_amended hW9 tW9 bW9 (by decide)⟩

end ToolUri

namespace ToolUri

theorem pctByte_ne_nil (b : Nat) : pctByte b ≠ [] := by
  simp [pctByte]

theorem pctEncodeUtf8_ne_nil {cp : Nat} (h : cp ≤ 0x10ffff) : pctEncodeUtf8 cp ≠ [] := by
  simp only [pctEncodeUtf8]
  split
  · simp [pctByte]
  · split
    · simp [pctByte]
    · split
      · simp [pctByte]
      · simp [pctByte]

theorem cpAt_le {s : Str} (hall : ∀ c ∈ s, c < 0x10000) {i : Nat} (hi : i < s.length) :
    cpAt s i ≤ 0x10ffff := by
  have h1 : chAt s i < 0x10000 := hall _ (chAt_mem hi)
  simp only [cpAt]
  split
  case isTrue hc =>
    split
    case isTrue hc2 => omega
    case isFalse => omega
  case isFalse => omega

theorem pctEncodeGo_ne_nil {cset : UriCharset} {s : Str}
    (hall : ∀ c ∈ s, c < 0x10000) :
    ∀ fuel (result : Str) (start offset : Nat),
      (result ≠ [] ∨ (start < s.length ∧ start ≤ offset)) →
      pctEncodeGo cset s fuel result start offset ≠ [] := by
  intro fuel
  induction fuel with
  | zero =>
    intro result start offset hinv
    simp only [pctEncodeGo]
    split
    case isTrue hs => simp [List.drop_eq_nil_iff]; omega
    case isFalse hs =>
      rcases hinv with hr | ⟨hs2, -⟩
      · exact hr
      · omega
  | succ fuel ih =>
    intro result start offset hinv
    simp only [pctEncodeGo]
    split
    case isTrue ho =>
      split
      case isTrue hu =>
        refine ih result start (offset + 1) ?_
        rcases hinv with hr | ⟨hs2, hso⟩
        · exact .inl hr
        · exact .inr ⟨hs2, by omega⟩
      case isFalse hu =>
        refine ih _ _ _ (.inl ?_)
        have := pctEncodeUtf8_ne_nil (cpAt_le hall ho)
        simp [this]
    case isFalse ho =>
      split
      case isTrue hs => simp [List.drop_eq_nil_iff]; omega
      case isFalse hs =>
        rcases hinv with hr | ⟨hs2, -⟩
        · exact hr
        · omega

/-- pctEncode of a nonempty string of UTF-16 code units is nonempty. -/
theorem pctEncode_ne_nil {s : Str} (hne : s ≠ []) (hall : ∀ c ∈ s, c < 0x10000)
    (cset : UriCharset) : pctEncode s cset ≠ [] := by
  refine pctEncodeGo_ne_nil hall (s.length + 1) [] 0 0 (.inr ⟨?_, le_refl 0⟩)
  cases s
  · exact absurd rfl hne
  · simp

end ToolUri

namespace ToolUri

/-- C10: in all three object expansions the key is percent-encoded with
the default unreserved set while the value is encoded with the allow set
of the variable; concretely, with allow = reserved a slash is encoded in
key position but passes through in value position. -/
theorem claim10_object_keys_default_encoding
    (h : Heap) (v : UriVariable) (k s : Str)
    (hne : k ≠ []) (hk : ∀ c ∈ k, c < 0x10000) :
    expandUriVariableCompositeObject h v [(k, .jstr s)] =
      .ok (some (pctEncode k ++ v.compositeSeparator ++ pctEncode s v.allow)) ∧
    explodeUriVariableNamedObject h v [(k, .jstr s)] =
      .ok (some (pctEncode k ++ [0x3d] ++ pctEncode s v.allow)) ∧
    explodeUriVariableUnnamedObject h v [(k, .jstr s)] =
      .ok (some (pctEncode k ++ [0x3d] ++ pctEncode s v.allow)) ∧
    pctEncode (u16 "/") .unreserved = u16 "%2F" ∧
    pctEncode (u16 "/") .reserved = u16 "/" := by
  have henc := pctEncode_ne_nil hne hk .unreserved
  refine ⟨?_, ?_, ?_, rfl, rfl⟩
  · simp [expandUriVariableCompositeObject, expandUriVariableCompositeObjectGo,
      coerceUriVariableString, Bind.bind, Except.bind]
  · simp [explodeUriVariableNamedObject, explodeUriVariableNamedObjectGo,
      coerceUriVariableString, Bind.bind, Except.bind, henc]
  · simp [explodeUriVariableUnnamedObject, explodeUriVariableUnnamedObjectGo,
      coerceUriVariableString, Bind.bind, Except.bind]

/-- C10 witness: the law applied to the key "k/" and value "/" with
allow = reserved — the key's slash is encoded, the value's is not. -/
theorem claim10_object_keys_default_encoding_witness :
    (u16 "k/" ≠ []) ∧ (∀ c ∈ u16 "k/", c < 0x10000) ∧
    (expandUriVariableCompositeObject [] { name := u16 "x", allow := .reserved }
        [(u16 "k/", .jstr (u16 "/"))] =
      .ok (some (pctEncode (u16 "k/") ++
        ({ name := u16 "x", allow := .reserved } : UriVariable).compositeSeparator ++
        pctEncode (u16 "/") ({ name := u16 "x", allow := .reserved } : UriVariable).allow)) ∧
    explodeUriVariableNamedObject [] { name := u16 "x", allow := .reserved }
        [(u16 "k/", .jstr (u16 "/"))] =
      .ok (some (pctEncode (u16 "k/") ++ [0x3d] ++
        pctEncode (u16 "/") ({ name := u16 "x", allow := .reserved } : UriVariable).allow)) ∧
    explodeUriVariableUnnamedObject [] { name := u16 "x", allow := .reserved }
        [(u16 "k/", .jstr (u16 "/"))] =
      .ok (some (pctEncode (u16 "k/") ++ [0x3d] ++
        pctEncode (u16 "/") ({ name := u16 "x", allow := .reserved } : UriVariable).allow)) ∧
    pctEncode (u16 "/") .unreserved = u16 "%2F" ∧
    pctEncode (u16 "/") .reserved = u16 "/") :=
  ⟨by decide, by decide,
    claim10_object_keys_default_encoding [] { name := u16 "x", allow := .reserved }
      (u16 "k/") (u16 "/") (by decide) (by decide)⟩

end ToolUri
